import Mathlib

/-!
NCCL communicator of marian: sharding, rank topology, state exchange

A shallow embedding of `src/training/communicator_nccl.h` (class
`marian::NCCLCommunicator`) and of the launch configuration of the
element-wise kernels of `src/amun/half/mblas/matrix_functions.h`.

* `size_t` is the 64-bit unsigned type of the CUDA/Linux target; every
  `size_t` addition and multiplication of the source is reduced modulo
  `SIZE_T_MOD = 2^64`.
* `float` payloads are only moved around by the functions embedded here,
  so the element type is an arbitrary type `α`.
* `ABORT_IF` and undefined behaviour (division by zero, out-of-range
  access) are the two kinds of `Fault`; a function that can hit one
  returns `Except Fault _`.
* The workers of the thread pool run concurrently with the thread that calls
  `foreach`: the embedding of `foreach` takes their schedule as an argument,
  and what is proved of the parallel mode holds for every schedule.
-/

set_option autoImplicit false

namespace marian

/-! ## Data model -/

/-- Number of values of the 64-bit `size_t`. -/
def SIZE_T_MOD : Nat := 18446744073709551616

/-- Ways in which a call of the communicator ends without returning. -/
inductive Fault where
  /-- Line 72: `ABORT_IF(size * numShards != dataSize(), ...)`. -/
  | unevenShards
  /-- Line 288: `ABORT_IF(distributedParams.size() != localParams.size(), ...)`. -/
  | paramsSizeMismatch
  /-- Line 297: `ABORT_IF(distributedParamShards[i]->size() != end-begin, ...)`. -/
  | shardSizeMismatch
  /-- Undefined behaviour of C++: division by zero, access out of range. -/
  | undefinedBehaviour
  deriving DecidableEq, Repr

deriving instance DecidableEq for Except

/-- The part of `ExpressionGraph` the communicator touches: `params()->vals()`
and `params()->grads()`, each a flat tensor. -/
structure ExpressionGraph (α : Type) where
  vals : List α
  grads : List α
  deriving DecidableEq, Repr

/-- The coordinator `IMPIWrapper` as the communicator uses it: `myMPIRank()`,
`numMPIProcesses()` and `bCast(vector<float>&, rootRank)`, the latter given by
the content of the buffer after the call. -/
structure IMPIWrapper (α : Type) where
  myMPIRank : Nat
  numMPIProcesses : Nat
  bCast : List α → Nat → List α

/-- The fields of `NCCLCommunicator` that the embedded member functions read:
`graphs_` (one per local device; `devices_` has the same size, lines 126-128)
and `mpi_` (may be null). -/
structure NCCLCommunicator (α : Type) where
  graphs : List (ExpressionGraph α)
  mpi : Option (IMPIWrapper α)

variable {α : Type}

/-! ## Rank topology (lines 47-59) -/

/-- Lines 47-52: map a local device index to a global rank. -/
def myNcclRank (c : NCCLCommunicator α) (localDeviceIndex : Nat) : Nat :=
  match c.mpi with
  | some m => (m.myMPIRank * c.graphs.length + localDeviceIndex) % SIZE_T_MOD
  | none => localDeviceIndex

/-- Lines 54-59: total number of devices across all MPI processes. -/
def numNcclRanks (c : NCCLCommunicator α) : Nat :=
  match c.mpi with
  | some m => (m.numMPIProcesses * c.graphs.length) % SIZE_T_MOD
  | none => c.graphs.length

/-! ## Shard partitioning (lines 61-89) -/

/-- Lines 61-63: `graphs_[0]->params()->vals()->size()`. With no graph the
access is out of range; the only caller `shardSize` is undefined there in any
case (its divisor is zero), so the value chosen for that case is never used. -/
def dataSize (c : NCCLCommunicator α) : Nat :=
  match c.graphs with
  | [] => 0
  | g :: _ => g.vals.length

/-- Lines 68-75: the shard size, with the check that all shards are equal. -/
def shardSize (c : NCCLCommunicator α) : Except Fault Nat :=
  let numShards := numNcclRanks c
  if numShards = 0 then .error .undefinedBehaviour
  else
    let size := ((dataSize c + numShards - 1) % SIZE_T_MOD) / numShards
    if (size * numShards) % SIZE_T_MOD ≠ dataSize c then .error .unevenShards
    else .ok size

/-- Lines 78-84: the index range `(begin, end)` of the shard of a rank. -/
def ncclRankShardRange (c : NCCLCommunicator α) (rank : Nat) : Except Fault (Nat × Nat) :=
  match shardSize c with
  | .error f => .error f
  | .ok size =>
    let begin_ := (rank * size) % SIZE_T_MOD
    let end_ := (begin_ + size) % SIZE_T_MOD
    let end_ := min end_ (dataSize c)
    .ok (begin_, end_)

/-- Lines 87-89: the shard range of a local device. -/
def localShardRange (c : NCCLCommunicator α) (localDeviceIndex : Nat) : Except Fault (Nat × Nat) :=
  ncclRankShardRange c (myNcclRank c localDeviceIndex)

/-- Whether element index `x` lies in the half-open range that
`ncclRankShardRange` returns for `rank`. -/
def inShard (c : NCCLCommunicator α) (rank x : Nat) : Bool :=
  match ncclRankShardRange c rank with
  | .ok (b, e) => decide (b ≤ x) && decide (x < e)
  | .error _ => false

/-! ## Parallel dispatch (lines 199-229) -/

/-- How a call of `foreach` ends. -/
inductive Exit (ε : Type) where
  /-- The call returns to its caller. -/
  | returned
  /-- An exception leaves the call. -/
  | raised (e : ε)
  /-- The process aborts or the behaviour is undefined. -/
  | fault (f : Fault)
  deriving DecidableEq, Repr

/-- The `std::future<void>` of a device in the member `threadResults_`
(line 27), by the state of its shared state. -/
inductive Future (ε : Type) where
  /-- No future has been assigned by this call: there is no shared state. -/
  | invalid
  /-- The unit `func(i, begin, end)` is queued in the thread pool and has not
  run: the shared state is not ready. -/
  | pending (i begin_ end_ : Nat)
  /-- The unit has run: the shared state is ready and holds the exception the
  unit threw, if any. -/
  | ready (outcome : Option ε)
  deriving DecidableEq, Repr

/-- The state of the thread pool and of `threadResults_` while `foreach`
runs: the invocations `func(i, begin, end)` that have been executed so far, in
the order of their execution, and the future of every device. -/
abbrev PoolState (ε : Type) : Type := List (Nat × Nat × Nat) × List (Future ε)

/-- What a call of `foreach` has done when it ends: the invocations
`func(i, begin, end)` that have been executed, in the order of their
execution; the member `threadResults_`, one future per device; and how the
call ended. -/
structure ForeachRun (ε : Type) where
  calls : List (Nat × Nat × Nat)
  threadResults : List (Future ε)
  exit : Exit ε
  deriving DecidableEq, Repr

/-- Modelled from the spec: `ThreadPool::enqueue` of `3rd_party/threadpool.h`,
which is not among the sources. "Each invocation runs as an independent unit of
concurrent work": the call queues the unit `func(i, begin, end)` for the
workers and returns at once the `std::future<void>` of the unit, whose shared
state is not ready before a worker has run the unit. The action `func` is the
one of the enclosing call of `foreach`. -/
def enqueue {ε : Type} (i begin_ end_ : Nat) : Future ε :=
  .pending i begin_ end_

/-- Modelled from the spec: a worker of the thread pool takes the unit queued
for device `j`, if there is one that has not run, and runs it: the invocation
is executed and the shared state of the future becomes ready with the outcome
of `func`, `none` for normal completion and `some e` for an exception `e`. -/
def runUnit {ε : Type} (func : Nat → Nat → Nat → Option ε) (st : PoolState ε) (j : Nat) :
    PoolState ε :=
  match st.2.getD j .invalid with
  | .pending i b e => (st.1 ++ [(i, b, e)], st.2.set j (.ready (func i b e)))
  | _ => st

/-- The workers run, one after the other, the units of the devices in `order`
that are queued at that time. -/
def workers {ε : Type} (func : Nat → Nat → Nat → Option ε) (st : PoolState ε)
    (order : List Nat) : PoolState ε :=
  order.foldl (runUnit func) st

/-- The C++ library call `std::future<void>::wait()` of line 226 on the future
of device `j`: it blocks until the shared state is ready, that is until a
worker has run the unit, and returns nothing; unlike `get()` it does not
rethrow an exception stored in the shared state. On a future without shared
state the behaviour is undefined. -/
def futureWait {ε : Type} (func : Nat → Nat → Nat → Option ε) (st : PoolState ε) (j : Nat) :
    Except Fault (PoolState ε) :=
  match st.2.getD j .invalid with
  | .invalid => .error .undefinedBehaviour
  | .pending _ _ _ => .ok (runUnit func st j)
  | .ready _ => .ok st

/-- Lines 224-226: wait for the futures of the devices in the list, in turn.
The workers run concurrently with the calling thread: `sched n` lists the
devices whose queued units they run, in this order, between step `n` and the
next step of the calling thread. The steps `0..numDevices-1` are the
iterations of the loop of lines 202-223 and the wait for device `i` is step
`numDevices + i`. -/
def waitAll {ε : Type} (func : Nat → Nat → Nat → Option ε) (sched : Nat → List Nat)
    (numDevices : Nat) : List Nat → PoolState ε → Except Fault (PoolState ε)
  | [], st => .ok st
  | i :: rest, st =>
    match futureWait func st i with
    | .error f => .error f
    | .ok st1 =>
      waitAll func sched numDevices rest (workers func st1 (sched (numDevices + i)))

/-- Lines 202-223: the loop over the local devices, from the devices still to
visit and the state of the pool. In parallel mode iteration `i` (step `i` of
the calling thread) queues the unit of device `i`; the workers then run the
units listed in `sched i` before the calling thread takes its next step. In
sequential mode the calling thread executes the invocation itself. An
exception of `func` on the calling thread is caught, logged and rethrown
(lines 216-222), which ends the loop. -/
def foreachLoop {ε : Type} (c : NCCLCommunicator α) (func : Nat → Nat → Nat → Option ε)
    (parallel : Bool) (sched : Nat → List Nat) :
    List Nat → PoolState ε → ForeachRun ε
  | [], st => { calls := st.1, threadResults := st.2, exit := .returned }
  | i :: rest, st =>
    match localShardRange c i with
    | .error f => { calls := st.1, threadResults := st.2, exit := .fault f }
    | .ok (b, e) =>
      if parallel then
        foreachLoop c func parallel sched rest
          (workers func (st.1, st.2.set i (enqueue i b e)) (sched i))
      else
        match func i b e with
        | none => foreachLoop c func parallel sched rest (st.1 ++ [(i, b, e)], st.2)
        | some err =>
          { calls := st.1 ++ [(i, b, e)], threadResults := st.2, exit := .raised err }

/-- Lines 199-229: `foreach(func, parallel)`. `func i begin end` is `none` when
the action returns and `some e` when it throws `e`; `sched` is the schedule of
the workers of the thread pool, any function: which queued units they run
between two steps of the calling thread, and in which order. -/
def foreach {ε : Type} (c : NCCLCommunicator α) (func : Nat → Nat → Nat → Option ε)
    (parallel : Bool) (sched : Nat → List Nat) : ForeachRun ε :=
  let parallel := parallel && decide (c.graphs.length > 1)
  let run := foreachLoop c func parallel sched (List.range c.graphs.length)
    ([], List.replicate c.graphs.length .invalid)
  match run.exit with
  | .returned =>
    if parallel then
      match waitAll func sched c.graphs.length (List.range c.graphs.length)
          (run.calls, run.threadResults) with
      | .ok st => { calls := st.1, threadResults := st.2, exit := .returned }
      | .error f => { run with exit := .fault f }
    else run
  | _ => run

/-- The state of the pool during a parallel `foreach` over `numDevices`
devices with shard ranges `rng`, when the units of the devices below
`enqueued` have been queued and the futures of the devices below `waited` have
been waited for. Every device is in one of three states: not yet queued (no
future, no invocation executed); queued and not run (not possible once its
future has been waited for); or run exactly once, with its shard range, its
future holding the outcome. -/
def PoolInv {ε : Type} (func : Nat → Nat → Nat → Option ε) (rng : Nat → Nat × Nat)
    (numDevices enqueued waited : Nat) (st : PoolState ε) : Prop :=
  st.2.length = numDevices ∧ enqueued ≤ numDevices ∧
  ∀ j,
    (enqueued ≤ j ∧ st.2.getD j .invalid = .invalid ∧
      st.1.filter (fun t => decide (t.1 = j)) = []) ∨
    (waited ≤ j ∧ j < enqueued ∧ st.2.getD j .invalid = .pending j (rng j).1 (rng j).2 ∧
      st.1.filter (fun t => decide (t.1 = j)) = []) ∨
    (j < enqueued ∧ st.2.getD j .invalid = .ready (func j (rng j).1 (rng j).2) ∧
      st.1.filter (fun t => decide (t.1 = j)) = [(j, (rng j).1, (rng j).2)])

/-! ## Collective transport (lines 231-270) -/

/-- `for(size_t i = start; i < start + count; ++i) body(i)` over a state, ended
by the first fault of the body. -/
def forLoop {σ : Type} (body : Nat → σ → Except Fault σ) : Nat → Nat → σ → Except Fault σ
  | 0, _, s => .ok s
  | count + 1, i, s =>
    match body i s with
    | .error f => .error f
    | .ok s1 => forLoop body count (i + 1) s1

/-- The NCCL communicator handle `comms_[i]` of one device, given by what the
two collectives of the library leave in the receive buffer: from the content
of the send buffer (from the send pointer on) and the element count. -/
structure NcclComm (α : Type) where
  reduceScatter : List α → Nat → List α
  allGather : List α → Nat → List α

/-- Overwrite `chunk.length` elements of `buf` from offset `off` on; writing
past the end of the buffer is undefined. -/
def writeAt (buf : List α) (off : Nat) (chunk : List α) : Except Fault (List α) :=
  if off + chunk.length ≤ buf.length then
    .ok (buf.take off ++ chunk ++ buf.drop (off + chunk.length))
  else .error .undefinedBehaviour

/-- Lines 233-244: the body of the loop of `scatterReduce` for device `i`:
`ncclReduceScatter(grads, grads + begin, shardSize())` in place on the
gradients of graph `i`. -/
def scatterReduceStep (comms : Nat → NcclComm α) (c : NCCLCommunicator α) (i : Nat)
    (graphs : List (ExpressionGraph α)) : Except Fault (List (ExpressionGraph α)) :=
  match localShardRange c i with
  | .error f => .error f
  | .ok (begin_, _) =>
    match graphs.get? i with
    | none => .error .undefinedBehaviour
    | some g =>
      match shardSize c with
      | .error f => .error f
      | .ok bufsize =>
        match writeAt g.grads begin_ ((comms i).reduceScatter g.grads bufsize) with
        | .error f => .error f
        | .ok grads1 => .ok (graphs.set i { g with grads := grads1 })

/-- Lines 231-249: `scatterReduce()`. -/
def scatterReduce (comms : Nat → NcclComm α) (c : NCCLCommunicator α) :
    Except Fault (NCCLCommunicator α) :=
  match forLoop (scatterReduceStep comms c) c.graphs.length 0 c.graphs with
  | .error f => .error f
  | .ok graphs => .ok { c with graphs := graphs }

/-- Lines 256-267: the body of the loop of `allGather` for device `i`:
`ncclAllGather(vals + begin, vals, shardSize())` in place on the parameters
of graph `i`. -/
def allGatherStep (comms : Nat → NcclComm α) (c : NCCLCommunicator α) (i : Nat)
    (graphs : List (ExpressionGraph α)) : Except Fault (List (ExpressionGraph α)) :=
  match localShardRange c i with
  | .error f => .error f
  | .ok (begin_, _) =>
    match graphs.get? i with
    | none => .error .undefinedBehaviour
    | some g =>
      match shardSize c with
      | .error f => .error f
      | .ok bufsize =>
        match writeAt g.vals 0 ((comms i).allGather (g.vals.drop begin_) bufsize) with
        | .error f => .error f
        | .ok vals1 => .ok (graphs.set i { g with vals := vals1 })

/-- Lines 254-270: `allGather()`. -/
def allGather (comms : Nat → NcclComm α) (c : NCCLCommunicator α) :
    Except Fault (NCCLCommunicator α) :=
  match forLoop (allGatherStep comms c) c.graphs.length 0 c.graphs with
  | .error f => .error f
  | .ok graphs => .ok { c with graphs := graphs }

/-! ## State exchange (lines 275-349) -/

/-- The elements of `data` between the iterators `data.begin() + begin` and
`data.begin() + end`, for a valid pair of iterators: `begin ≤ end ≤
data.size()`. For any other pair the vector between the iterators is undefined
in C++; the setters below (`swapSetFn`, `recordSliceFn`) fault on such a pair
and never read the value this function has there. -/
def slice (data : List α) (begin_ end_ : Nat) : List α :=
  (data.drop begin_).take (end_ - begin_)

/-- Lines 307-318: `scatterState(data, setFn)`. The setter acts on a state
`σ` and may abort; it receives the device index and the two iterators as
offsets into `data`. -/
def scatterState {σ : Type} (c : NCCLCommunicator α) (data : List α)
    (setFn : Nat → Nat → Nat → σ → Except Fault σ) (s0 : σ) : Except Fault σ :=
  let dataSize := data.length
  let numShards := numNcclRanks c
  if numShards = 0 then .error .undefinedBehaviour
  else
    let shardSize := ((dataSize + numShards - 1) % SIZE_T_MOD) / numShards
    forLoop (fun localDeviceIndex s =>
      let ncclRank := myNcclRank c localDeviceIndex
      let begin_ := (ncclRank * shardSize) % SIZE_T_MOD
      let end_ := min ((begin_ + shardSize) % SIZE_T_MOD) dataSize
      setFn localDeviceIndex begin_ end_ s) c.graphs.length 0 s0

/-- Lines 323-329: the first loop of `gatherState`; the state is the pair
`(tmp, localData)`. -/
def gatherLocal (numDevices : Nat) (getFn : Nat → List α) : List α × List α :=
  (List.range numDevices).foldl (fun st localDeviceIndex =>
    let tmp := getFn localDeviceIndex
    (tmp, st.2 ++ tmp)) ([], [])

/-- Lines 322-349: `gatherState(getFn)`. -/
def gatherState (c : NCCLCommunicator α) (getFn : Nat → List α) : List α :=
  let st := gatherLocal c.graphs.length getFn
  let localData := st.2
  match c.mpi with
  | some m =>
    ((List.range m.numMPIProcesses).foldl (fun (st : List α × List α) mpiRank =>
      let tmp := if mpiRank = m.myMPIRank then localData else st.1
      let tmp := m.bCast tmp mpiRank
      (tmp, st.2 ++ tmp)) (st.1, [])).2
  | none => localData

/-- The call `Tensor::set(const std::vector<float>&)` as the per-device
backing store offers it ("set(hostVector)"): the host vector is copied to the
start of the tensor memory, whose size does not change; a vector longer than
the tensor overruns it. -/
def tensorSet (tensor v : List α) : Except Fault (List α) :=
  if v.length ≤ tensor.length then .ok (v ++ tensor.drop v.length)
  else .error .undefinedBehaviour

/-- Lines 294-299: the setter that `swapParams` hands to `scatterState`, over
the vector `distributedParamShards`; `end-begin` is a difference of iterators
compared with a `size_t`. -/
def swapSetFn (data : List α) (localDeviceIndex begin_ end_ : Nat)
    (shards : List (List α)) : Except Fault (List (List α)) :=
  match shards.get? localDeviceIndex with
  | none => .error .undefinedBehaviour
  | some shard =>
    if shard.length ≠ (end_ + SIZE_T_MOD - begin_) % SIZE_T_MOD then
      .error .shardSizeMismatch
    else if end_ < begin_ then .error .undefinedBehaviour
    else
      match tensorSet shard (slice data begin_ end_) with
      | .error f => .error f
      | .ok shard1 => .ok (shards.set localDeviceIndex shard1)

/-- Lines 300-301: `set(localParams)` on the parameters of every local graph. -/
def setAllVals (localParams : List α) :
    List (ExpressionGraph α) → Except Fault (List (ExpressionGraph α))
  | [] => .ok []
  | g :: rest =>
    match tensorSet g.vals localParams with
    | .error f => .error f
    | .ok vals1 =>
      match setAllVals localParams rest with
      | .error f => .error f
      | .ok rest1 => .ok ({ g with vals := vals1 } :: rest1)

/-- Lines 275-302: `swapParams(distributedParamShards)`; the result is the
communicator with the new replicated parameters and the new content of the
shard tensors. Reading `distributedParamShards[i]` for a local device without
a shard tensor is out of range. -/
def swapParams (c : NCCLCommunicator α) (distributedParamShards : List (List α)) :
    Except Fault (NCCLCommunicator α × List (List α)) :=
  if distributedParamShards.length < c.graphs.length then .error .undefinedBehaviour
  else
    let distributedParams := gatherState c (fun localDeviceIndex =>
      distributedParamShards.getD localDeviceIndex [])
    match c.graphs with
    | [] => .error .undefinedBehaviour
    | g0 :: _ =>
      let localParams := g0.vals
      if distributedParams.length ≠ localParams.length then .error .paramsSizeMismatch
      else
        -- std::swap(distributedParams, localParams)
        let (distributedParams, localParams) := (localParams, distributedParams)
        match scatterState c distributedParams (swapSetFn distributedParams)
            distributedParamShards with
        | .error f => .error f
        | .ok shards1 =>
          match setAllVals localParams c.graphs with
          | .error f => .error f
          | .ok graphs1 => .ok ({ c with graphs := graphs1 }, shards1)

/-- A setter for `scatterState` that records each invocation: the device index
and the two iterator offsets. -/
def recordSetFn (localDeviceIndex begin_ end_ : Nat) (trace : List (Nat × Nat × Nat)) :
    Except Fault (List (Nat × Nat × Nat)) :=
  .ok (trace ++ [(localDeviceIndex, begin_, end_)])

/-- A setter for `scatterState` that records, for each invocation, the device
index and the vector between the two iterators, `std::vector<float>(begin,
end)`. The iterators `data.begin() + begin_` and `data.begin() + end_` delimit
a vector only when `begin_ ≤ end_ ≤ data.size()`; reading between any other
pair is undefined behaviour. -/
def recordSliceFn (data : List α) (localDeviceIndex begin_ end_ : Nat)
    (trace : List (Nat × List α)) : Except Fault (List (Nat × List α)) :=
  if begin_ ≤ end_ ∧ end_ ≤ data.length then
    .ok (trace ++ [(localDeviceIndex, slice data begin_ end_)])
  else .error .undefinedBehaviour

/-! ## Several processes -/

/-- Modelled from the spec: the multi-process coordinator behind `IMPIWrapper`
(declared in `training/communicator.h`, not among the sources), for process
`p` of `numProcesses`: "broadcast(buffer, rootRank)" leaves in the buffer of
every process the buffer of the root, so the root keeps its own and another
process receives `rootBuffer root`, the buffer the root passes in. -/
def coordinator (numProcesses p : Nat) (rootBuffer : Nat → List α) : IMPIWrapper α :=
  { myMPIRank := p
    numMPIProcesses := numProcesses
    bCast := fun tmp root => if root = p then tmp else rootBuffer root }

/-- One process of a run: its graphs (one per local device) and the shard
tensors it passes to `swapParams`. -/
structure Process (α : Type) where
  graphs : List (ExpressionGraph α)
  shards : List (List α)
  deriving DecidableEq, Repr

/-- A run of the training program: whether there is a coordinator (`mpi_` is
not null) and the participating processes, process rank `p` at position `p`. -/
structure World (α : Type) where
  mpi : Bool
  procs : List (Process α)
  deriving DecidableEq, Repr

/-- The buffer process `q` broadcasts as root inside `gatherState` when the
getter reads its shard tensors: its `localData`. -/
def World.localShardData (w : World α) (q : Nat) : List α :=
  match w.procs.get? q with
  | none => []
  | some proc => (gatherLocal proc.graphs.length (fun i => proc.shards.getD i [])).2

/-- The content of the shard tensor of device `i` of process `q`, the shard
of global rank `q * L + i`; empty where there is no such process or tensor. -/
def World.shardOf (w : World α) (q i : Nat) : List α :=
  match w.procs.get? q with
  | none => []
  | some proc => proc.shards.getD i []

/-- The communicator of process `p` in a run. -/
def World.comm (w : World α) (p : Nat) (proc : Process α) : NCCLCommunicator α :=
  { graphs := proc.graphs
    mpi := if w.mpi then some (coordinator w.procs.length p w.localShardData) else none }

/-- Collect the results of the processes; a fault of one ends the run. -/
def collect {β : Type} : List (Except Fault β) → Except Fault (List β)
  | [] => .ok []
  | .error f :: _ => .error f
  | .ok b :: rest =>
    match collect rest with
    | .error f => .error f
    | .ok bs => .ok (b :: bs)

/-- Every process of the run calls `swapParams` on its shard tensors. -/
def World.swapParams (w : World α) : Except Fault (World α) :=
  match collect (w.procs.enum.map (fun (pp : Nat × Process α) =>
      match marian.swapParams (w.comm pp.1 pp.2) pp.2.shards with
      | .error f => .error f
      | .ok (c1, shards1) => .ok ({ graphs := c1.graphs, shards := shards1 } : Process α))) with
  | .error f => .error f
  | .ok procs1 => .ok { w with procs := procs1 }

/-- The configuration is one the `size_t` rank arithmetic of lines 47-59
represents: with a coordinator, the rank of the process is below the number of
processes and the product of that number and the local device count does not
wrap around. -/
def RanksFit (c : NCCLCommunicator α) : Prop :=
  match c.mpi with
  | some m => m.myMPIRank < m.numMPIProcesses ∧
      m.numMPIProcesses * c.graphs.length < SIZE_T_MOD
  | none => True

instance (c : NCCLCommunicator α) : Decidable (RanksFit c) := by
  unfold RanksFit
  cases c.mpi <;> infer_instance

/-- Lines 234-241 and 257-264: what `scatterReduce` and `allGather` compute for
device `i` before the NCCL call: the offset `begin` of the sub-tensor, the
length `end-begin` of the sub-tensor (a `size_t` difference) and the element
count `bufsize = shardSize()` passed to NCCL. -/
def collectiveBuffer (c : NCCLCommunicator α) (i : Nat) : Except Fault (Nat × Nat × Nat) :=
  match localShardRange c i with
  | .error f => .error f
  | .ok (begin_, end_) =>
    match shardSize c with
    | .error f => .error f
    | .ok bufsize => .ok (begin_, (end_ + SIZE_T_MOD - begin_) % SIZE_T_MOD, bufsize)

/-! ## Blocking a signal (lines 102-117) -/

/-- The first argument of the POSIX mask functions. -/
inductive SigHow where
  | SIG_BLOCK
  | SIG_UNBLOCK
  | SIG_SETMASK
  deriving DecidableEq, Repr

/-- The POSIX mask functions `pthread_sigmask` and `sigprocmask`, one of which
the constructor receives as `sigMaskFn`: from `how`, the set argument (`none`
for a null pointer) and the current mask of blocked signals to the new mask
and to what is stored through the third argument, the mask before the call.
`SIG_BLOCK` adds the set to the mask, `SIG_UNBLOCK` removes it, `SIG_SETMASK`
replaces the mask by the set. Signals that cannot be blocked are not part of
the model. -/
def sigMaskFn (how : SigHow) (set : Option (Finset Nat)) (mask : Finset Nat) :
    Finset Nat × Finset Nat :=
  match set with
  | none => (mask, mask)
  | some s =>
    match how with
    | .SIG_BLOCK => (mask ∪ s, mask)
    | .SIG_UNBLOCK => (mask \ s, mask)
    | .SIG_SETMASK => (s, mask)

/-- The member `oldSigSet_` of `BlockSignal` (the member `sigMaskFn_` is the
mask function above). -/
structure BlockSignal where
  oldSigSet_ : Finset Nat
  deriving DecidableEq

/-- Lines 108-113: the constructor, from the signal and the current mask to
the object and the mask after it. -/
def BlockSignal.construct (signal : Nat) (mask : Finset Nat) : BlockSignal × Finset Nat :=
  let newSigSet : Finset Nat := ∅
  let newSigSet := insert signal newSigSet
  let r := sigMaskFn .SIG_BLOCK (some newSigSet) mask
  ({ oldSigSet_ := r.2 }, r.1)

/-- Lines 114-116: the destructor, `sigMaskFn_(SIG_BLOCK, &oldSigSet_, nullptr)`,
from the current mask to the mask after it. -/
def BlockSignal.destruct (b : BlockSignal) (mask : Finset Nat) : Finset Nat :=
  (sigMaskFn .SIG_BLOCK (some b.oldSigSet_) mask).1

/-- Line 173: `SIG_BAD`, the number of `SIGPROF`. -/
def SIG_BAD : Nat := 27

/-! ## Launch configuration of the element-wise kernels
(`src/amun/half/mblas/matrix_functions.h`) -/

/-- Modelled from the spec: the NCCL library call `ncclReduceScatter` with
`ncclSum` ("collective op that sums equal-sized chunks of per-rank input
buffers and leaves each rank holding only the sum for its own chunk"): from
the send buffers of all ranks, in the order of the ranks, to what `rank`
receives, `recvcount` elements, element `k` the sum over the ranks of the
element at offset `rank * recvcount + k` of the send buffer. Payloads are
natural numbers: the sums of the claims are sums of ones. -/
def ncclReduceScatterSum (sendbufs : List (List Nat)) (rank recvcount : Nat) : List Nat :=
  (List.range recvcount).map (fun k =>
    (sendbufs.map (fun buf => buf.getD (rank * recvcount + k) 0)).sum)

/-- Modelled from the spec: the NCCL library call `ncclAllGather` ("collective
op that concatenates per-rank chunks so every rank ends with the full
concatenation"): from the send buffers of all ranks, in the order of the
ranks, to what every rank receives, the first `sendcount` elements of each
send buffer, concatenated in the order of the ranks. -/
def ncclAllGatherConcat (sendbufs : List (List Nat)) (sendcount : Nat) : List Nat :=
  sendbufs.flatMap (fun buf => buf.take sendcount)

/-- The graphs of all devices of a run in the order of their global ranks
(every process has the same number of devices, so the device `i` of process
`p` is at position `p * L + i`). -/
def World.allGraphs (w : World α) : List (ExpressionGraph α) :=
  w.procs.flatMap (fun proc => proc.graphs)

/-- The NCCL communicator handle `comms_[i]` of process `p` in a run: the
collectives see the buffer this device passes and, for every other rank, the
buffer that rank passes in the same call: its gradients for
`ncclReduceScatter` (line 239), its parameters from the offset of its shard on
for `ncclAllGather` (line 262). -/
def World.ncclComm (w : World Nat) (p : Nat) (proc : Process Nat) (i : Nat) : NcclComm Nat :=
  { reduceScatter := fun sendbuf recvcount =>
      ncclReduceScatterSum
        ((w.allGraphs.map (fun g => g.grads)).set (p * proc.graphs.length + i) sendbuf)
        (p * proc.graphs.length + i) recvcount
    allGather := fun sendbuf sendcount =>
      ncclAllGatherConcat
        ((w.allGraphs.enum.map (fun (qg : Nat × ExpressionGraph Nat) =>
            qg.2.vals.drop (qg.1 * sendcount))).set (p * proc.graphs.length + i) sendbuf)
        sendcount }

/-- Every process of the run executes `run` on its own state; a fault of one
ends the run. -/
def World.forEachProcess (w : World α)
    (run : Nat → Process α → Except Fault (Process α)) : Except Fault (World α) :=
  match collect (w.procs.enum.map (fun (pp : Nat × Process α) => run pp.1 pp.2)) with
  | .error f => .error f
  | .ok procs1 => .ok { w with procs := procs1 }

/-- Every process of the run calls `scatterReduce()`. -/
def World.scatterReduce (w : World Nat) : Except Fault (World Nat) :=
  w.forEachProcess (fun p proc =>
    match marian.scatterReduce (w.ncclComm p proc) (w.comm p proc) with
    | .error f => .error f
    | .ok c1 => .ok { proc with graphs := c1.graphs })

/-- Every process of the run calls `allGather()`. -/
def World.allGather (w : World Nat) : Except Fault (World Nat) :=
  w.forEachProcess (fun p proc =>
    match marian.allGather (w.ncclComm p proc) (w.comm p proc) with
    | .error f => .error f
    | .ok c1 => .ok { proc with graphs := c1.graphs })

/-! ## Example configurations -/

/-- A graph whose parameters are `vals` and whose gradients are all zero. -/
def exGraph (vals : List Nat) : ExpressionGraph Nat :=
  { vals := vals, grads := vals.map (fun _ => 0) }

/-- One process without coordinator, four devices, eight parameters each. -/
def exFourDevices : NCCLCommunicator Nat :=
  { graphs := List.replicate 4 (exGraph [10, 11, 12, 13, 14, 15, 16, 17]), mpi := none }

/-- One process without coordinator, four devices, ten parameters each: ten is
no multiple of four. -/
def exUneven : NCCLCommunicator Nat :=
  { graphs := List.replicate 4 (exGraph [10, 11, 12, 13, 14, 15, 16, 17, 18, 19]), mpi := none }

/-- Process `p` of three, each with two devices of four parameters; the
coordinator hands out empty buffers. -/
def exProcess (p : Nat) : NCCLCommunicator Nat :=
  { graphs := List.replicate 2 (exGraph [1, 2, 3, 4])
    mpi := some (coordinator 3 p (fun _ => [])) }

/-- The state vector that device `d` of process `p` returns in the example of
`gatherState`: two values that name the process and the device. -/
def exGetFns (p d : Nat) : List Nat := [10 * p + d, 100 + 10 * p + d]

/-- Process `p` of three, each with two devices, where a root broadcasts the
local concatenation of its `exGetFns` vectors. -/
def exGatherProcess (p : Nat) : NCCLCommunicator Nat :=
  { graphs := List.replicate 2 (exGraph [1, 2, 3, 4])
    mpi := some (coordinator 3 p (fun q => (gatherLocal 2 (exGetFns q)).2)) }

/-- Process 1 of two, each with two devices of six parameters. -/
def exScatterProcess : NCCLCommunicator Nat :=
  { graphs := List.replicate 2 (exGraph [1, 2, 3, 4, 5, 6])
    mpi := some (coordinator 2 1 (fun _ => [])) }

/-- State vectors of two values that name the process and the device, except
on the last device of the last of three processes of two devices, which
returns a single value. -/
def exShortLastGetFns (p d : Nat) : List Nat :=
  if p = 2 ∧ d = 1 then [21] else [10 * p + d, 100 + 10 * p + d]

/-- Process `p` of three, each with two devices, where a root broadcasts the
local concatenation of its `exShortLastGetFns` vectors. -/
def exShortLastProcess (p : Nat) : NCCLCommunicator Nat :=
  { graphs := List.replicate 2 (exGraph [1, 2, 3, 4])
    mpi := some (coordinator 3 p (fun q => (gatherLocal 2 (exShortLastGetFns q)).2)) }

/-- One process without coordinator and two devices of four parameters. -/
def exTwoDevices : NCCLCommunicator Nat :=
  { graphs := List.replicate 2 (exGraph [1, 2, 3, 4]), mpi := none }

/-- A getter whose state vectors differ in length: one value on device 0,
three on device 1. -/
def exRaggedGetFn (localDeviceIndex : Nat) : List Nat :=
  if localDeviceIndex = 0 then [1] else [2, 3, 4]

/-- An action that throws the exception `7` on device 2 and returns on every
other device. -/
def exThrowOnTwo (i _begin _end : Nat) : Option Nat :=
  if i = 2 then some 7 else none

/-- The schedule in which no worker runs a unit before the calling thread
waits for its future. -/
def exIdleSchedule (_step : Nat) : List Nat := []

/-- A schedule for four devices in which the workers run nothing until the
last unit is queued (step 3) and then run the units in the reverse order of
the devices. -/
def exReverseSchedule (step : Nat) : List Nat :=
  if step = 3 then [3, 2, 1, 0] else []

/-- A run of two processes with a coordinator, two devices each: every graph
holds the parameters `1..8` and the four shard tensors hold two values each. -/
def exSwapWorld : World Nat :=
  { mpi := true
    procs :=
      [ { graphs := List.replicate 2 (exGraph [1, 2, 3, 4, 5, 6, 7, 8])
          shards := [[10, 20], [30, 40]] },
        { graphs := List.replicate 2 (exGraph [1, 2, 3, 4, 5, 6, 7, 8])
          shards := [[50, 60], [70, 80]] } ] }

/-- The run `exSwapWorld` after one `swapParams` on every process. -/
def exSwapWorldOnce : World Nat :=
  { mpi := true
    procs :=
      [ { graphs := List.replicate 2
            { vals := [10, 20, 30, 40, 50, 60, 70, 80], grads := [0, 0, 0, 0, 0, 0, 0, 0] }
          shards := [[1, 2], [3, 4]] },
        { graphs := List.replicate 2
            { vals := [10, 20, 30, 40, 50, 60, 70, 80], grads := [0, 0, 0, 0, 0, 0, 0, 0] }
          shards := [[5, 6], [7, 8]] } ] }

/-- One process without coordinator, four devices, 1024 parameters each. -/
def exDevices1024 : NCCLCommunicator Nat :=
  { graphs := List.replicate 4 (exGraph (List.replicate 1024 0)), mpi := none }

/-- An action that returns on every device. -/
def exQuietAction (_i _begin _end : Nat) : Option Nat := none

/-- One process without coordinator, two devices of four parameters `1..4`. -/
def exSwapComm : NCCLCommunicator Nat :=
  { graphs := List.replicate 2 (exGraph [1, 2, 3, 4]), mpi := none }

/-- A run of one process without coordinator and two devices: the gradients
are all one, the parameters all zero. -/
def exOnesWorld : World Nat :=
  { mpi := false
    procs := [ { graphs := List.replicate 2 { vals := [0, 0, 0, 0], grads := [1, 1, 1, 1] }
                 shards := [] } ] }

/-- The run `exOnesWorld` after `scatterReduce()` and a local update that
copies the reduced gradient shard of every device into its parameter shard. -/
def exOnesWorldUpdated : World Nat :=
  { mpi := false
    procs := [ { graphs := [ { vals := [2, 2, 0, 0], grads := [2, 2, 1, 1] },
                             { vals := [0, 0, 2, 2], grads := [1, 1, 2, 2] } ]
                 shards := [] } ] }

/-! ## Theorems: shard partitioning -/

theorem shardSize_ok_of_dvd (c : NCCLCommunicator α) (hN : 1 ≤ numNcclRanks c)
    (hdiv : dataSize c % numNcclRanks c = 0)
    (hfit : dataSize c + numNcclRanks c ≤ SIZE_T_MOD) :
    shardSize c = .ok (dataSize c / numNcclRanks c) := by
  obtain ⟨k, hk⟩ := Nat.dvd_of_mod_eq_zero hdiv
  have hNpos : 0 < numNcclRanks c := hN
  have hquot : dataSize c / numNcclRanks c = k := by
    rw [hk]; exact Nat.mul_div_cancel_left k hNpos
  have hsum : (dataSize c + numNcclRanks c - 1) % SIZE_T_MOD
      = dataSize c + numNcclRanks c - 1 := Nat.mod_eq_of_lt (by omega)
  have hceil : (dataSize c + numNcclRanks c - 1) / numNcclRanks c = k := by
    have h1 : dataSize c + numNcclRanks c - 1 = (numNcclRanks c - 1) + numNcclRanks c * k := by
      rw [hk]; omega
    rw [h1, Nat.add_mul_div_left _ _ hNpos,
      Nat.div_eq_of_lt (by omega : numNcclRanks c - 1 < numNcclRanks c)]
    simp
  have hprod : (k * numNcclRanks c) % SIZE_T_MOD = dataSize c := by
    rw [Nat.mul_comm, ← hk]; exact Nat.mod_eq_of_lt (by omega)
  unfold shardSize
  simp only [hsum, hceil, hquot, hprod]
  simp; omega

theorem shardSize_error_of_not_dvd (c : NCCLCommunicator α) (hN : 1 ≤ numNcclRanks c)
    (hndiv : dataSize c % numNcclRanks c ≠ 0) :
    shardSize c = .error .unevenShards := by
  have hNpos : 0 < numNcclRanks c := hN
  have hD : dataSize c ≠ 0 := by
    intro h; rw [h] at hndiv; simp at hndiv
  have hne : ((dataSize c + numNcclRanks c - 1) % SIZE_T_MOD / numNcclRanks c
      * numNcclRanks c) % SIZE_T_MOD ≠ dataSize c := by
    intro heq
    have hDlt : dataSize c < SIZE_T_MOD := by
      rw [← heq]; exact Nat.mod_lt _ (by decide)
    by_cases hsum : dataSize c + numNcclRanks c - 1 < SIZE_T_MOD
    · rw [Nat.mod_eq_of_lt hsum] at heq
      have hle : (dataSize c + numNcclRanks c - 1) / numNcclRanks c * numNcclRanks c
          ≤ dataSize c + numNcclRanks c - 1 := Nat.div_mul_le_self _ _
      rw [Nat.mod_eq_of_lt (by omega)] at heq
      apply hndiv
      rw [← heq]; exact Nat.mul_mod_left _ _
    · have hsmall : (dataSize c + numNcclRanks c - 1) % SIZE_T_MOD < numNcclRanks c := by
        have h := Nat.mod_add_div (dataSize c + numNcclRanks c - 1) SIZE_T_MOD
        have hq : 1 ≤ (dataSize c + numNcclRanks c - 1) / SIZE_T_MOD :=
          (Nat.one_le_div_iff (by decide)).2 (by omega)
        have : SIZE_T_MOD ≤ SIZE_T_MOD * ((dataSize c + numNcclRanks c - 1) / SIZE_T_MOD) :=
          Nat.le_mul_of_pos_right _ hq
        omega
      rw [Nat.div_eq_of_lt hsmall] at heq
      simp at heq
      exact hD heq.symm
  unfold shardSize
  simp only
  rw [if_neg (by omega), if_pos hne]

theorem ncclRankShardRange_of_dvd (c : NCCLCommunicator α) (hN : 1 ≤ numNcclRanks c)
    (hdiv : dataSize c % numNcclRanks c = 0)
    (hfit : dataSize c + numNcclRanks c ≤ SIZE_T_MOD) (r : Nat) (hr : r < numNcclRanks c) :
    ncclRankShardRange c r
      = .ok (r * (dataSize c / numNcclRanks c),
          r * (dataSize c / numNcclRanks c) + dataSize c / numNcclRanks c) := by
  have hmul : dataSize c / numNcclRanks c * numNcclRanks c = dataSize c :=
    Nat.div_mul_cancel (Nat.dvd_of_mod_eq_zero hdiv)
  have hle : (r + 1) * (dataSize c / numNcclRanks c) ≤ dataSize c := by
    calc (r + 1) * (dataSize c / numNcclRanks c)
        ≤ numNcclRanks c * (dataSize c / numNcclRanks c) := Nat.mul_le_mul_right _ hr
      _ = dataSize c := by rw [Nat.mul_comm]; exact hmul
  have hle2 : r * (dataSize c / numNcclRanks c) + dataSize c / numNcclRanks c ≤ dataSize c := by
    rw [Nat.add_mul, Nat.one_mul] at hle; exact hle
  unfold ncclRankShardRange
  rw [shardSize_ok_of_dvd c hN hdiv hfit]
  generalize dataSize c / numNcclRanks c = k at *
  have hb : (r * k) % SIZE_T_MOD = r * k := Nat.mod_eq_of_lt (by omega)
  have he : (r * k + k) % SIZE_T_MOD = r * k + k := Nat.mod_eq_of_lt (by omega)
  simp only [hb, he, Nat.min_eq_left hle2]

theorem inShard_iff_of_dvd (c : NCCLCommunicator α) (hN : 1 ≤ numNcclRanks c)
    (hdiv : dataSize c % numNcclRanks c = 0)
    (hfit : dataSize c + numNcclRanks c ≤ SIZE_T_MOD) (r x : Nat) (hr : r < numNcclRanks c) :
    inShard c r x = true ↔
      r * (dataSize c / numNcclRanks c) ≤ x ∧
        x < r * (dataSize c / numNcclRanks c) + dataSize c / numNcclRanks c := by
  unfold inShard
  rw [ncclRankShardRange_of_dvd c hN hdiv hfit r hr]
  simp

/-- Two half-open blocks of the same positive width that share a point are the
same block. -/
theorem block_unique (k r r2 x : Nat) (h1 : r * k ≤ x) (h2 : x < r * k + k)
    (h3 : r2 * k ≤ x) (h4 : x < r2 * k + k) : r = r2 := by
  have hk : 0 < k := by
    rcases Nat.eq_zero_or_pos k with h | h
    · subst h; omega
    · exact h
  have e1 : x / k = r := by
    apply Nat.div_eq_of_lt_le
    · exact h1
    · rw [Nat.succ_mul]; exact h2
  have e2 : x / k = r2 := by
    apply Nat.div_eq_of_lt_le
    · exact h3
    · rw [Nat.succ_mul]; exact h4
  omega

/-- C1. When the data size is a multiple of the number of ranks (and the
rounding sum of line 70 fits `size_t`), `shardSize()` returns
`dataSize / numRanks` without aborting, every rank below the number of ranks
gets a range of exactly that length, two different ranks never share an
element index, and an index belongs to some rank's range exactly when it is
below the data size. -/
theorem C1_even_shards_partition (c : NCCLCommunicator α) (hN : 1 ≤ numNcclRanks c)
    (hdiv : dataSize c % numNcclRanks c = 0)
    (hfit : dataSize c + numNcclRanks c ≤ SIZE_T_MOD) :
    shardSize c = .ok (dataSize c / numNcclRanks c) ∧
    (∀ r, r < numNcclRanks c → ∃ b e, ncclRankShardRange c r = .ok (b, e) ∧
      b ≤ e ∧ e ≤ dataSize c ∧ e - b = dataSize c / numNcclRanks c) ∧
    (∀ r r2 x, r < numNcclRanks c → r2 < numNcclRanks c →
      inShard c r x = true → inShard c r2 x = true → r = r2) ∧
    (∀ x, (∃ r, r < numNcclRanks c ∧ inShard c r x = true) ↔ x < dataSize c) := by
  have hmul : dataSize c / numNcclRanks c * numNcclRanks c = dataSize c :=
    Nat.div_mul_cancel (Nat.dvd_of_mod_eq_zero hdiv)
  refine ⟨shardSize_ok_of_dvd c hN hdiv hfit, ?_, ?_, ?_⟩
  · intro r hr
    refine ⟨_, _, ncclRankShardRange_of_dvd c hN hdiv hfit r hr, Nat.le_add_right _ _, ?_,
      Nat.add_sub_cancel_left _ _⟩
    calc r * (dataSize c / numNcclRanks c) + dataSize c / numNcclRanks c
        = (r + 1) * (dataSize c / numNcclRanks c) := by rw [Nat.add_mul, Nat.one_mul]
      _ ≤ numNcclRanks c * (dataSize c / numNcclRanks c) := Nat.mul_le_mul_right _ hr
      _ = dataSize c := by rw [Nat.mul_comm]; exact hmul
  · intro r r2 x hr hr2 h1 h2
    rw [inShard_iff_of_dvd c hN hdiv hfit r x hr] at h1
    rw [inShard_iff_of_dvd c hN hdiv hfit r2 x hr2] at h2
    exact block_unique _ r r2 x h1.1 h1.2 h2.1 h2.2
  · intro x
    constructor
    · rintro ⟨r, hr, hin⟩
      rw [inShard_iff_of_dvd c hN hdiv hfit r x hr] at hin
      have : (r + 1) * (dataSize c / numNcclRanks c) ≤ dataSize c := by
        calc (r + 1) * (dataSize c / numNcclRanks c)
            ≤ numNcclRanks c * (dataSize c / numNcclRanks c) := Nat.mul_le_mul_right _ hr
          _ = dataSize c := by rw [Nat.mul_comm]; exact hmul
      rw [Nat.add_mul, Nat.one_mul] at this
      omega
    · intro hx
      have hk : 0 < dataSize c / numNcclRanks c := by
        rcases Nat.eq_zero_or_pos (dataSize c / numNcclRanks c) with h | h
        · rw [h] at hmul; omega
        · exact h
      have hr : x / (dataSize c / numNcclRanks c) < numNcclRanks c := by
        rw [Nat.div_lt_iff_lt_mul hk, Nat.mul_comm, hmul]; exact hx
      refine ⟨x / (dataSize c / numNcclRanks c), hr, ?_⟩
      rw [inShard_iff_of_dvd c hN hdiv hfit _ x hr]
      constructor
      · exact Nat.div_mul_le_self x _
      · have h2 := Nat.div_add_mod x (dataSize c / numNcclRanks c)
        have h3 := Nat.mod_lt x hk
        rw [Nat.mul_comm] at h2
        generalize dataSize c / numNcclRanks c = k at *
        omega

/-- C1 at four devices and eight parameters: the hypotheses hold and the shard
size is two. -/
theorem C1_even_shards_partition_witness :
    1 ≤ numNcclRanks exFourDevices ∧ dataSize exFourDevices % numNcclRanks exFourDevices = 0 ∧
      shardSize exFourDevices = .ok 2 ∧
      ncclRankShardRange exFourDevices 3 = .ok (6, 8) :=
  ⟨by decide, by decide,
    (C1_even_shards_partition exFourDevices (by decide) (by decide) (by decide)).1,
    by decide⟩

/-! ## Theorems: uneven sharding is fatal -/

theorem graphs_length_pos_of_numNcclRanks (c : NCCLCommunicator α)
    (hN : 1 ≤ numNcclRanks c) : ∃ n, c.graphs.length = n + 1 := by
  unfold numNcclRanks at hN
  rcases hL : c.graphs.length with _ | n
  · rw [hL] at hN
    cases hm : c.mpi <;> rw [hm] at hN <;> simp at hN
  · exact ⟨n, rfl⟩

theorem ncclRankShardRange_error (c : NCCLCommunicator α) (f : Fault)
    (h : shardSize c = .error f) (rank : Nat) : ncclRankShardRange c rank = .error f := by
  unfold ncclRankShardRange
  rw [h]

theorem foreachLoop_error_first {ε : Type} (c : NCCLCommunicator α) (f : Fault)
    (h : shardSize c = .error f) (func : Nat → Nat → Nat → Option ε) (par : Bool)
    (sched : Nat → List Nat) (i : Nat) (rest : List Nat) (st : PoolState ε) :
    foreachLoop c func par sched (i :: rest) st
      = { calls := st.1, threadResults := st.2, exit := .fault f } := by
  have hr : localShardRange c i = .error f := ncclRankShardRange_error c f h _
  simp only [foreachLoop, hr]

/-- C2. When the number of ranks is at least one and does not divide the data
size, `shardSize()` aborts on the check of line 72, and so does every function
that calls it: `ncclRankShardRange` and `localShardRange` for every argument,
`foreach` (before any invocation of the action), `scatterReduce` and
`allGather`; none of them returns a size or a range. -/
theorem C2_uneven_shards_abort (c : NCCLCommunicator α) (hN : 1 ≤ numNcclRanks c)
    (hndiv : dataSize c % numNcclRanks c ≠ 0) :
    shardSize c = .error .unevenShards ∧
    (∀ rank, ncclRankShardRange c rank = .error .unevenShards) ∧
    (∀ i, localShardRange c i = .error .unevenShards) ∧
    (∀ (ε : Type) (func : Nat → Nat → Nat → Option ε) (par : Bool) (sched : Nat → List Nat),
      (foreach c func par sched).exit = .fault .unevenShards ∧
      (foreach c func par sched).calls = []) ∧
    (∀ comms, scatterReduce comms c = .error .unevenShards) ∧
    (∀ comms, allGather comms c = .error .unevenShards) := by
  have hs := shardSize_error_of_not_dvd c hN hndiv
  obtain ⟨n, hL⟩ := graphs_length_pos_of_numNcclRanks c hN
  have hloc : ∀ i, localShardRange c i = .error .unevenShards :=
    fun i => ncclRankShardRange_error c _ hs _
  refine ⟨hs, ncclRankShardRange_error c _ hs, hloc, ?_, ?_, ?_⟩
  · intro ε func par sched
    unfold foreach
    simp [hL, List.range_succ_eq_map, foreachLoop_error_first c _ hs]
  · intro comms
    unfold scatterReduce
    simp only [hL, forLoop, scatterReduceStep, hloc]
  · intro comms
    unfold allGather
    simp only [hL, forLoop, allGatherStep, hloc]

/-- C2 at four devices and ten parameters: the hypotheses hold and `shardSize`
aborts. -/
theorem C2_uneven_shards_abort_witness :
    1 ≤ numNcclRanks exUneven ∧ dataSize exUneven % numNcclRanks exUneven ≠ 0 ∧
      shardSize exUneven = .error .unevenShards :=
  ⟨by decide, by decide, (C2_uneven_shards_abort exUneven (by decide) (by decide)).1⟩

/-! ## Theorems: rank topology -/

theorem myNcclRank_of_mpi (c : NCCLCommunicator α) (m : IMPIWrapper α) (P L : Nat)
    (hm : c.mpi = some m) (hL : c.graphs.length = L)
    (hp : m.myMPIRank < P) (hfit : P * L < SIZE_T_MOD) (d : Nat) (hd : d < L) :
    myNcclRank c d = m.myMPIRank * L + d := by
  unfold myNcclRank
  rw [hm]
  simp only [hL]
  apply Nat.mod_eq_of_lt
  have h1 : (m.myMPIRank + 1) * L ≤ P * L := Nat.mul_le_mul_right _ hp
  rw [Nat.add_mul, Nat.one_mul] at h1
  omega

theorem numNcclRanks_of_mpi (c : NCCLCommunicator α) (m : IMPIWrapper α) (P L : Nat)
    (hm : c.mpi = some m) (hP : m.numMPIProcesses = P) (hL : c.graphs.length = L)
    (hfit : P * L < SIZE_T_MOD) : numNcclRanks c = P * L := by
  unfold numNcclRanks
  rw [hm]
  simp only [hL, hP]
  exact Nat.mod_eq_of_lt hfit

/-- Writing a number below `P * L` as `p * L + d` with `d < L`. -/
theorem rank_decompose (P L r : Nat) (hr : r < P * L) :
    r / L < P ∧ r % L < L ∧ r / L * L + r % L = r := by
  have hLpos : 0 < L := by
    rcases Nat.eq_zero_or_pos L with h | h
    · subst h; simp at hr
    · exact h
  refine ⟨?_, Nat.mod_lt _ hLpos, ?_⟩
  · rw [Nat.div_lt_iff_lt_mul hLpos]; exact hr
  · rw [Nat.mul_comm]; exact Nat.div_add_mod r L

theorem rank_pair_unique (L p d p2 d2 : Nat) (hd : d < L) (hd2 : d2 < L)
    (h : p * L + d = p2 * L + d2) : p = p2 ∧ d = d2 := by
  have hLpos : 0 < L := by omega
  have e1 : (p * L + d) / L = p := by
    rw [Nat.mul_comm, Nat.mul_add_div hLpos, Nat.div_eq_of_lt hd]; rfl
  have e2 : (p2 * L + d2) / L = p2 := by
    rw [Nat.mul_comm, Nat.mul_add_div hLpos, Nat.div_eq_of_lt hd2]; rfl
  have hp : p = p2 := by rw [← e1, ← e2, h]
  subst hp
  exact ⟨rfl, by omega⟩

/-- C10. With a coordinator, `P ≥ 1` processes of ranks `0..P-1` and the same
number `L` of local devices on each (`P * L` a `size_t`), the rank computed on
process `p` for device `d` is `p * L + d`, `numNcclRanks()` is `P * L`, the map
from `(p, d)` to the rank is injective, increases strictly with `d`, gives
process `p` exactly the block from `p * L` to `(p + 1) * L`, and takes exactly
the values below `P * L`. Without a coordinator the rank of device `d` is `d`
and the number of ranks is the number of local devices. -/
theorem C10_rank_assignment_bijection (P L : Nat) (cs : Nat → NCCLCommunicator α)
    (ms : Nat → IMPIWrapper α) (hP : 1 ≤ P) (hfit : P * L < SIZE_T_MOD)
    (hcfg : ∀ p, p < P → (cs p).mpi = some (ms p) ∧ (ms p).myMPIRank = p ∧
      (ms p).numMPIProcesses = P ∧ (cs p).graphs.length = L) :
    (∀ p d, p < P → d < L → myNcclRank (cs p) d = p * L + d) ∧
    (∀ p, p < P → numNcclRanks (cs p) = P * L) ∧
    (∀ p d p2 d2, p < P → d < L → p2 < P → d2 < L →
      myNcclRank (cs p) d = myNcclRank (cs p2) d2 → p = p2 ∧ d = d2) ∧
    (∀ p d d2, p < P → d < d2 → d2 < L → myNcclRank (cs p) d < myNcclRank (cs p) d2) ∧
    (∀ p r, p < P → ((∃ d, d < L ∧ myNcclRank (cs p) d = r) ↔ p * L ≤ r ∧ r < (p + 1) * L)) ∧
    (∀ r, (∃ p d, p < P ∧ d < L ∧ myNcclRank (cs p) d = r) ↔ r < numNcclRanks (cs 0)) ∧
    (∀ c : NCCLCommunicator α, c.mpi = none →
      numNcclRanks c = c.graphs.length ∧ ∀ d, myNcclRank c d = d) := by
  have hrank : ∀ p d, p < P → d < L → myNcclRank (cs p) d = p * L + d := by
    intro p d hp hd
    obtain ⟨hm, hr, hn, hl⟩ := hcfg p hp
    have := myNcclRank_of_mpi (cs p) (ms p) P L hm hl (by omega) hfit d hd
    rw [hr] at this; exact this
  have hnum : ∀ p, p < P → numNcclRanks (cs p) = P * L := by
    intro p hp
    obtain ⟨hm, _, hn, hl⟩ := hcfg p hp
    exact numNcclRanks_of_mpi (cs p) (ms p) P L hm hn hl hfit
  refine ⟨hrank, hnum, ?_, ?_, ?_, ?_, ?_⟩
  · intro p d p2 d2 hp hd hp2 hd2 h
    rw [hrank p d hp hd, hrank p2 d2 hp2 hd2] at h
    exact rank_pair_unique L p d p2 d2 hd hd2 h
  · intro p d d2 hp hdd hd2
    rw [hrank p d hp (by omega), hrank p d2 hp hd2]
    omega
  · intro p r hp
    rw [Nat.add_mul, Nat.one_mul]
    constructor
    · rintro ⟨d, hd, h⟩
      rw [hrank p d hp hd] at h
      omega
    · rintro ⟨h1, h2⟩
      refine ⟨r - p * L, by omega, ?_⟩
      rw [hrank p _ hp (by omega)]
      omega
  · intro r
    rw [hnum 0 (by omega)]
    constructor
    · rintro ⟨p, d, hp, hd, h⟩
      rw [hrank p d hp hd] at h
      have h1 : (p + 1) * L ≤ P * L := Nat.mul_le_mul_right _ hp
      rw [Nat.add_mul, Nat.one_mul] at h1
      omega
    · intro hr
      obtain ⟨h1, h2, h3⟩ := rank_decompose P L r hr
      exact ⟨r / L, r % L, h1, h2, by rw [hrank _ _ h1 h2]; exact h3⟩
  · intro c hc
    unfold numNcclRanks myNcclRank
    rw [hc]
    exact ⟨rfl, fun _ => rfl⟩

/-- C10 at three processes of two devices: the hypotheses hold, device 1 of
process 2 has rank 5 and there are 6 ranks. -/
theorem C10_rank_assignment_bijection_witness :
    myNcclRank (exProcess 2) 1 = 5 ∧ numNcclRanks (exProcess 2) = 6 :=
  have h := C10_rank_assignment_bijection 3 2 exProcess
    (fun p => coordinator 3 p (fun _ => [])) (by decide) (by decide)
    (fun _ _ => ⟨rfl, rfl, rfl, rfl⟩)
  ⟨h.1 2 1 (by decide) (by decide), h.2.1 2 (by decide)⟩

/-! ## Theorems: gatherState -/

theorem gatherLocal_snd (L : Nat) (getFn : Nat → List α) :
    (gatherLocal L getFn).2 = (List.range L).flatMap getFn := by
  unfold gatherLocal
  induction L with
  | zero => rfl
  | succ n ih =>
    rw [List.range_succ, List.foldl_append, List.flatMap_append]
    simp only [List.foldl_cons, List.foldl_nil, List.flatMap_cons, List.flatMap_nil,
      List.append_nil]
    rw [ih]

/-- The loop over the process ranks in `gatherState` (lines 336-343) when the
coordinator delivers the buffer of the root. -/
theorem gather_rounds (n p : Nat) (localData tmp0 : List α) (rootBuffer : Nat → List α)
    (hroot : rootBuffer p = localData) :
    ((List.range n).foldl (fun (st : List α × List α) mpiRank =>
        ((coordinator n p rootBuffer).bCast
            (if mpiRank = (coordinator n p rootBuffer).myMPIRank then localData else st.1) mpiRank,
          st.2 ++ (coordinator n p rootBuffer).bCast
            (if mpiRank = (coordinator n p rootBuffer).myMPIRank then localData else st.1)
            mpiRank)) (tmp0, [])).2
      = (List.range n).flatMap rootBuffer := by
  have key : ∀ k, ((List.range k).foldl (fun (st : List α × List α) mpiRank =>
        ((if mpiRank = p then (if mpiRank = p then localData else st.1) else rootBuffer mpiRank),
          st.2 ++ (if mpiRank = p then (if mpiRank = p then localData else st.1)
            else rootBuffer mpiRank))) (tmp0, [])).2
      = (List.range k).flatMap rootBuffer := by
    intro k
    induction k with
    | zero => rfl
    | succ k ih =>
      rw [List.range_succ, List.foldl_append, List.flatMap_append]
      simp only [List.foldl_cons, List.foldl_nil, List.flatMap_cons, List.flatMap_nil,
        List.append_nil]
      rw [ih]
      by_cases h : k = p
      · subst h; simp [hroot]
      · simp [h]
  exact key n

theorem gatherState_none (c : NCCLCommunicator α) (getFn : Nat → List α)
    (hc : c.mpi = none) : gatherState c getFn = (List.range c.graphs.length).flatMap getFn := by
  unfold gatherState
  rw [hc]
  exact gatherLocal_snd _ _

theorem gatherState_coordinator (c : NCCLCommunicator α) (getFn : Nat → List α)
    (P p : Nat) (rootBuffer : Nat → List α)
    (hc : c.mpi = some (coordinator P p rootBuffer))
    (hroot : rootBuffer p = (List.range c.graphs.length).flatMap getFn) :
    gatherState c getFn = (List.range P).flatMap rootBuffer := by
  unfold gatherState
  rw [hc]
  simp only
  rw [gatherLocal_snd]
  exact gather_rounds P p _ _ rootBuffer hroot

/-- Concatenating over the global ranks is concatenating over the processes
and, within a process, over its devices. -/
theorem flatMap_range_mul (P L : Nat) (f : Nat → Nat → List α) :
    (List.range (P * L)).flatMap (fun r => f (r / L) (r % L))
      = (List.range P).flatMap (fun q => (List.range L).flatMap (f q)) := by
  induction P with
  | zero => simp
  | succ n ih =>
    rw [Nat.succ_mul, List.range_add, List.flatMap_append, ih, List.range_succ,
      List.flatMap_append, List.flatMap_map]
    simp only [List.flatMap_cons, List.flatMap_nil, List.append_nil]
    congr 1
    apply List.flatMap_congr
    intro d hd
    rw [List.mem_range] at hd
    have hLpos : 0 < L := by omega
    have e1 : (n * L + d) / L = n := by
      rw [Nat.mul_comm, Nat.mul_add_div hLpos, Nat.div_eq_of_lt hd]; rfl
    have e2 : (n * L + d) % L = d := by
      rw [Nat.mul_comm, Nat.mul_add_mod, Nat.mod_eq_of_lt hd]
    rw [e1, e2]

/-- C8. Without a coordinator `gatherState` returns the vectors of the getter
concatenated in the order of the local devices. With a coordinator whose
broadcast hands every process the buffer of the root, `P` processes and `L`
devices on each, every process obtains the same vector: the local
concatenations of the processes in the order of the process ranks, which is
the concatenation of the shards in the order of the global ranks `p * L + d`. -/
theorem C8_gatherState_concatenation :
    (∀ (c : NCCLCommunicator α) (getFn : Nat → List α), c.mpi = none →
      gatherState c getFn = (List.range c.graphs.length).flatMap getFn) ∧
    (∀ (P L : Nat) (getFns : Nat → Nat → List α) (cs : Nat → NCCLCommunicator α),
      (∀ p, p < P → (cs p).graphs.length = L ∧
        (cs p).mpi = some (coordinator P p (fun q => (gatherLocal L (getFns q)).2))) →
      ∀ p, p < P →
        gatherState (cs p) (getFns p)
          = (List.range P).flatMap (fun q => (List.range L).flatMap (getFns q)) ∧
        gatherState (cs p) (getFns p)
          = (List.range (P * L)).flatMap (fun r => getFns (r / L) (r % L))) := by
  refine ⟨gatherState_none, ?_⟩
  intro P L getFns cs hcfg p hp
  obtain ⟨hL, hm⟩ := hcfg p hp
  have h1 : gatherState (cs p) (getFns p)
      = (List.range P).flatMap (fun q => (List.range L).flatMap (getFns q)) := by
    rw [gatherState_coordinator (cs p) (getFns p) P p _ hm (by rw [hL, gatherLocal_snd])]
    apply List.flatMap_congr
    intro q _
    exact gatherLocal_snd _ _
  exact ⟨h1, by rw [h1, flatMap_range_mul]⟩

/-- C8 at three processes of two devices: process 1 obtains the six state
vectors in the order of the global ranks. -/
theorem C8_gatherState_concatenation_witness :
    gatherState (exGatherProcess 1) (exGetFns 1)
      = [0, 100, 1, 101, 10, 110, 11, 111, 20, 120, 21, 121] :=
  (C8_gatherState_concatenation.2 3 2 exGetFns exGatherProcess
    (fun _ _ => ⟨rfl, rfl⟩) 1 (by decide)).1

/-! ## Theorems: scatterState -/

/-- A loop whose body appends one record per index leaves the records of the
indices in increasing order. -/
theorem forLoop_record {β : Type} (h : Nat → β) (n i : Nat) (tr : List β) :
    forLoop (fun j t => .ok (t ++ [h j])) n i tr
      = .ok (tr ++ (List.range n).map (fun k => h (i + k))) := by
  induction n generalizing i tr with
  | zero => simp [forLoop]
  | succ n ih =>
    rw [forLoop]
    simp only
    rw [ih, List.range_succ_eq_map, List.map_cons, List.map_map]
    simp only [List.append_assoc, List.singleton_append, Nat.add_zero]
    congr 3
    apply List.map_congr_left
    intro k _
    simp only [Function.comp, Nat.succ_eq_add_one]
    congr 1
    omega

theorem myNcclRank_lt (c : NCCLCommunicator α) (hfit : RanksFit c) (i : Nat)
    (hi : i < c.graphs.length) : myNcclRank c i < numNcclRanks c := by
  unfold RanksFit at hfit
  cases hm : c.mpi with
  | none =>
    unfold myNcclRank numNcclRanks
    rw [hm]; exact hi
  | some m =>
    rw [hm] at hfit
    rw [myNcclRank_of_mpi c m _ _ hm rfl hfit.1 hfit.2 i hi,
      numNcclRanks_of_mpi c m _ _ hm rfl rfl hfit.2]
    have h1 : (m.myMPIRank + 1) * c.graphs.length ≤ m.numMPIProcesses * c.graphs.length :=
      Nat.mul_le_mul_right _ hfit.1
    rw [Nat.add_mul, Nat.one_mul] at h1
    omega

/-- The offsets `scatterState` computes for a rank below the number of ranks
are not affected by the wrap-around of `size_t` when the rounding sum fits. -/
theorem scatter_offsets (D N r : Nat) (hN : 1 ≤ N) (hfit : D + N ≤ SIZE_T_MOD)
    (hr : r < N) :
    (D + N - 1) % SIZE_T_MOD = D + N - 1 ∧
    (r * ((D + N - 1) / N)) % SIZE_T_MOD = r * ((D + N - 1) / N) ∧
    (r * ((D + N - 1) / N) + (D + N - 1) / N) % SIZE_T_MOD
      = r * ((D + N - 1) / N) + (D + N - 1) / N := by
  have h0 : (D + N - 1) / N * N ≤ D + N - 1 := Nat.div_mul_le_self _ _
  have h1 : (r + 1) * ((D + N - 1) / N) ≤ N * ((D + N - 1) / N) := Nat.mul_le_mul_right _ hr
  rw [Nat.add_mul, Nat.one_mul, Nat.mul_comm N] at h1
  generalize (D + N - 1) / N = s at *
  refine ⟨Nat.mod_eq_of_lt (by omega), Nat.mod_eq_of_lt (by omega), Nat.mod_eq_of_lt (by omega)⟩

theorem scatterState_eq (σ : Type) (c : NCCLCommunicator α) (data : List α)
    (setFn : Nat → Nat → Nat → σ → Except Fault σ) (s0 : σ)
    (hN : 1 ≤ numNcclRanks c) (hfit : data.length + numNcclRanks c ≤ SIZE_T_MOD) :
    scatterState c data setFn s0
      = forLoop (fun i s => setFn i
          ((myNcclRank c i * ((data.length + numNcclRanks c - 1) / numNcclRanks c)) % SIZE_T_MOD)
          (min (((myNcclRank c i * ((data.length + numNcclRanks c - 1) / numNcclRanks c))
              % SIZE_T_MOD + (data.length + numNcclRanks c - 1) / numNcclRanks c) % SIZE_T_MOD)
            data.length) s) c.graphs.length 0 s0 := by
  unfold scatterState
  simp only
  rw [if_neg (by omega), Nat.mod_eq_of_lt (by omega : data.length + numNcclRanks c - 1 < SIZE_T_MOD)]

/-- A loop only depends on the body at the indices it visits. -/
theorem forLoop_congr {σ : Type} (f g : Nat → σ → Except Fault σ) (n i : Nat) (s : σ)
    (h : ∀ j, i ≤ j → j < i + n → ∀ t, f j t = g j t) : forLoop f n i s = forLoop g n i s := by
  induction n generalizing i s with
  | zero => rfl
  | succ n ih =>
    rw [forLoop, forLoop, h i (Nat.le_refl _) (by omega)]
    cases g i s with
    | error e => rfl
    | ok s1 => exact ih (i + 1) s1 (fun j h1 h2 t => h j (by omega) (by omega) t)

/-- With ranks that fit, `scatterState` is the loop over the local devices that
hands device `i` the offsets `rank * s` and `min (rank * s + s) size`. -/
theorem scatterState_spec (σ : Type) (c : NCCLCommunicator α) (data : List α)
    (setFn : Nat → Nat → Nat → σ → Except Fault σ) (s0 : σ)
    (hN : 1 ≤ numNcclRanks c) (hranks : RanksFit c)
    (hfit : data.length + numNcclRanks c ≤ SIZE_T_MOD) :
    scatterState c data setFn s0
      = forLoop (fun i s => setFn i
          (myNcclRank c i * ((data.length + numNcclRanks c - 1) / numNcclRanks c))
          (min (myNcclRank c i * ((data.length + numNcclRanks c - 1) / numNcclRanks c)
              + (data.length + numNcclRanks c - 1) / numNcclRanks c) data.length) s)
          c.graphs.length 0 s0 := by
  rw [scatterState_eq σ c data setFn s0 hN hfit]
  apply forLoop_congr
  intro j _ hj t
  obtain ⟨_, h2, h3⟩ := scatter_offsets data.length (numNcclRanks c) (myNcclRank c j) hN hfit
    (myNcclRank_lt c hranks j (by omega))
  rw [h2, h3]

theorem recordSliceFn_valid (data : List α) (i b e : Nat) (tr : List (Nat × List α))
    (hbe : b ≤ e) (he : e ≤ data.length) :
    recordSliceFn data i b e tr = .ok (tr ++ [(i, slice data b e)]) := by
  unfold recordSliceFn
  rw [if_pos ⟨hbe, he⟩]

/-- What `scatterState(data, setFn)` does for a configured communicator: it
invokes the setter once for every local device index, in increasing order,
with the iterators at offsets `begin = rank * s` and `end = min (begin + s)
(size of data)`, where `rank` is the global rank of the device and `s` the
size of `data` divided by the number of ranks, rounded up; when `begin` is
within `data` for every local device, the vector between the iterators is
that slice of `data`; and the result does not depend on the broadcast of the
coordinator (no communication). Sizes are `size_t` values whose rounding sum
fits. -/
theorem scatterState_local_slicing (c : NCCLCommunicator α) (data : List α)
    (hN : 1 ≤ numNcclRanks c) (hranks : RanksFit c)
    (hfit : data.length + numNcclRanks c ≤ SIZE_T_MOD) :
    scatterState c data recordSetFn []
      = .ok ((List.range c.graphs.length).map (fun i =>
          (i, myNcclRank c i * ((data.length + numNcclRanks c - 1) / numNcclRanks c),
            min (myNcclRank c i * ((data.length + numNcclRanks c - 1) / numNcclRanks c)
              + (data.length + numNcclRanks c - 1) / numNcclRanks c) data.length))) ∧
    ((∀ i, i < c.graphs.length →
        myNcclRank c i * ((data.length + numNcclRanks c - 1) / numNcclRanks c) ≤ data.length) →
      scatterState c data (recordSliceFn data) []
        = .ok ((List.range c.graphs.length).map (fun i =>
            (i, slice data
              (myNcclRank c i * ((data.length + numNcclRanks c - 1) / numNcclRanks c))
              (min (myNcclRank c i * ((data.length + numNcclRanks c - 1) / numNcclRanks c)
                + (data.length + numNcclRanks c - 1) / numNcclRanks c) data.length))))) ∧
    (∀ (σ : Type) (setFn : Nat → Nat → Nat → σ → Except Fault σ) (s0 : σ)
        (m : IMPIWrapper α) (bCast2 : List α → Nat → List α), c.mpi = some m →
      scatterState { c with mpi := some { m with bCast := bCast2 } } data setFn s0
        = scatterState c data setFn s0) := by
  refine ⟨?_, ?_, ?_⟩
  · rw [scatterState_spec _ c data _ _ hN hranks hfit]
    unfold recordSetFn
    rw [forLoop_record]
    simp
  · intro hvalid
    rw [scatterState_spec _ c data _ _ hN hranks hfit]
    rw [forLoop_congr _ (fun i t => .ok (t ++ [(i, slice data
        (myNcclRank c i * ((data.length + numNcclRanks c - 1) / numNcclRanks c))
        (min (myNcclRank c i * ((data.length + numNcclRanks c - 1) / numNcclRanks c)
          + (data.length + numNcclRanks c - 1) / numNcclRanks c) data.length))]))]
    · rw [forLoop_record]
      simp
    · intro j _ hj t
      have hv := hvalid j (by omega)
      exact recordSliceFn_valid data j _ _ t (Nat.le_min.2 ⟨Nat.le_add_right _ _, hv⟩)
        (Nat.min_le_right _ _)
  · intro σ setFn s0 m bCast2 hm
    unfold scatterState numNcclRanks myNcclRank
    simp only [hm]

/-- The slicing at process 1 of two, two devices each, and ten values: the
shard size is three, every `begin` is within the ten values and the last slice
is clipped at the end. -/
theorem scatterState_local_slicing_example :
    scatterState exScatterProcess [0, 1, 2, 3, 4, 5, 6, 7, 8, 9] recordSetFn []
      = .ok [(0, 6, 9), (1, 9, 10)] ∧
    scatterState exScatterProcess [0, 1, 2, 3, 4, 5, 6, 7, 8, 9]
        (recordSliceFn [0, 1, 2, 3, 4, 5, 6, 7, 8, 9]) []
      = .ok [(0, [6, 7, 8]), (1, [9])] := by
  decide

/-- C9, the code at a failing input: five values scattered over four devices
(no coordinator). The setter is invoked once per device, in increasing order,
with the offsets `rank * 2` and `min (rank * 2 + 2) 5`; for device 3 these are
6 and 5, which delimit no slice of the five values: reading the vector between
the two iterators is undefined. -/
theorem C9_scatterState_hands_over_no_slice :
    scatterState exFourDevices [0, 1, 2, 3, 4] (recordSliceFn [0, 1, 2, 3, 4]) []
      = .error .undefinedBehaviour ∧
    recordSliceFn [0, 1, 2, 3, 4] 3 6 5 [(0, [0, 1]), (1, [2, 3]), (2, [4])]
      = .error .undefinedBehaviour ∧
    scatterState exFourDevices [0, 1, 2, 3, 4]
        (fun i b e (tr : List (Nat × Nat × Nat × Bool)) =>
          .ok (tr ++ [(i, b, e, decide (b ≤ e ∧ e ≤ 5))])) []
      = .ok [(0, 0, 2, true), (1, 2, 4, true), (2, 4, 5, true), (3, 6, 5, false)] := by
  decide

/-! ## Theorems: gatherState followed by scatterState -/

theorem length_flatMap_blocks (n len : Nat) (f : Nat → List α)
    (hlen : ∀ r, r < n → (f r).length = len) :
    ((List.range n).flatMap f).length = n * len := by
  induction n with
  | zero => simp
  | succ n ih =>
    rw [List.range_succ, List.flatMap_append, List.length_append,
      ih (fun r hr => hlen r (by omega))]
    simp only [List.flatMap_cons, List.flatMap_nil, List.append_nil]
    rw [hlen n (by omega), Nat.succ_mul]

/-- In a concatenation of blocks of one length, the slice at the offsets of
block `r` is block `r`. -/
theorem slice_flatMap_blocks (n len : Nat) (f : Nat → List α)
    (hlen : ∀ r, r < n → (f r).length = len) (r : Nat) (hr : r < n) :
    slice ((List.range n).flatMap f) (r * len) (r * len + len) = f r := by
  unfold slice
  rw [Nat.add_sub_cancel_left]
  induction n with
  | zero => omega
  | succ n ih =>
    have hl := length_flatMap_blocks n len f (fun q hq => hlen q (by omega))
    rw [List.range_succ, List.flatMap_append]
    simp only [List.flatMap_cons, List.flatMap_nil, List.append_nil]
    by_cases hrn : r < n
    · have h1 : (r + 1) * len ≤ n * len := Nat.mul_le_mul_right _ hrn
      rw [Nat.add_mul, Nat.one_mul] at h1
      rw [List.drop_append_of_le_length (by omega),
        List.take_append_of_le_length (by rw [List.length_drop]; omega)]
      exact ih (fun q hq => hlen q (by omega)) hrn
    · have hrn2 : r = n := by omega
      subst hrn2
      rw [← hl, List.drop_left, List.take_of_length_le (by rw [hlen r hr])]

/-- The communicator of process `p` among `P` processes of `L` devices: its
ranks and the vector `gatherState` returns. -/
theorem process_view (useMpi : Bool) (P L p : Nat) (getFns : Nat → Nat → List α)
    (c : NCCLCommunicator α) (hmpi : useMpi = false → P = 1) (hp : p < P)
    (hPL : P * L < SIZE_T_MOD) (hL : c.graphs.length = L)
    (hc : c.mpi = if useMpi then
      some (coordinator P p (fun q => (gatherLocal L (getFns q)).2)) else none) :
    numNcclRanks c = P * L ∧ RanksFit c ∧ (∀ i, i < L → myNcclRank c i = p * L + i) ∧
      gatherState c (getFns p)
        = (List.range (P * L)).flatMap (fun r => getFns (r / L) (r % L)) := by
  cases useMpi with
  | false =>
    have hP1 : P = 1 := hmpi rfl
    subst hP1
    have hp0 : p = 0 := by omega
    subst hp0
    simp only [Bool.false_eq_true, if_false] at hc
    refine ⟨?_, ?_, ?_, ?_⟩
    · unfold numNcclRanks; rw [hc, hL]; simp
    · unfold RanksFit; rw [hc]; trivial
    · intro i _; unfold myNcclRank; rw [hc]; simp
    · rw [gatherState_none c _ hc, hL, flatMap_range_mul]
      simp [List.range_succ]
  | true =>
    simp only [if_true] at hc
    refine ⟨?_, ?_, ?_, ?_⟩
    · exact numNcclRanks_of_mpi c _ P L hc rfl hL hPL
    · unfold RanksFit; rw [hc]; exact ⟨hp, by rw [hL]; exact hPL⟩
    · intro i hi
      exact myNcclRank_of_mpi c _ P L hc hL hp hPL i hi
    · rw [gatherState_coordinator c (getFns p) P p _ hc (by rw [hL, gatherLocal_snd]),
        flatMap_range_mul]
      apply List.flatMap_congr
      intro q _
      exact gatherLocal_snd _ _

/-- The length of a concatenation of blocks of length `s` whose last block has
length `t`. -/
theorem length_flatMap_short_last (n s t : Nat) (f : Nat → List α)
    (hlen : ∀ r, r < n → (f r).length = s) (hlast : (f n).length = t) :
    ((List.range (n + 1)).flatMap f).length = n * s + t := by
  rw [List.range_succ, List.flatMap_append, List.length_append,
    length_flatMap_blocks n s f hlen]
  simp only [List.flatMap_cons, List.flatMap_nil, List.append_nil]
  rw [hlast]

/-- The rounded-up quotient by `n + 1` of the length of `n` blocks of `s`
elements and a last block of `t` elements is `s`, when the last block is
shorter by less than `n + 1`. -/
theorem ceil_div_short_last (n s t : Nat) (hts : t ≤ s) (hst : s < t + (n + 1)) :
    (n * s + t + (n + 1) - 1) / (n + 1) = s := by
  apply Nat.div_eq_of_lt_le
  · rw [Nat.mul_add, Nat.mul_one, Nat.mul_comm s n]
    omega
  · rw [Nat.mul_add, Nat.mul_one, Nat.add_mul, Nat.one_mul, Nat.mul_comm s n]
    omega

/-- In a concatenation of blocks of length `s` whose last block has length
`t ≤ s`, the slice at the clipped offsets of block `r` is block `r`. -/
theorem slice_flatMap_short_last (n s t : Nat) (f : Nat → List α)
    (hlen : ∀ r, r < n → (f r).length = s) (hlast : (f n).length = t) (hts : t ≤ s)
    (r : Nat) (hr : r < n + 1) :
    slice ((List.range (n + 1)).flatMap f) (r * s) (min (r * s + s) (n * s + t)) = f r := by
  have hl := length_flatMap_blocks n s f hlen
  rw [List.range_succ, List.flatMap_append]
  simp only [List.flatMap_cons, List.flatMap_nil, List.append_nil]
  by_cases hrn : r < n
  · have h1 : (r + 1) * s ≤ n * s := Nat.mul_le_mul_right _ hrn
    rw [Nat.add_mul, Nat.one_mul] at h1
    rw [Nat.min_eq_left (by omega), ← slice_flatMap_blocks n s f hlen r hrn]
    unfold slice
    rw [List.drop_append_of_le_length (by omega),
      List.take_append_of_le_length (by rw [List.length_drop]; omega)]
  · have hrn2 : r = n := by omega
    subst hrn2
    rw [Nat.min_eq_right (by omega)]
    unfold slice
    rw [← hl, List.drop_left, List.take_of_length_le (by rw [hlast]; omega)]

/-- C3, as the code has it. When all state vectors, of all devices on all
processes, have one length `s`, except that the vector of the last device of
the last process may be shorter, by less than the total number of devices (at
least one device and one process, sizes that fit `size_t`), `scatterState` on
the vector returned by `gatherState` hands the setter, for every local device
index in turn, the vector the getter returned for that device. -/
theorem C3_gather_scatter_roundtrip_short_last (useMpi : Bool) (P L s t : Nat)
    (getFns : Nat → Nat → List α) (cs : Nat → NCCLCommunicator α)
    (hP : 1 ≤ P) (hL : 1 ≤ L) (hmpi : useMpi = false → P = 1)
    (hfit : P * L * s + P * L < SIZE_T_MOD)
    (hlen : ∀ q d, q < P → d < L → q * L + d + 1 < P * L → (getFns q d).length = s)
    (hlast : (getFns (P - 1) (L - 1)).length = t) (hts : t ≤ s) (hst : s < t + P * L)
    (hcfg : ∀ p, p < P → (cs p).graphs.length = L ∧
      (cs p).mpi = if useMpi then
        some (coordinator P p (fun q => (gatherLocal L (getFns q)).2)) else none) :
    ∀ p, p < P →
      scatterState (cs p) (gatherState (cs p) (getFns p))
          (recordSliceFn (gatherState (cs p) (getFns p))) []
        = .ok ((List.range L).map (fun i => (i, getFns p i))) := by
  intro p hp
  obtain ⟨hLp, hc⟩ := hcfg p hp
  have hNpos : 1 ≤ P * L := Nat.mul_pos hP hL
  obtain ⟨n, hn⟩ : ∃ n, P * L = n + 1 := ⟨P * L - 1, by omega⟩
  obtain ⟨hnum, hranks, hrank, hgather⟩ :=
    process_view useMpi P L p getFns (cs p) hmpi hp (by omega) hLp hc
  have hblock : ∀ r, r < n → (getFns (r / L) (r % L)).length = s := by
    intro r hr
    obtain ⟨h1, h2, h3⟩ := rank_decompose P L r (by omega)
    exact hlen _ _ h1 h2 (by omega)
  have hlastblock : (getFns (n / L) (n % L)).length = t := by
    have hPL : P * L = (P - 1) * L + L := by
      rw [Nat.sub_mul, Nat.one_mul]
      have : L ≤ P * L := Nat.le_mul_of_pos_left L (by omega)
      omega
    have hnL : n = L * (P - 1) + (L - 1) := by
      rw [Nat.mul_comm L]; omega
    have e1 : n / L = P - 1 := by
      rw [hnL, Nat.mul_add_div (by omega), Nat.div_eq_of_lt (by omega)]; rfl
    have e2 : n % L = L - 1 := by
      rw [hnL, Nat.mul_add_mod, Nat.mod_eq_of_lt (by omega)]
    rw [e1, e2]; exact hlast
  have hle : n * s + t ≤ P * L * s := by
    rw [hn, Nat.add_mul, Nat.one_mul]; omega
  have hsize : (gatherState (cs p) (getFns p)).length = n * s + t := by
    rw [hgather, hn]; exact length_flatMap_short_last n s t _ hblock hlastblock
  have hceil : ((gatherState (cs p) (getFns p)).length + numNcclRanks (cs p) - 1)
      / numNcclRanks (cs p) = s := by
    rw [hsize, hnum, hn]
    exact ceil_div_short_last n s t hts (by omega)
  have hr : ∀ i, i < L → p * L + i < n + 1 := by
    intro i hi
    have h1 : (p + 1) * L ≤ P * L := Nat.mul_le_mul_right _ hp
    rw [Nat.add_mul, Nat.one_mul] at h1
    omega
  have hbegin : ∀ i, i < L → (p * L + i) * s ≤ n * s + t := by
    intro i hi
    have h1 : (p * L + i) * s ≤ n * s := Nat.mul_le_mul_right _ (by have := hr i hi; omega)
    omega
  rw [(scatterState_local_slicing (cs p) _ (by rw [hnum]; exact hNpos) hranks
    (by rw [hnum, hsize]; omega)).2.1
    (by intro i hi; rw [hceil, hLp] at *; rw [hrank i hi, hsize]; exact hbegin i hi)]
  rw [hLp, hceil, hsize]
  congr 1
  apply List.map_congr_left
  intro i hi
  rw [List.mem_range] at hi
  rw [hrank i hi, hgather, hn,
    slice_flatMap_short_last n s t _ hblock hlastblock hts _ (hr i hi)]
  have e1 : (p * L + i) / L = p := by
    rw [Nat.mul_comm, Nat.mul_add_div (by omega), Nat.div_eq_of_lt hi]; rfl
  have e2 : (p * L + i) % L = i := by
    rw [Nat.mul_comm, Nat.mul_add_mod, Nat.mod_eq_of_lt hi]
  rw [e1, e2]

/-- C3 at three processes of two devices with state vectors of two values,
except for a single value on the last device of the last process: the
hypotheses hold; on process 1 the setter receives the two vectors of the
getter, and on process 2 the vector of two values and the vector of one. -/
theorem C3_gather_scatter_roundtrip_short_last_witness :
    (gatherState (exShortLastProcess 2) (exShortLastGetFns 2)).length = 11 ∧
    scatterState (exShortLastProcess 1) (gatherState (exShortLastProcess 1) (exShortLastGetFns 1))
        (recordSliceFn (gatherState (exShortLastProcess 1) (exShortLastGetFns 1))) []
      = .ok [(0, [10, 110]), (1, [11, 111])] ∧
    scatterState (exShortLastProcess 2) (gatherState (exShortLastProcess 2) (exShortLastGetFns 2))
        (recordSliceFn (gatherState (exShortLastProcess 2) (exShortLastGetFns 2))) []
      = .ok [(0, [20, 120]), (1, [21])] :=
  ⟨by decide,
    C3_gather_scatter_roundtrip_short_last true 3 2 2 1 exShortLastGetFns exShortLastProcess
      (by decide) (by decide) (by decide) (by decide)
      (fun q d hq hd h => by
        have h2 : ¬ (q = 2 ∧ d = 1) := by omega
        simp [exShortLastGetFns, h2])
      (by decide) (by decide) (by decide) (fun _ _ => ⟨rfl, rfl⟩) 1 (by decide),
    by decide⟩

/-- C3 as stated fails: with one value on device 0 and three on device 1 (no
coordinator), `gatherState` returns four values, `scatterState` cuts them in
two slices of two, and the setter does not receive the vectors of the getter. -/
theorem C3_gather_scatter_roundtrip_counterexample :
    scatterState exTwoDevices (gatherState exTwoDevices exRaggedGetFn)
        (recordSliceFn (gatherState exTwoDevices exRaggedGetFn)) []
      = .ok [(0, [1, 2]), (1, [3, 4])] ∧
    ¬ (scatterState exTwoDevices (gatherState exTwoDevices exRaggedGetFn)
        (recordSliceFn (gatherState exTwoDevices exRaggedGetFn)) []
      = .ok ((List.range 2).map (fun i => (i, exRaggedGetFn i)))) := by
  constructor
  · decide
  · decide

/-! ## Theorems: foreach -/

theorem getD_set_eq {β : Type} (l : List β) (i j : Nat) (v d : β) (hi : i < l.length) :
    (l.set i v).getD j d = if j = i then v else l.getD j d := by
  rw [List.getD_eq_getElem?_getD, List.getD_eq_getElem?_getD, List.getElem?_set]
  by_cases h : i = j
  · subst h; simp [hi]
  · have h2 : ¬ j = i := fun e => h e.symm
    simp [h, h2]

/-- Before any unit is queued, no future is assigned and no invocation has
been executed. -/
theorem poolInv_init {ε : Type} (func : Nat → Nat → Nat → Option ε) (rng : Nat → Nat × Nat)
    (L : Nat) : PoolInv func rng L 0 0 (([], List.replicate L .invalid) : PoolState ε) := by
  refine ⟨List.length_replicate _ _, Nat.zero_le _, fun j => Or.inl ⟨Nat.zero_le _, ?_, rfl⟩⟩
  rw [List.getD_eq_getElem?_getD, List.getElem?_replicate]
  split <;> rfl

/-- A worker that runs a unit keeps the state of the pool consistent: the unit
of a device runs at most once. -/
theorem runUnit_inv {ε : Type} (func : Nat → Nat → Nat → Option ε) (rng : Nat → Nat × Nat)
    (L k w : Nat) (st : PoolState ε) (x : Nat) (h : PoolInv func rng L k w st) :
    PoolInv func rng L k w (runUnit func st x) := by
  obtain ⟨hlen, hk, hall⟩ := h
  unfold runUnit
  cases hx : st.2.getD x Future.invalid with
  | invalid => exact ⟨hlen, hk, hall⟩
  | ready r => exact ⟨hlen, hk, hall⟩
  | pending i b e =>
    simp only
    rcases hall x with ⟨_, h1, _⟩ | ⟨_, hxk, h1, hf⟩ | ⟨_, h1, _⟩
    · rw [hx] at h1; cases h1
    · rw [hx] at h1
      injection h1 with hi hb he
      subst hi hb he
      have hxl : i < st.2.length := by omega
      refine ⟨by rw [List.length_set]; exact hlen, hk, fun j => ?_⟩
      by_cases hj : j = i
      · subst hj
        refine Or.inr (Or.inr ⟨hxk, ?_, ?_⟩)
        · rw [getD_set_eq _ _ _ _ _ hxl, if_pos rfl]
        · rw [List.filter_append, hf]
          simp
      · have hget : (st.2.set i (Future.ready (func i (rng i).1 (rng i).2))).getD j Future.invalid
            = st.2.getD j Future.invalid := by
          rw [getD_set_eq _ _ _ _ _ hxl, if_neg hj]
        have hfil : (st.1 ++ [(i, (rng i).1, (rng i).2)]).filter (fun t => decide (t.1 = j))
            = st.1.filter (fun t => decide (t.1 = j)) := by
          rw [List.filter_append]
          have hij : ¬ i = j := fun e => hj e.symm
          simp [hij]
        rw [hget, hfil]
        exact hall j
    · rw [hx] at h1; cases h1

/-- A worker that runs a queued unit leaves its future ready. -/
theorem runUnit_ready {ε : Type} (func : Nat → Nat → Nat → Option ε) (st : PoolState ε)
    (x i b e : Nat) (hx : st.2.getD x Future.invalid = .pending i b e) (hlt : x < st.2.length) :
    (runUnit func st x).2.getD x Future.invalid = .ready (func i b e) := by
  unfold runUnit
  rw [hx]
  simp only
  rw [getD_set_eq _ _ _ _ _ hlt, if_pos rfl]

theorem workers_inv {ε : Type} (func : Nat → Nat → Nat → Option ε) (rng : Nat → Nat × Nat)
    (L k w : Nat) (order : List Nat) (st : PoolState ε) (h : PoolInv func rng L k w st) :
    PoolInv func rng L k w (workers func st order) := by
  unfold workers
  induction order generalizing st with
  | nil => exact h
  | cons x rest ih => exact ih _ (runUnit_inv func rng L k w st x h)

/-- Queueing the unit of the next device keeps the state of the pool
consistent. -/
theorem enqueue_inv {ε : Type} (func : Nat → Nat → Nat → Option ε) (rng : Nat → Nat × Nat)
    (L k : Nat) (st : PoolState ε) (hkL : k < L) (h : PoolInv func rng L k 0 st) :
    PoolInv func rng L (k + 1) 0 (st.1, st.2.set k (enqueue k (rng k).1 (rng k).2)) := by
  obtain ⟨hlen, _, hall⟩ := h
  have hkl : k < st.2.length := by omega
  refine ⟨by rw [List.length_set]; exact hlen, hkL, fun j => ?_⟩
  simp only
  rw [getD_set_eq _ _ _ _ _ hkl]
  by_cases hj : j = k
  · subst hj
    rw [if_pos rfl]
    rcases hall j with ⟨_, _, hf⟩ | ⟨_, hlt, _, _⟩ | ⟨hlt, _, _⟩
    · exact Or.inr (Or.inl ⟨Nat.zero_le _, Nat.lt_succ_self _, rfl, hf⟩)
    · omega
    · omega
  · rw [if_neg hj]
    rcases hall j with ⟨hle, h1, hf⟩ | ⟨h0, hlt, h1, hf⟩ | ⟨hlt, h1, hf⟩
    · exact Or.inl ⟨by omega, h1, hf⟩
    · exact Or.inr (Or.inl ⟨h0, by omega, h1, hf⟩)
    · exact Or.inr (Or.inr ⟨by omega, h1, hf⟩)

/-- The loop of `foreach` in parallel mode, when the shard ranges exist: it
ends normally whatever the units and the workers do, with every unit queued
or run once. -/
theorem foreachLoop_parallel {ε : Type} (c : NCCLCommunicator α)
    (func : Nat → Nat → Nat → Option ε) (sched : Nat → List Nat) (rng : Nat → Nat × Nat)
    (L : Nat) (hrng : ∀ i, localShardRange c i = .ok (rng i)) (n k : Nat) (st : PoolState ε)
    (hkn : k + n = L) (h : PoolInv func rng L k 0 st) :
    (foreachLoop c func true sched (List.range' k n) st).exit = .returned ∧
    PoolInv func rng L L 0
      ((foreachLoop c func true sched (List.range' k n) st).calls,
        (foreachLoop c func true sched (List.range' k n) st).threadResults) := by
  induction n generalizing k st with
  | zero =>
    have hk : k = L := by omega
    subst hk
    simp only [List.range'_zero, foreachLoop]
    exact ⟨trivial, h⟩
  | succ n ih =>
    rw [List.range'_succ]
    simp only [foreachLoop, hrng k, if_true]
    exact ih (k + 1) _ (by omega)
      (workers_inv func rng L (k + 1) 0 _ _ (enqueue_inv func rng L k st (by omega) h))

/-- Once the future of device `w` is ready, it counts as waited for. -/
theorem poolInv_advance {ε : Type} (func : Nat → Nat → Nat → Option ε) (rng : Nat → Nat × Nat)
    (L w : Nat) (st : PoolState ε) (h : PoolInv func rng L L w st)
    (hr : ∃ r, st.2.getD w Future.invalid = .ready r) : PoolInv func rng L L (w + 1) st := by
  obtain ⟨hlen, hk, hall⟩ := h
  obtain ⟨r, hr⟩ := hr
  refine ⟨hlen, hk, fun j => ?_⟩
  rcases hall j with ⟨hle, h1, hf⟩ | ⟨hw, hlt, h1, hf⟩ | ⟨hlt, h1, hf⟩
  · exact Or.inl ⟨hle, h1, hf⟩
  · by_cases hj : j = w
    · subst hj
      rw [hr] at h1; cases h1
    · exact Or.inr (Or.inl ⟨by omega, hlt, h1, hf⟩)
  · exact Or.inr (Or.inr ⟨hlt, h1, hf⟩)

/-- The waits of lines 224-226, on a pool in which every unit is queued or
run: every wait returns, and after the wait for a device its unit has run. -/
theorem waitAll_inv {ε : Type} (func : Nat → Nat → Nat → Option ε) (sched : Nat → List Nat)
    (rng : Nat → Nat × Nat) (L n w : Nat) (st : PoolState ε) (hwn : w + n = L)
    (h : PoolInv func rng L L w st) :
    ∃ st1, waitAll func sched L (List.range' w n) st = .ok st1 ∧
      PoolInv func rng L L L st1 := by
  induction n generalizing w st with
  | zero =>
    have hw : w = L := by omega
    subst hw
    exact ⟨st, rfl, h⟩
  | succ n ih =>
    rw [List.range'_succ]
    have hstep : ∃ st1, futureWait func st w = .ok st1 ∧ PoolInv func rng L L (w + 1) st1 := by
      obtain ⟨hlen, hk, hall⟩ := h
      rcases hall w with ⟨hle, _, _⟩ | ⟨_, _, h1, _⟩ | ⟨_, h1, _⟩
      · omega
      · refine ⟨runUnit func st w, ?_, ?_⟩
        · unfold futureWait
          rw [h1]
        · exact poolInv_advance func rng L w _
            (runUnit_inv func rng L L w st w ⟨hlen, hk, hall⟩)
            ⟨_, runUnit_ready func st w _ _ _ h1 (by omega)⟩
      · refine ⟨st, ?_, ?_⟩
        · unfold futureWait
          rw [h1]
        · exact poolInv_advance func rng L w _ ⟨hlen, hk, hall⟩ ⟨_, h1⟩
    obtain ⟨st1, hw1, hinv1⟩ := hstep
    simp only [waitAll, hw1]
    exact ih (w + 1) _ (by omega) (workers_inv func rng L L (w + 1) _ _ hinv1)

/-- What `foreach` does in parallel mode with more than one device and even
shards, for every schedule of the workers: it returns, and when it returns
the unit of every device has run exactly once, with the shard range of the
device, and the future of the device holds the outcome of its unit. -/
theorem foreach_parallel {ε : Type} (c : NCCLCommunicator α)
    (func : Nat → Nat → Nat → Option ε) (sched : Nat → List Nat) (size : Nat)
    (hL : 2 ≤ c.graphs.length) (hs : shardSize c = .ok size) :
    ∃ rng : Nat → Nat × Nat, (∀ i, localShardRange c i = .ok (rng i)) ∧
      (foreach c func true sched).exit = .returned ∧
      PoolInv func rng c.graphs.length c.graphs.length c.graphs.length
        ((foreach c func true sched).calls, (foreach c func true sched).threadResults) := by
  have hrng : ∀ i, localShardRange c i
      = .ok ((myNcclRank c i * size) % SIZE_T_MOD,
          min (((myNcclRank c i * size) % SIZE_T_MOD + size) % SIZE_T_MOD) (dataSize c)) := by
    intro i
    unfold localShardRange ncclRankShardRange
    rw [hs]
  refine ⟨_, hrng, ?_⟩
  obtain ⟨h1, h2⟩ := foreachLoop_parallel c func sched _ c.graphs.length hrng
    c.graphs.length 0 ([], List.replicate c.graphs.length .invalid) (by omega)
    (poolInv_init func _ _)
  rw [← List.range_eq_range'] at h1 h2
  obtain ⟨st1, hw, hinv⟩ := waitAll_inv func sched _ c.graphs.length c.graphs.length 0 _
    (by omega) h2
  rw [← List.range_eq_range'] at hw
  have hpar : (true && decide (c.graphs.length > 1)) = true := by simp; omega
  have hrun : foreach c func true sched
      = { calls := st1.1, threadResults := st1.2, exit := .returned } := by
    unfold foreach
    simp only [hpar, h1, hw, if_true]
  rw [hrun]
  exact ⟨rfl, hinv⟩

/-- When every future has been waited for, the unit of every device has run
exactly once and no other invocation has been executed. -/
theorem poolInv_done {ε : Type} (func : Nat → Nat → Nat → Option ε) (rng : Nat → Nat × Nat)
    (L : Nat) (st : PoolState ε) (h : PoolInv func rng L L L st) :
    st.2.length = L ∧
    (∀ j, j < L → st.2.getD j Future.invalid = .ready (func j (rng j).1 (rng j).2) ∧
      st.1.filter (fun t => decide (t.1 = j)) = [(j, (rng j).1, (rng j).2)]) ∧
    (∀ j, L ≤ j → st.1.filter (fun t => decide (t.1 = j)) = []) := by
  obtain ⟨hlen, _, hall⟩ := h
  refine ⟨hlen, fun j hj => ?_, fun j hj => ?_⟩
  · rcases hall j with ⟨hle, _, _⟩ | ⟨hw, hlt, _, _⟩ | ⟨_, h1, hf⟩
    · omega
    · omega
    · exact ⟨h1, hf⟩
  · rcases hall j with ⟨_, _, hf⟩ | ⟨_, hlt, _, _⟩ | ⟨hlt, _, _⟩
    · exact hf
    · omega
    · omega

/-- Among the records of the devices `0..n-1`, exactly one is of device `i`. -/
theorem filter_device_record {β : Type} (g : Nat → β) (n i : Nat) (hi : i < n) :
    ((List.range n).map (fun j => (j, g j))).filter (fun t => decide (t.1 = i))
      = [(i, g i)] := by
  induction n with
  | zero => omega
  | succ n ih =>
    rw [List.range_succ, List.map_append, List.filter_append]
    by_cases h : i < n
    · rw [ih h]
      have : ¬ n = i := by omega
      simp [this]
    · have hn : i = n := by omega
      subst hn
      have hnone : ((List.range i).map (fun j => (j, g j))).filter
          (fun t => decide (t.1 = i)) = [] := by
        rw [List.filter_eq_nil_iff]
        intro t ht
        rw [List.mem_map] at ht
        obtain ⟨j, hj, rfl⟩ := ht
        rw [List.mem_range] at hj
        simp; omega
      rw [hnone]
      simp

/-- Two lists with the same elements of every key are rearrangements of each
other. -/
theorem perm_of_filter_key {γ : Type} [DecidableEq γ] (key : γ → Nat) (l1 l2 : List γ)
    (h : ∀ j, l1.filter (fun t => decide (key t = j))
      = l2.filter (fun t => decide (key t = j))) :
    l1.Perm l2 := by
  rw [List.perm_iff_count]
  intro a
  have h1 := congrArg (List.count a) (h (key a))
  rw [List.count_filter (by simp), List.count_filter (by simp)] at h1
  exact h1

/-- The executed invocations of a pool in which every future has been waited
for are a rearrangement of one invocation per device. -/
theorem poolInv_perm {ε : Type} (func : Nat → Nat → Nat → Option ε) (rng : Nat → Nat × Nat)
    (L : Nat) (st : PoolState ε) (h : PoolInv func rng L L L st) :
    st.1.Perm ((List.range L).map (fun i => (i, (rng i).1, (rng i).2))) := by
  obtain ⟨_, h1, h2⟩ := poolInv_done func rng L st h
  refine perm_of_filter_key Prod.fst _ _ (fun j => ?_)
  by_cases hj : j < L
  · rw [(h1 j hj).2, filter_device_record (fun i => ((rng i).1, (rng i).2)) L j hj]
  · rw [h2 j (by omega)]
    symm
    rw [List.filter_eq_nil_iff]
    intro t ht
    rw [List.mem_map] at ht
    obtain ⟨i, hi, rfl⟩ := ht
    rw [List.mem_range] at hi
    simp; omega

/-- C7. In `foreach` with `parallel = true`, at least three local devices and
even shards, for an action that throws on device index 2 and for every
schedule of the workers of the thread pool: `foreach` returns, after the
waits of lines 224-226; when it returns, the invocations that have been
executed are a rearrangement of one invocation per device with the shard
range of the device; for every device index exactly one executed invocation
is of that device, with its shard range, and the future of the device is
ready and holds the outcome of that invocation; the future of device 2 holds
the exception. -/
theorem C7_parallel_action_runs_on_every_device {ε : Type} (c : NCCLCommunicator α)
    (func : Nat → Nat → Nat → Option ε) (sched : Nat → List Nat) (err : ε) (size : Nat)
    (hL : 3 ≤ c.graphs.length) (hs : shardSize c = .ok size)
    (hthrow : ∀ b e, func 2 b e = some err) :
    (foreach c func true sched).exit = .returned ∧
    (∃ rng : Nat → Nat × Nat, (∀ i, localShardRange c i = .ok (rng i)) ∧
      (foreach c func true sched).calls.Perm
        ((List.range c.graphs.length).map (fun i => (i, (rng i).1, (rng i).2)))) ∧
    (∀ i, i < c.graphs.length → ∃ b e, localShardRange c i = .ok (b, e) ∧
      (foreach c func true sched).calls.filter (fun t => decide (t.1 = i)) = [(i, b, e)] ∧
      (foreach c func true sched).threadResults.getD i .invalid = .ready (func i b e)) ∧
    (foreach c func true sched).threadResults.getD 2 .invalid = .ready (some err) := by
  obtain ⟨rng, hrng, h1, hinv⟩ := foreach_parallel c func sched size (by omega) hs
  obtain ⟨_, hdone, _⟩ := poolInv_done func rng _ _ hinv
  refine ⟨h1, ⟨rng, hrng, poolInv_perm func rng _ _ hinv⟩, ?_, ?_⟩
  · intro i hi
    exact ⟨(rng i).1, (rng i).2, hrng i, (hdone i hi).2, (hdone i hi).1⟩
  · rw [(hdone 2 (by omega)).1, hthrow]

/-- C7 at four devices of eight parameters and an action that throws on device
2: the hypotheses hold. Under the schedule in which no worker runs a unit
before the calling thread waits for it, no invocation has been executed when
the loop of lines 202-223 ends, and all four have been when `foreach` returns;
under a schedule in which the workers run the units in the reverse order of
the devices after the last one is queued, the four invocations have been
executed in that order. -/
theorem C7_parallel_action_runs_on_every_device_witness :
    shardSize exFourDevices = .ok 2 ∧
      (foreach exFourDevices exThrowOnTwo true exReverseSchedule).exit = .returned ∧
      (foreach exFourDevices exThrowOnTwo true exReverseSchedule).calls
        = [(3, 6, 8), (2, 4, 6), (1, 2, 4), (0, 0, 2)] ∧
      (foreachLoop exFourDevices exThrowOnTwo true exIdleSchedule (List.range 4)
        ([], List.replicate 4 .invalid)).calls = [] ∧
      (foreach exFourDevices exThrowOnTwo true exIdleSchedule).calls
        = [(0, 0, 2), (1, 2, 4), (2, 4, 6), (3, 6, 8)] :=
  ⟨by decide,
    (C7_parallel_action_runs_on_every_device exFourDevices exThrowOnTwo exReverseSchedule 7 2
      (by decide) (by decide) (fun _ _ => rfl)).1,
    by decide, by decide, by decide⟩

/-- A list of four elements is the list of its elements at the positions
`0..3`. -/
theorem list_of_length_four {β : Type} (l : List β) (d : β) (h : l.length = 4) :
    l = [l.getD 0 d, l.getD 1 d, l.getD 2 d, l.getD 3 d] := by
  match l, h with
  | [_, _, _, _], _ => rfl

/-- C6, the code at a failing input: four devices, parallel mode, an action
that throws `7` on device 2, any schedule of the workers. `foreach` returns
normally; the exception stays in the future of device 2 (`wait()` of line 226
does not rethrow it). The sequential path on the same input lets the
exception leave `foreach`. -/
theorem C6_parallel_error_not_reraised (sched : Nat → List Nat) :
    (foreach exFourDevices exThrowOnTwo true sched).exit = .returned ∧
    (foreach exFourDevices exThrowOnTwo true sched).threadResults
      = [.ready none, .ready none, .ready (some 7), .ready none] ∧
    (foreach exFourDevices exThrowOnTwo false sched).exit = .raised 7 := by
  obtain ⟨rng, _, h1, hinv⟩ := foreach_parallel exFourDevices exThrowOnTwo sched 2
    (by decide) (by decide)
  obtain ⟨hlen, hdone, _⟩ := poolInv_done exThrowOnTwo rng _ _ hinv
  refine ⟨h1, ?_, rfl⟩
  have h4 : (foreach exFourDevices exThrowOnTwo true sched).threadResults.length = 4 := hlen
  rw [list_of_length_four _ Future.invalid h4,
    (hdone 0 (by decide)).1, (hdone 1 (by decide)).1, (hdone 2 (by decide)).1,
    (hdone 3 (by decide)).1]
  rfl

/-! ## Theorems: swapParams -/

theorem length_slice (data : List α) (b e : Nat) (hbe : b ≤ e) (he : e ≤ data.length) :
    (slice data b e).length = e - b := by
  unfold slice
  rw [List.length_take, List.length_drop]
  omega

/-- One call of the setter of `swapParams`, for offsets inside the data: it
succeeds exactly when the shard tensor of the device has the size of the
slice, and then that tensor holds the slice. -/
theorem swapSetFn_ok_iff (data : List α) (i b e : Nat) (sh sh1 : List (List α))
    (he : e ≤ data.length) (hM : data.length < SIZE_T_MOD) :
    swapSetFn data i b e sh = .ok sh1 ↔
      ∃ shard, sh[i]? = some shard ∧ shard.length = e - b ∧ b ≤ e ∧
        sh1 = sh.set i (slice data b e) := by
  unfold swapSetFn
  rw [List.get?_eq_getElem?]
  cases hsh : sh[i]? with
  | none => simp
  | some shard =>
    simp only [Option.some.injEq, exists_eq_left']
    by_cases hbe : b ≤ e
    · have hmod : (e + SIZE_T_MOD - b) % SIZE_T_MOD = e - b := by
        have h1 : e + SIZE_T_MOD - b = (e - b) + SIZE_T_MOD := by omega
        rw [h1, Nat.add_mod_right]
        exact Nat.mod_eq_of_lt (by omega)
      rw [hmod]
      by_cases hlen : shard.length = e - b
      · have hsl := length_slice data b e hbe he
        have hts : tensorSet shard (slice data b e) = .ok (slice data b e) := by
          unfold tensorSet
          rw [if_pos (by omega), List.drop_of_length_le (by omega), List.append_nil]
        rw [if_neg (by simpa using hlen), if_neg (by omega), hts]
        simp only [Except.ok.injEq]
        constructor
        · intro h; exact ⟨hlen, hbe, h.symm⟩
        · intro h; exact h.2.2.symm
      · rw [if_pos hlen]
        simp [hlen]
    · have hlt : e < b := by omega
      by_cases hlen : shard.length ≠ (e + SIZE_T_MOD - b) % SIZE_T_MOD
      · rw [if_pos hlen]; simp [hbe]
      · rw [if_neg hlen, if_pos hlt]; simp [hbe]

/-- The loop of `scatterState` with the setter of `swapParams`: when it
succeeds, each visited device had a shard tensor of the size of its slice and
now holds the slice, and the other tensors are as before. -/
theorem swap_loop_ok (data : List α) (b e : Nat → Nat) (hM : data.length < SIZE_T_MOD)
    (he : ∀ i, e i ≤ data.length) (n k : Nat) (sh sh1 : List (List α))
    (h : forLoop (fun i s => swapSetFn data i (b i) (e i) s) n k sh = .ok sh1) :
    sh1.length = sh.length ∧
    (∀ i, k ≤ i → i < k + n →
      (∃ shard, sh[i]? = some shard ∧ shard.length = e i - b i) ∧ b i ≤ e i ∧
        sh1[i]? = some (slice data (b i) (e i))) ∧
    (∀ j, (j < k ∨ k + n ≤ j) → sh1[j]? = sh[j]?) := by
  induction n generalizing k sh with
  | zero =>
    simp only [forLoop, Except.ok.injEq] at h
    subst h
    exact ⟨rfl, fun i h1 h2 => by omega, fun _ _ => rfl⟩
  | succ n ih =>
    rw [forLoop] at h
    cases hstep : swapSetFn data k (b k) (e k) sh with
    | error f => rw [hstep] at h; simp at h
    | ok s1 =>
      rw [hstep] at h
      simp only at h
      obtain ⟨shard, hshard, hlen, hbe, hs1⟩ :=
        (swapSetFn_ok_iff data k (b k) (e k) sh s1 (he k) hM).1 hstep
      obtain ⟨ihlen, ihin, ihout⟩ := ih (k + 1) s1 h
      have hk : k < sh.length := by
        rcases Nat.lt_or_ge k sh.length with hlt | hge
        · exact hlt
        · rw [List.getElem?_eq_none hge] at hshard; simp at hshard
      refine ⟨by rw [ihlen, hs1, List.length_set], ?_, ?_⟩
      · intro i hi1 hi2
        by_cases hik : i = k
        · subst hik
          refine ⟨⟨shard, hshard, hlen⟩, hbe, ?_⟩
          rw [ihout i (Or.inl (by omega)), hs1, List.getElem?_set]
          simp [hk]
        · obtain ⟨⟨shard2, h2, h3⟩, h4, h5⟩ := ihin i (by omega) (by omega)
          · refine ⟨⟨shard2, ?_, h3⟩, h4, h5⟩
            rw [hs1, List.getElem?_set] at h2
            have : ¬ k = i := fun e => hik e.symm
            simpa [this] using h2
      · intro j hj
        rw [ihout j (by omega), hs1, List.getElem?_set]
        have : ¬ k = j := by omega
        simp [this]

/-- The loop of `scatterState` with the setter of `swapParams` succeeds when
every visited device has a shard tensor of the size of its slice. -/
theorem swap_loop_exists (data : List α) (b e : Nat → Nat) (hM : data.length < SIZE_T_MOD)
    (he : ∀ i, e i ≤ data.length) (n k : Nat) (sh : List (List α))
    (hcond : ∀ i, k ≤ i → i < k + n →
      (∃ shard, sh[i]? = some shard ∧ shard.length = e i - b i) ∧ b i ≤ e i) :
    ∃ sh1, forLoop (fun i s => swapSetFn data i (b i) (e i) s) n k sh = .ok sh1 := by
  induction n generalizing k sh with
  | zero => exact ⟨sh, rfl⟩
  | succ n ih =>
    obtain ⟨⟨shard, hshard, hlen⟩, hbe⟩ := hcond k (Nat.le_refl _) (by omega)
    have hstep : swapSetFn data k (b k) (e k) sh = .ok (sh.set k (slice data (b k) (e k))) :=
      (swapSetFn_ok_iff data k (b k) (e k) sh _ (he k) hM).2 ⟨shard, hshard, hlen, hbe, rfl⟩
    rw [forLoop, hstep]
    simp only
    apply ih
    intro i hi1 hi2
    obtain ⟨⟨shard2, h2, h3⟩, h4⟩ := hcond i (by omega) (by omega)
    refine ⟨⟨shard2, ?_, h3⟩, h4⟩
    rw [List.getElem?_set]
    have : ¬ k = i := by omega
    simpa [this] using h2

theorem setAllVals_ok (v : List α) (graphs : List (ExpressionGraph α))
    (h : ∀ g, g ∈ graphs → g.vals.length = v.length) :
    setAllVals v graphs = .ok (graphs.map (fun g => { g with vals := v })) := by
  induction graphs with
  | nil => rfl
  | cons g rest ih =>
    have hg := h g (List.mem_cons_self _ _)
    have hts : tensorSet g.vals v = .ok v := by
      unfold tensorSet
      rw [if_pos (by omega), List.drop_of_length_le (by omega), List.append_nil]
    simp only [setAllVals, hts, ih (fun g2 hg2 => h g2 (List.mem_cons_of_mem _ hg2)),
      List.map_cons]

/-- The rounded-up shard size times the number of ranks reaches the data size. -/
theorem le_mul_ceil_div (D N : Nat) (hN : 1 ≤ N) : D ≤ N * ((D + N - 1) / N) := by
  have h1 := Nat.div_add_mod (D + N - 1) N
  have h2 := Nat.mod_lt (D + N - 1) (by omega : 0 < N)
  generalize (D + N - 1) / N = q at *
  generalize (D + N - 1) % N = t at *
  generalize N * q = m at *
  omega

/-- The slices that `scatterState` cuts for the ranks `0..n-1`, concatenated
in the order of the ranks, are the first `n * s` elements of the data. -/
theorem flatMap_slices_take (V : List α) (s n : Nat) :
    (List.range n).flatMap (fun r => slice V (r * s) (min (r * s + s) V.length))
      = V.take (n * s) := by
  induction n with
  | zero => simp
  | succ n ih =>
    rw [List.range_succ, List.flatMap_append, ih, Nat.succ_mul, List.take_add]
    simp only [List.flatMap_cons, List.flatMap_nil, List.append_nil]
    congr 1
    unfold slice
    by_cases h : n * s + s ≤ V.length
    · rw [Nat.min_eq_left h, Nat.add_sub_cancel_left]
    · rw [Nat.min_eq_right (by omega),
        List.take_of_length_le (by rw [List.length_drop]),
        List.take_of_length_le (by rw [List.length_drop]; omega)]

theorem flatMap_slices (V : List α) (N : Nat) (hN : 1 ≤ N) :
    (List.range N).flatMap (fun r =>
        slice V (r * ((V.length + N - 1) / N))
          (min (r * ((V.length + N - 1) / N) + (V.length + N - 1) / N) V.length))
      = V := by
  rw [flatMap_slices_take]
  exact List.take_of_length_le (le_mul_ceil_div _ _ hN)

/-- What `swapParams` does on one process whose graphs all hold the parameter
vector `V`, for ranks and sizes that fit: if it returns, the gathered vector
has the size of `V`, the shard tensor of every local device had the size of
the device's slice of `V` and now holds that slice, every graph holds the
gathered vector, and nothing else has changed. -/
theorem swapParams_ok (c c1 : NCCLCommunicator α) (shards sh1 : List (List α))
    (V : List α) (hident : ∀ g, g ∈ c.graphs → g.vals = V)
    (hN : 1 ≤ numNcclRanks c) (hranks : RanksFit c)
    (hfit : V.length + numNcclRanks c ≤ SIZE_T_MOD)
    (h : swapParams c shards = .ok (c1, sh1)) :
    (gatherState c (fun i => shards.getD i [])).length = V.length ∧
    c1 = { c with graphs := c.graphs.map (fun g =>
      { g with vals := gatherState c (fun i => shards.getD i []) }) } ∧
    sh1.length = shards.length ∧
    (∀ i, i < c.graphs.length →
      (∃ shard, shards[i]? = some shard ∧ shard.length
        = min (myNcclRank c i * ((V.length + numNcclRanks c - 1) / numNcclRanks c)
            + (V.length + numNcclRanks c - 1) / numNcclRanks c) V.length
          - myNcclRank c i * ((V.length + numNcclRanks c - 1) / numNcclRanks c)) ∧
      myNcclRank c i * ((V.length + numNcclRanks c - 1) / numNcclRanks c)
        ≤ min (myNcclRank c i * ((V.length + numNcclRanks c - 1) / numNcclRanks c)
            + (V.length + numNcclRanks c - 1) / numNcclRanks c) V.length ∧
      sh1[i]? = some (slice V
        (myNcclRank c i * ((V.length + numNcclRanks c - 1) / numNcclRanks c))
        (min (myNcclRank c i * ((V.length + numNcclRanks c - 1) / numNcclRanks c)
            + (V.length + numNcclRanks c - 1) / numNcclRanks c) V.length))) ∧
    (∀ j, c.graphs.length ≤ j → sh1[j]? = shards[j]?) := by
  unfold swapParams at h
  split at h
  · simp at h
  split at h
  · simp at h
  rename_i g0 rest hg
  have hg0 : g0.vals = V := hident g0 (by rw [hg]; exact List.mem_cons_self _ _)
  rw [hg0] at h
  dsimp only at h
  split at h
  · simp at h
  rename_i hsize
  have hsize2 : (gatherState c (fun i => shards.getD i [])).length = V.length := by
    simpa using hsize
  rw [scatterState_spec _ c V _ _ hN hranks hfit] at h
  cases hloop : forLoop (fun i s => swapSetFn V i
      (myNcclRank c i * ((V.length + numNcclRanks c - 1) / numNcclRanks c))
      (min (myNcclRank c i * ((V.length + numNcclRanks c - 1) / numNcclRanks c)
          + (V.length + numNcclRanks c - 1) / numNcclRanks c) V.length) s)
      c.graphs.length 0 shards with
  | error f => rw [hloop] at h; simp at h
  | ok sh2 =>
    rw [hloop] at h
    simp only at h
    rw [setAllVals_ok _ c.graphs (fun g hgm => by rw [hident g hgm, hsize2])] at h
    simp only [Except.ok.injEq, Prod.mk.injEq] at h
    obtain ⟨hc1, hsh⟩ := h
    subst hsh
    obtain ⟨l1, l2, l3⟩ := swap_loop_ok V _ _ (by omega) (fun i => Nat.min_le_right _ _)
      c.graphs.length 0 shards sh2 hloop
    refine ⟨hsize2, hc1.symm, l1, ?_, ?_⟩
    · intro i hi
      exact l2 i (Nat.zero_le _) (by omega)
    · intro j hj
      exact l3 j (Or.inr (by omega))

/-- On one process whose graphs all hold `V`, `swapParams` returns when there
is a shard tensor for every local device, the gathered vector has the size of
`V`, and the shard tensor of every local device has the size of its slice. -/
theorem swapParams_exists (c : NCCLCommunicator α) (shards : List (List α))
    (V : List α) (hident : ∀ g, g ∈ c.graphs → g.vals = V)
    (hN : 1 ≤ numNcclRanks c) (hranks : RanksFit c)
    (hfit : V.length + numNcclRanks c ≤ SIZE_T_MOD)
    (hlen : c.graphs.length ≤ shards.length)
    (hsize : (gatherState c (fun i => shards.getD i [])).length = V.length)
    (hcond : ∀ i, i < c.graphs.length →
      (∃ shard, shards[i]? = some shard ∧ shard.length
        = min (myNcclRank c i * ((V.length + numNcclRanks c - 1) / numNcclRanks c)
            + (V.length + numNcclRanks c - 1) / numNcclRanks c) V.length
          - myNcclRank c i * ((V.length + numNcclRanks c - 1) / numNcclRanks c)) ∧
      myNcclRank c i * ((V.length + numNcclRanks c - 1) / numNcclRanks c)
        ≤ min (myNcclRank c i * ((V.length + numNcclRanks c - 1) / numNcclRanks c)
            + (V.length + numNcclRanks c - 1) / numNcclRanks c) V.length) :
    ∃ c1 sh1, swapParams c shards = .ok (c1, sh1) := by
  obtain ⟨n, hL⟩ := graphs_length_pos_of_numNcclRanks c hN
  obtain ⟨sh1, hloop⟩ := swap_loop_exists V
    (fun i => myNcclRank c i * ((V.length + numNcclRanks c - 1) / numNcclRanks c))
    (fun i => min (myNcclRank c i * ((V.length + numNcclRanks c - 1) / numNcclRanks c)
      + (V.length + numNcclRanks c - 1) / numNcclRanks c) V.length)
    (by omega) (fun i => Nat.min_le_right _ _) c.graphs.length 0 shards
    (fun i _ hi => hcond i (by omega))
  unfold swapParams
  rw [if_neg (by omega)]
  split
  · rename_i hg
    rw [hg] at hL; simp at hL
  rename_i g0 rest hg
  have hg0 : g0.vals = V := hident g0 (by rw [hg]; exact List.mem_cons_self _ _)
  rw [hg0]
  dsimp only
  rw [if_neg (by simpa using hsize), scatterState_spec _ c V _ _ hN hranks hfit, hloop]
  dsimp only
  rw [setAllVals_ok _ c.graphs (fun g hgm => by rw [hident g hgm, hsize])]
  exact ⟨_, _, rfl⟩

theorem swapParams_graphs_pos (c : NCCLCommunicator α) (shards : List (List α))
    (r : NCCLCommunicator α × List (List α)) (h : swapParams c shards = .ok r) :
    1 ≤ c.graphs.length := by
  unfold swapParams at h
  split at h
  · simp at h
  split at h
  · simp at h
  rename_i g0 rest hg
  rw [hg]; simp

theorem collect_eq_ok {β : Type} (xs : List (Except Fault β)) (r : List β) :
    collect xs = .ok r ↔ xs = r.map .ok := by
  induction xs generalizing r with
  | nil =>
    cases r <;> simp [collect]
  | cons x rest ih =>
    cases x with
    | error f => cases r <;> simp [collect]
    | ok b =>
      simp only [collect]
      cases hrest : collect rest with
      | error f =>
        cases r with
        | nil => simp
        | cons b2 r2 =>
          simp only [List.map_cons, List.cons.injEq, Except.ok.injEq, false_iff, not_and, reduceCtorEq]
          intro _ h2
          rw [(ih r2).2 h2] at hrest
          simp at hrest
      | ok bs =>
        have hbs := (ih bs).1 hrest
        cases r with
        | nil => simp
        | cons b2 r2 =>
          simp only [Except.ok.injEq, List.cons.injEq, List.map_cons]
          constructor
          · rintro ⟨h1, h2⟩
            subst h1 h2
            exact ⟨rfl, hbs⟩
          · rintro ⟨h1, h2⟩
            refine ⟨h1, ?_⟩
            have := (ih r2).2 h2
            rw [hrest] at this
            simpa using this

theorem collect_exists {β : Type} (xs : List (Except Fault β))
    (h : ∀ x, x ∈ xs → ∃ b, x = .ok b) : ∃ r, collect xs = .ok r := by
  induction xs with
  | nil => exact ⟨[], rfl⟩
  | cons x rest ih =>
    obtain ⟨b, hb⟩ := h x (List.mem_cons_self _ _)
    obtain ⟨r, hr⟩ := ih (fun y hy => h y (List.mem_cons_of_mem _ hy))
    subst hb
    exact ⟨b :: r, by simp [collect, hr]⟩

/-- A run of `swapParams` on all processes returns exactly when the call
returns on every process, and then each process holds what its call left. -/
theorem world_swapParams_ok (w w1 : World α) (h : World.swapParams w = .ok w1) :
    w1.mpi = w.mpi ∧ w1.procs.length = w.procs.length ∧
    ∀ p proc, w.procs[p]? = some proc →
      ∃ c1 sh1, swapParams (w.comm p proc) proc.shards = .ok (c1, sh1) ∧
        w1.procs[p]? = some { graphs := c1.graphs, shards := sh1 } := by
  unfold World.swapParams at h
  split at h
  · simp at h
  rename_i procs1 hcol
  simp only [Except.ok.injEq] at h
  subst h
  rw [collect_eq_ok] at hcol
  refine ⟨rfl, ?_, ?_⟩
  · have := congrArg List.length hcol
    simp only [List.length_map, List.enum_length] at this
    exact this.symm
  · intro p proc hp
    have h2 := congrArg (fun l => l[p]?) hcol
    simp only [List.getElem?_map, List.getElem?_enum, hp, Option.map_some'] at h2
    cases hsw : swapParams (w.comm p proc) proc.shards with
    | error f =>
      rw [hsw] at h2
      cases hq : procs1[p]? <;> rw [hq] at h2 <;> simp at h2
    | ok r =>
      obtain ⟨c1, sh1⟩ := r
      rw [hsw] at h2
      refine ⟨c1, sh1, rfl, ?_⟩
      cases hq : procs1[p]? with
      | none => rw [hq] at h2; simp at h2
      | some x =>
        rw [hq] at h2
        simp only [Option.map_some', Option.some.injEq, Except.ok.injEq] at h2
        rw [h2]

theorem world_swapParams_exists (w : World α)
    (h : ∀ p proc, w.procs[p]? = some proc →
      ∃ r, swapParams (w.comm p proc) proc.shards = .ok r) :
    ∃ w1, World.swapParams w = .ok w1 := by
  unfold World.swapParams
  obtain ⟨r, hr⟩ := collect_exists (w.procs.enum.map (fun (pp : Nat × Process α) =>
      match marian.swapParams (w.comm pp.1 pp.2) pp.2.shards with
      | .error f => .error f
      | .ok (c1, shards1) => .ok ({ graphs := c1.graphs, shards := shards1 } : Process α)))
    (by
      intro x hx
      rw [List.mem_map] at hx
      obtain ⟨⟨p, proc⟩, hmem, rfl⟩ := hx
      rw [List.mk_mem_enum_iff_getElem?] at hmem
      obtain ⟨⟨c1, sh1⟩, hsw⟩ := h p proc hmem
      simp only [hsw]
      exact ⟨_, rfl⟩)
  rw [hr]
  exact ⟨_, rfl⟩

theorem localShardData_eq (w : World α) (L : Nat)
    (hL : ∀ proc, proc ∈ w.procs → proc.graphs.length = L) :
    w.localShardData = fun q => (gatherLocal L (w.shardOf q)).2 := by
  funext q
  unfold World.localShardData World.shardOf
  rw [List.get?_eq_getElem?]
  cases hq : w.procs[q]? with
  | none => simp [gatherLocal_snd]
  | some proc => simp only [hL proc (List.getElem?_mem hq)]

theorem shardOf_eq (w : World α) (p : Nat) (proc : Process α)
    (hp : w.procs[p]? = some proc) : w.shardOf p = fun i => proc.shards.getD i [] := by
  funext i
  unfold World.shardOf
  rw [List.get?_eq_getElem?, hp]

/-- The communicator of process `p` of a run in which every process has `L`
devices: the number of ranks, the ranks of the local devices, and the vector
that `gatherState` returns for the shard tensors. -/
theorem world_view (w : World α) (L p : Nat) (proc : Process α)
    (hmpi : w.mpi = false → w.procs.length = 1)
    (hPL : w.procs.length * L < SIZE_T_MOD)
    (hL : ∀ q, q ∈ w.procs → q.graphs.length = L)
    (hp : w.procs[p]? = some proc) :
    numNcclRanks (w.comm p proc) = w.procs.length * L ∧ RanksFit (w.comm p proc) ∧
      (∀ i, i < L → myNcclRank (w.comm p proc) i = p * L + i) ∧
      gatherState (w.comm p proc) (fun i => proc.shards.getD i [])
        = (List.range (w.procs.length * L)).flatMap (fun r => w.shardOf (r / L) (r % L)) := by
  have hplt : p < w.procs.length := by
    rcases Nat.lt_or_ge p w.procs.length with h | h
    · exact h
    · rw [List.getElem?_eq_none h] at hp; simp at hp
  have h := process_view w.mpi w.procs.length L p w.shardOf (w.comm p proc) hmpi hplt hPL
    (hL proc (List.getElem?_mem hp))
    (by unfold World.comm; rw [localShardData_eq w L hL])
  rw [shardOf_eq w p proc hp] at h
  exact h

/-- A run of `swapParams` in which all graphs of all processes hold `V`: if
it returns, then on every process the concatenation of all shards in the
order of the global ranks has the size of `V`, every graph now holds that
concatenation, and the shard tensor of every device had the size of the
device's slice of `V` and now holds that slice. -/
theorem world_swap_forward (w w1 : World α) (V : List α) (L : Nat)
    (hmpi : w.mpi = false → w.procs.length = 1)
    (hfit : V.length + w.procs.length * L < SIZE_T_MOD)
    (hident : ∀ proc, proc ∈ w.procs →
      proc.graphs.length = L ∧ ∀ g, g ∈ proc.graphs → g.vals = V)
    (h1 : World.swapParams w = .ok w1) :
    w1.mpi = w.mpi ∧ w1.procs.length = w.procs.length ∧
    ∀ p proc, w.procs[p]? = some proc →
      1 ≤ L ∧
      ((List.range (w.procs.length * L)).flatMap
        (fun r => w.shardOf (r / L) (r % L))).length = V.length ∧
      ∃ proc1, w1.procs[p]? = some proc1 ∧
        proc1.graphs = proc.graphs.map (fun g => { g with vals :=
          ((List.range (w.procs.length * L)).flatMap (fun r => w.shardOf (r / L) (r % L))) }) ∧
        proc1.shards.length = proc.shards.length ∧
        ∀ i, i < L →
          (∃ shard, proc.shards[i]? = some shard ∧ shard.length
            = min ((p * L + i) * ((V.length + w.procs.length * L - 1) / (w.procs.length * L))
                + (V.length + w.procs.length * L - 1) / (w.procs.length * L)) V.length
              - (p * L + i) * ((V.length + w.procs.length * L - 1) / (w.procs.length * L))) ∧
          (p * L + i) * ((V.length + w.procs.length * L - 1) / (w.procs.length * L))
            ≤ min ((p * L + i) * ((V.length + w.procs.length * L - 1) / (w.procs.length * L))
                + (V.length + w.procs.length * L - 1) / (w.procs.length * L)) V.length ∧
          proc1.shards[i]? = some (slice V
            ((p * L + i) * ((V.length + w.procs.length * L - 1) / (w.procs.length * L)))
            (min ((p * L + i) * ((V.length + w.procs.length * L - 1) / (w.procs.length * L))
                + (V.length + w.procs.length * L - 1) / (w.procs.length * L)) V.length)) := by
  obtain ⟨hm, hlen, hall⟩ := world_swapParams_ok w w1 h1
  refine ⟨hm, hlen, ?_⟩
  intro p proc hp
  obtain ⟨c1, sh1, hsw, hp1⟩ := hall p proc hp
  have hmem := List.getElem?_mem hp
  obtain ⟨hLp, hV⟩ := hident proc hmem
  have hLpos : 1 ≤ L := by
    have := swapParams_graphs_pos _ _ _ hsw
    unfold World.comm at this
    simp only at this
    omega
  have hplt : p < w.procs.length := by
    rcases Nat.lt_or_ge p w.procs.length with h | h
    · exact h
    · rw [List.getElem?_eq_none h] at hp; simp at hp
  have hNpos : 1 ≤ w.procs.length * L := Nat.mul_pos (by omega) hLpos
  obtain ⟨hnum, hranks, hrank, hgather⟩ := world_view w L p proc hmpi (by omega)
    (fun q hq => (hident q hq).1) hp
  obtain ⟨f1, f2, f3, f4, _⟩ := swapParams_ok (w.comm p proc) c1 proc.shards sh1 V hV
    (by rw [hnum]; exact hNpos) hranks (by rw [hnum]; omega) hsw
  rw [hgather] at f1 f2
  rw [hnum] at f4
  refine ⟨hLpos, f1, _, hp1, ?_, f3, ?_⟩
  · rw [f2]; rfl
  · intro i hi
    have := f4 i (by unfold World.comm; simp only; omega)
    rw [hrank i hi] at this
    exact this

theorem getElem?_of_lt_length {β : Type} (l : List β) (p : Nat) (h : p < l.length) :
    ∃ x, l[p]? = some x := ⟨l[p], List.getElem?_eq_getElem h⟩

theorem lt_length_of_getElem? {β : Type} (l : List β) (p : Nat) (x : β)
    (h : l[p]? = some x) : p < l.length := by
  rcases Nat.lt_or_ge p l.length with h1 | h1
  · exact h1
  · rw [List.getElem?_eq_none h1] at h; simp at h

/-- C5. In a run where the replicated parameter vector of every device of
every process is `V` (each process with `L` devices, sizes that fit
`size_t`), if `swapParams` returns on every process, then afterwards every
graph of every process holds the concatenation, in the order of the global
ranks, of the shard tensors as they were before the call, and the shard tensor
of device `i` of process `p` holds the slice of `V` from `rank * s` to
`min (rank * s + s) (size of V)`, the range `scatterState` computes for the
global rank `rank = p * L + i` of that device with `s` the rounded-up shard
size. -/
theorem C5_swapParams_swaps_parameter_sets (w w1 : World α) (V : List α) (L : Nat)
    (hmpi : w.mpi = false → w.procs.length = 1)
    (hfit : V.length + w.procs.length * L < SIZE_T_MOD)
    (hident : ∀ proc, proc ∈ w.procs →
      proc.graphs.length = L ∧ ∀ g, g ∈ proc.graphs → g.vals = V)
    (h1 : World.swapParams w = .ok w1) :
    ∀ p proc proc1, w.procs[p]? = some proc → w1.procs[p]? = some proc1 →
      proc1.graphs.length = L ∧
      (∀ g, g ∈ proc1.graphs → g.vals
        = (List.range (w.procs.length * L)).flatMap (fun r => w.shardOf (r / L) (r % L))) ∧
      numNcclRanks (w.comm p proc) = w.procs.length * L ∧
      (∀ i, i < L → myNcclRank (w.comm p proc) i = p * L + i ∧
        proc1.shards[i]? = some (slice V
          ((p * L + i) * ((V.length + w.procs.length * L - 1) / (w.procs.length * L)))
          (min ((p * L + i) * ((V.length + w.procs.length * L - 1) / (w.procs.length * L))
              + (V.length + w.procs.length * L - 1) / (w.procs.length * L)) V.length))) := by
  intro p proc proc1 hp hp1
  obtain ⟨_, _, hall⟩ := world_swap_forward w w1 V L hmpi hfit hident h1
  obtain ⟨_, _, proc1b, hq, hgraphs, _, hshards⟩ := hall p proc hp
  rw [hp1] at hq
  simp only [Option.some.injEq] at hq
  subst hq
  obtain ⟨hnum, _, hrank, _⟩ := world_view w L p proc hmpi (by omega)
    (fun q hq => (hident q hq).1) hp
  refine ⟨?_, ?_, hnum, ?_⟩
  · rw [hgraphs, List.length_map]
    exact (hident proc (List.getElem?_mem hp)).1
  · intro g hg
    rw [hgraphs, List.mem_map] at hg
    obtain ⟨g2, _, rfl⟩ := hg
    rfl
  · intro i hi
    exact ⟨hrank i hi, (hshards i hi).2.2⟩

/-- C5 on the run of two processes with two devices each: the hypotheses hold,
`swapParams` returns, and afterwards the graphs hold the old shards and the
shard tensors the slices of the old parameters. -/
theorem C5_swapParams_swaps_parameter_sets_witness :
    World.swapParams exSwapWorld = .ok exSwapWorldOnce ∧
      (∀ g, g ∈ (List.replicate 2
          ({ vals := [10, 20, 30, 40, 50, 60, 70, 80], grads := [0, 0, 0, 0, 0, 0, 0, 0] } :
            ExpressionGraph Nat)) → g.vals = [10, 20, 30, 40, 50, 60, 70, 80]) :=
  ⟨by decide,
    (C5_swapParams_swaps_parameter_sets exSwapWorld exSwapWorldOnce [1, 2, 3, 4, 5, 6, 7, 8] 2
      (by decide) (by decide) (by decide) (by decide) 1 _ _ rfl rfl).2.1⟩

/-- After a run of `swapParams` that returned, the shards in the order of the
global ranks are the slices of the old parameter vector, so their
concatenation is that vector. -/
theorem world_shards_after_swap (w w1 : World α) (V : List α) (L : Nat)
    (hmpi : w.mpi = false → w.procs.length = 1)
    (hfit : V.length + w.procs.length * L < SIZE_T_MOD)
    (hident : ∀ proc, proc ∈ w.procs →
      proc.graphs.length = L ∧ ∀ g, g ∈ proc.graphs → g.vals = V)
    (h1 : World.swapParams w = .ok w1) (hP : 1 ≤ w.procs.length) :
    (List.range (w.procs.length * L)).flatMap (fun r => w1.shardOf (r / L) (r % L)) = V := by
  obtain ⟨_, hlen, hall⟩ := world_swap_forward w w1 V L hmpi hfit hident h1
  have hpos : 1 ≤ w.procs.length * L := by
    obtain ⟨proc, hproc⟩ := getElem?_of_lt_length w.procs 0 hP
    obtain ⟨hL1, _⟩ := hall 0 proc hproc
    exact Nat.mul_pos hP hL1
  have hcongr : ∀ r, r ∈ List.range (w.procs.length * L) →
      w1.shardOf (r / L) (r % L)
        = slice V (r * ((V.length + w.procs.length * L - 1) / (w.procs.length * L)))
            (min (r * ((V.length + w.procs.length * L - 1) / (w.procs.length * L))
              + (V.length + w.procs.length * L - 1) / (w.procs.length * L)) V.length) := by
    intro r hr
    rw [List.mem_range] at hr
    obtain ⟨hq, hi, hqi⟩ := rank_decompose _ _ r hr
    obtain ⟨proc, hproc⟩ := getElem?_of_lt_length w.procs (r / L) hq
    obtain ⟨_, _, proc1, hproc1, _, _, hshards⟩ := hall (r / L) proc hproc
    have h3 := (hshards (r % L) hi).2.2
    rw [hqi] at h3
    unfold World.shardOf
    rw [List.get?_eq_getElem?, hproc1]
    simp only
    rw [List.getD_eq_getElem?_getD, h3]
    rfl
  rw [List.flatMap_congr hcongr]
  exact flatMap_slices V _ hpos

/-- C4. In a run where the replicated parameter vector of every device of
every process is `V` (each process with `L` devices, sizes that fit
`size_t`), if `swapParams` on the shard tensors returns on every process, then
a second `swapParams` on the same shard tensors returns on every process too,
and after it every graph of every process holds `V` again. -/
theorem C4_swapParams_twice_restores (w w1 : World α) (V : List α) (L : Nat)
    (hmpi : w.mpi = false → w.procs.length = 1)
    (hfit : V.length + w.procs.length * L < SIZE_T_MOD)
    (hident : ∀ proc, proc ∈ w.procs →
      proc.graphs.length = L ∧ ∀ g, g ∈ proc.graphs → g.vals = V)
    (h1 : World.swapParams w = .ok w1) :
    ∃ w2, World.swapParams w1 = .ok w2 ∧ w2.procs.length = w.procs.length ∧
      ∀ proc2, proc2 ∈ w2.procs →
        proc2.graphs.length = L ∧ ∀ g, g ∈ proc2.graphs → g.vals = V := by
  obtain ⟨hm, hlen, hall⟩ := world_swap_forward w w1 V L hmpi hfit hident h1
  rcases Nat.eq_zero_or_pos w.procs.length with hP0 | hP
  · -- a run without processes
    have hnil : w1.procs = [] := List.length_eq_zero.1 (by omega)
    refine ⟨w1, ?_, by omega, ?_⟩
    · unfold World.swapParams
      simp only [hnil, List.enum_nil, List.map_nil, collect]
      congr 1
      cases w1
      simp only at hnil
      subst hnil
      rfl
    · intro proc2 h2
      rw [hnil] at h2
      simp at h2
  · have hshards := world_shards_after_swap w w1 V L hmpi hfit hident h1 hP
    obtain ⟨proc0, hproc0⟩ := getElem?_of_lt_length w.procs 0 hP
    obtain ⟨hLpos, hG, _⟩ := hall 0 proc0 hproc0
    -- the run after the first call: every graph holds the gathered vector
    have hident1 : ∀ proc1, proc1 ∈ w1.procs → proc1.graphs.length = L ∧
        ∀ g, g ∈ proc1.graphs → g.vals
          = (List.range (w.procs.length * L)).flatMap (fun r => w.shardOf (r / L) (r % L)) := by
      intro proc1 hmem
      obtain ⟨p, hp1⟩ := List.mem_iff_getElem?.1 hmem
      have hp := lt_length_of_getElem? _ _ _ hp1
      obtain ⟨proc, hproc⟩ := getElem?_of_lt_length w.procs p (by omega)
      obtain ⟨_, _, proc1b, hq, hgraphs, _, _⟩ := hall p proc hproc
      rw [hp1] at hq
      simp only [Option.some.injEq] at hq
      subst hq
      refine ⟨?_, ?_⟩
      · rw [hgraphs, List.length_map]
        exact (hident proc (List.getElem?_mem hproc)).1
      · intro g hg
        rw [hgraphs, List.mem_map] at hg
        obtain ⟨g2, _, rfl⟩ := hg
        rfl
    have hmpi1 : w1.mpi = false → w1.procs.length = 1 := by
      intro h; rw [hlen]; exact hmpi (by rw [← hm]; exact h)
    have hfit1 : ((List.range (w.procs.length * L)).flatMap
        (fun r => w.shardOf (r / L) (r % L))).length + w1.procs.length * L < SIZE_T_MOD := by
      rw [hG, hlen]; exact hfit
    -- the second call returns on every process
    have hex : ∃ w2, World.swapParams w1 = .ok w2 := by
      apply world_swapParams_exists
      intro p proc1 hp1
      have hp := lt_length_of_getElem? _ _ _ hp1
      obtain ⟨proc, hproc⟩ := getElem?_of_lt_length w.procs p (by omega)
      obtain ⟨_, _, proc1b, hq, _, hshlen, hsh⟩ := hall p proc hproc
      rw [hp1] at hq
      simp only [Option.some.injEq] at hq
      subst hq
      obtain ⟨hnum1, hranks1, hrank1, hgather1⟩ := world_view w1 L p proc1 hmpi1
        (by rw [hlen]; omega) (fun q hq => (hident1 q hq).1) hp1
      have hNpos : 1 ≤ w.procs.length * L := Nat.mul_pos hP hLpos
      obtain ⟨c1, sh1, hsw⟩ := swapParams_exists (w1.comm p proc1) proc1.shards
        ((List.range (w.procs.length * L)).flatMap (fun r => w.shardOf (r / L) (r % L)))
        (hident1 proc1 (List.getElem?_mem hp1)).2
        (by rw [hnum1, hlen]; exact hNpos) hranks1
        (by rw [hnum1, hlen, hG]; omega)
        (by
          have hlast := (hsh (L - 1) (by omega)).1
          obtain ⟨shard, hs, _⟩ := hlast
          have := lt_length_of_getElem? _ _ _ hs
          have hgl : (w1.comm p proc1).graphs.length = L :=
            (hident1 proc1 (List.getElem?_mem hp1)).1
          rw [hgl, hshlen]; omega)
        (by rw [hgather1, hlen, hshards, hG])
        (by
          intro i hi
          have hgl : (w1.comm p proc1).graphs.length = L :=
            (hident1 proc1 (List.getElem?_mem hp1)).1
          rw [hgl] at hi
          obtain ⟨_, hbe, hslice⟩ := hsh i hi
          rw [hnum1, hlen, hG, hrank1 i hi]
          refine ⟨⟨_, hslice, ?_⟩, hbe⟩
          exact length_slice V _ _ hbe (Nat.min_le_right _ _))
      exact ⟨_, hsw⟩
    obtain ⟨w2, h2⟩ := hex
    obtain ⟨_, hlen2, hall2⟩ := world_swap_forward w1 w2 _ L hmpi1 hfit1 hident1 h2
    refine ⟨w2, h2, by omega, ?_⟩
    intro proc2 hmem
    obtain ⟨p, hp2⟩ := List.mem_iff_getElem?.1 hmem
    have hp := lt_length_of_getElem? _ _ _ hp2
    obtain ⟨proc1, hproc1⟩ := getElem?_of_lt_length w1.procs p (by omega)
    obtain ⟨_, _, proc2b, hq, hgraphs, _, _⟩ := hall2 p proc1 hproc1
    rw [hp2] at hq
    simp only [Option.some.injEq] at hq
    subst hq
    refine ⟨?_, ?_⟩
    · rw [hgraphs, List.length_map]
      exact (hident1 proc1 (List.getElem?_mem hproc1)).1
    · intro g hg
      rw [hgraphs, List.mem_map] at hg
      obtain ⟨g2, _, rfl⟩ := hg
      simp only
      rw [hlen]
      exact hshards

/-- C4 on the run of two processes with two devices each: the hypotheses hold,
the first `swapParams` returns, and the second one restores the parameters
`1..8` on every graph. -/
theorem C4_swapParams_twice_restores_witness :
    World.swapParams exSwapWorld = .ok exSwapWorldOnce ∧
      ∃ w2, World.swapParams exSwapWorldOnce = .ok w2 ∧ w2.procs.length = 2 ∧
        ∀ proc2, proc2 ∈ w2.procs →
          proc2.graphs.length = 2 ∧ ∀ g, g ∈ proc2.graphs → g.vals = [1, 2, 3, 4, 5, 6, 7, 8] :=
  ⟨by decide,
    C4_swapParams_twice_restores exSwapWorld exSwapWorldOnce [1, 2, 3, 4, 5, 6, 7, 8] 2
      (by decide) (by decide) (by decide) (by decide)⟩

/-! ## Theorems: the shard size and range formulas -/

/-- When `shardSize()` returns, there is at least one rank, the value is the
rounded-up quotient, it divides the data size exactly, and nothing wrapped. -/
theorem shardSize_ok_inv (c : NCCLCommunicator α) (s : Nat) (h : shardSize c = .ok s) :
    1 ≤ numNcclRanks c ∧ s = (dataSize c + numNcclRanks c - 1) / numNcclRanks c ∧
      s * numNcclRanks c = dataSize c ∧ dataSize c < SIZE_T_MOD := by
  unfold shardSize at h
  simp only at h
  split at h
  · simp at h
  rename_i hN0
  split at h
  · simp at h
  rename_i hprod
  simp only [Except.ok.injEq] at h
  have hprod2 : (s * numNcclRanks c) % SIZE_T_MOD = dataSize c := by
    rw [← h]; simpa using hprod
  have hNpos : 0 < numNcclRanks c := Nat.pos_of_ne_zero hN0
  have h1 : s * numNcclRanks c ≤ (dataSize c + numNcclRanks c - 1) % SIZE_T_MOD := by
    rw [← h]; exact Nat.div_mul_le_self _ _
  have hmodlt : (dataSize c + numNcclRanks c - 1) % SIZE_T_MOD < SIZE_T_MOD :=
    Nat.mod_lt _ (by decide)
  have hmodle : (dataSize c + numNcclRanks c - 1) % SIZE_T_MOD
      ≤ dataSize c + numNcclRanks c - 1 := Nat.mod_le _ _
  have hp : s * numNcclRanks c = dataSize c := by
    rw [Nat.mod_eq_of_lt (by omega)] at hprod2
    exact hprod2
  refine ⟨hNpos, ?_, hp, by rw [← hprod2]; exact Nat.mod_lt _ (by decide)⟩
  symm
  apply Nat.div_eq_of_lt_le
  · rw [hp]; omega
  · rw [Nat.succ_mul, hp]; omega

theorem ncclRankShardRange_ok (c : NCCLCommunicator α) (s : Nat) (h : shardSize c = .ok s)
    (rank : Nat) (hr : rank < numNcclRanks c ∨ rank * s + s < SIZE_T_MOD) :
    ncclRankShardRange c rank = .ok (rank * s, min (rank * s + s) (dataSize c)) := by
  obtain ⟨_, _, hp, hD⟩ := shardSize_ok_inv c s h
  have hfit : rank * s + s < SIZE_T_MOD := by
    rcases hr with hr | hr
    · have h1 : (rank + 1) * s ≤ numNcclRanks c * s := Nat.mul_le_mul_right _ hr
      rw [Nat.add_mul, Nat.one_mul, Nat.mul_comm (numNcclRanks c), hp] at h1
      omega
    · exact hr
  unfold ncclRankShardRange
  rw [h]
  simp only
  rw [Nat.mod_eq_of_lt (by omega : rank * s < SIZE_T_MOD), Nat.mod_eq_of_lt hfit]

/-- C11. Whenever `shardSize()` returns, its value is the data size divided by
the number of ranks, rounded up, and for every rank (below the number of
ranks, or more generally with `rank * size + size` a `size_t`)
`ncclRankShardRange(rank)` returns `begin = rank * size` and
`end = min (begin + size) dataSize`. With four local devices, no coordinator
and 1024 parameters the shard size is 256 and `localShardRange(2)` is
`(512, 768)`. -/
theorem C11_shardSize_ceil_and_range_formula :
    (∀ (c : NCCLCommunicator α) (s : Nat), shardSize c = .ok s →
      s = (dataSize c + numNcclRanks c - 1) / numNcclRanks c ∧
      ∀ rank, (rank < numNcclRanks c ∨ rank * s + s < SIZE_T_MOD) →
        ncclRankShardRange c rank = .ok (rank * s, min (rank * s + s) (dataSize c))) ∧
    (∀ c : NCCLCommunicator α, c.mpi = none → c.graphs.length = 4 → dataSize c = 1024 →
      shardSize c = .ok 256 ∧ localShardRange c 2 = .ok (512, 768)) := by
  refine ⟨fun c s h => ⟨(shardSize_ok_inv c s h).2.1, ncclRankShardRange_ok c s h⟩, ?_⟩
  intro c hm hL hD
  have hN : numNcclRanks c = 4 := by unfold numNcclRanks; rw [hm]; exact hL
  have hs : shardSize c = .ok 256 := by
    have := shardSize_ok_of_dvd c (by omega) (by rw [hN, hD]) (by rw [hN, hD]; decide)
    rw [hN, hD] at this
    exact this
  refine ⟨hs, ?_⟩
  have hrank : myNcclRank c 2 = 2 := by unfold myNcclRank; rw [hm]
  unfold localShardRange
  rw [hrank, ncclRankShardRange_ok c 256 hs 2 (Or.inl (by omega)), hD]
  rfl

/-- C11 on a communicator of four devices with 1024 parameters. -/
theorem C11_shardSize_ceil_and_range_formula_witness :
    shardSize exDevices1024 = .ok 256 ∧ localShardRange exDevices1024 2 = .ok (512, 768) :=
  C11_shardSize_ceil_and_range_formula.2 exDevices1024 rfl rfl
    (List.length_replicate 1024 0)

/-! ## Theorems: foreach on the calling thread -/

/-- The loop of `foreach` in sequential mode, when the shard ranges exist and
the action returns on every device of the list: one invocation per device, in
the order of the list, and no future is touched. -/
theorem foreachLoop_sequential {ε : Type} (c : NCCLCommunicator α)
    (func : Nat → Nat → Nat → Option ε) (sched : Nat → List Nat) (rng : Nat → Nat × Nat)
    (idxs : List Nat) (calls : List (Nat × Nat × Nat)) (futs : List (Future ε))
    (hrng : ∀ i, i ∈ idxs → localShardRange c i = .ok (rng i))
    (hret : ∀ i, i ∈ idxs → func i (rng i).1 (rng i).2 = none) :
    foreachLoop c func false sched idxs (calls, futs)
      = { calls := calls ++ idxs.map (fun i => (i, (rng i).1, (rng i).2)),
          threadResults := futs, exit := .returned } := by
  induction idxs generalizing calls with
  | nil => simp [foreachLoop]
  | cons i rest ih =>
    have hi := hrng i (List.mem_cons_self _ _)
    have hf := hret i (List.mem_cons_self _ _)
    simp only [foreachLoop, hi, hf, Bool.false_eq_true, if_false]
    rw [ih _ (fun k hk => hrng k (List.mem_cons_of_mem _ hk))
      (fun k hk => hret k (List.mem_cons_of_mem _ hk))]
    simp

/-- C13. When `parallel` is false or there is at most one local device, the
shards are even and the action returns on every device, `foreach` invokes
`func(i, begin, end)` once for each local device index `i = 0..L-1` in
increasing order, with `(begin, end) = ncclRankShardRange(myNcclRank(i))`,
without creating a future (the invocations run on the calling thread), and
returns, whatever the workers of the thread pool do. With at most one device
the flag `parallel` changes nothing. -/
theorem C13_foreach_visits_devices_in_order {ε : Type} (c : NCCLCommunicator α)
    (func : Nat → Nat → Nat → Option ε) (par : Bool) (sched : Nat → List Nat) (size : Nat)
    (hs : shardSize c = .ok size) (hseq : par = false ∨ c.graphs.length ≤ 1)
    (hret : ∀ i b e, i < c.graphs.length → func i b e = none) :
    (∃ rng : Nat → Nat × Nat,
      (∀ i, ncclRankShardRange c (myNcclRank c i) = .ok (rng i)) ∧
      (foreach c func par sched).calls
        = (List.range c.graphs.length).map (fun i => (i, (rng i).1, (rng i).2))) ∧
    (foreach c func par sched).threadResults = List.replicate c.graphs.length .invalid ∧
    (foreach c func par sched).exit = .returned ∧
    (c.graphs.length ≤ 1 → foreach c func true sched = foreach c func false sched) := by
  have hrng : ∀ i, localShardRange c i
      = .ok ((myNcclRank c i * size) % SIZE_T_MOD,
          min (((myNcclRank c i * size) % SIZE_T_MOD + size) % SIZE_T_MOD) (dataSize c)) := by
    intro i
    unfold localShardRange ncclRankShardRange
    rw [hs]
  have hpar : (par && decide (c.graphs.length > 1)) = false := by
    rcases hseq with h | h
    · rw [h]; rfl
    · simp; intro _; omega
  have hloop := foreachLoop_sequential c func sched _ (List.range c.graphs.length) []
    (List.replicate c.graphs.length .invalid) (fun i _ => hrng i)
    (fun i hi => hret i _ _ (List.mem_range.1 hi))
  have hrun : foreach c func par sched
      = { calls := (List.range c.graphs.length).map (fun i =>
            (i, (myNcclRank c i * size) % SIZE_T_MOD,
              min (((myNcclRank c i * size) % SIZE_T_MOD + size) % SIZE_T_MOD) (dataSize c))),
          threadResults := List.replicate c.graphs.length .invalid, exit := .returned } := by
    unfold foreach
    simp only [hpar, hloop, List.nil_append, Bool.false_eq_true, if_false]
  refine ⟨⟨_, hrng, ?_⟩, ?_, ?_, ?_⟩
  · rw [hrun]
  · rw [hrun]
  · rw [hrun]
  · intro hL
    have h1 : (true && decide (c.graphs.length > 1)) = false := by simp; omega
    have h2 : (false && decide (c.graphs.length > 1)) = false := rfl
    unfold foreach
    simp only [h1, h2]

/-- C13 at four devices of eight parameters, sequential mode and an action
that returns: the hypotheses hold and the four invocations are executed in the
order of the devices with their shard ranges. -/
theorem C13_foreach_visits_devices_in_order_witness :
    shardSize exFourDevices = .ok 2 ∧
      (foreach exFourDevices exQuietAction false exReverseSchedule).calls
        = [(0, 0, 2), (1, 2, 4), (2, 4, 6), (3, 6, 8)] ∧
      (foreach exFourDevices exQuietAction false exReverseSchedule).exit = .returned :=
  ⟨by decide, by decide,
    (C13_foreach_visits_devices_in_order exFourDevices exQuietAction false exReverseSchedule 2
      (by decide) (Or.inl rfl) (fun _ _ _ _ => rfl)).2.2.1⟩

/-! ## Theorems: the clipping of the last shard -/

/-- C16. Whenever `shardSize()` returns, on a process whose rank is below the
number of processes (rank count a `size_t`), for every local device index `i`
the range `(begin, end) = localShardRange(i)` satisfies
`begin + shardSize() ≤ dataSize()`, so `end = begin + shardSize()` (the
`std::min` of line 82 changes nothing), and the sub-tensor that
`scatterReduce` and `allGather` use as buffer has exactly the `shardSize()`
elements that are passed to NCCL as element count. -/
theorem C16_shard_clipping_never_active (c : NCCLCommunicator α) (size : Nat)
    (hs : shardSize c = .ok size) (hranks : RanksFit c) (i : Nat)
    (hi : i < c.graphs.length) :
    ∃ b e, localShardRange c i = .ok (b, e) ∧ b + size ≤ dataSize c ∧ e = b + size ∧
      e - b = size ∧ collectiveBuffer c i = .ok (b, size, size) := by
  obtain ⟨_, _, hp, hD⟩ := shardSize_ok_inv c size hs
  have hr := myNcclRank_lt c hranks i hi
  have hle : myNcclRank c i * size + size ≤ dataSize c := by
    have h1 : (myNcclRank c i + 1) * size ≤ numNcclRanks c * size :=
      Nat.mul_le_mul_right _ hr
    rw [Nat.add_mul, Nat.one_mul, Nat.mul_comm (numNcclRanks c), hp] at h1
    exact h1
  have hrange : localShardRange c i
      = .ok (myNcclRank c i * size, myNcclRank c i * size + size) := by
    unfold localShardRange
    rw [ncclRankShardRange_ok c size hs _ (Or.inl hr), Nat.min_eq_left hle]
  refine ⟨_, _, hrange, hle, rfl, Nat.add_sub_cancel_left _ _, ?_⟩
  unfold collectiveBuffer
  rw [hrange, hs]
  simp only
  have hsub : myNcclRank c i * size + size + SIZE_T_MOD - myNcclRank c i * size
      = size + SIZE_T_MOD := by omega
  rw [hsub, Nat.add_mod_right, Nat.mod_eq_of_lt (by omega)]

/-- C16 at four devices of eight parameters: the hypotheses hold; device 3
uses a buffer of two elements at offset 6 and passes the count 2. -/
theorem C16_shard_clipping_never_active_witness :
    shardSize exFourDevices = .ok 2 ∧ RanksFit exFourDevices ∧
      ∃ b e, localShardRange exFourDevices 3 = .ok (b, e) ∧ b + 2 ≤ dataSize exFourDevices ∧
        e = b + 2 ∧ e - b = 2 ∧ collectiveBuffer exFourDevices 3 = .ok (b, 2, 2) :=
  ⟨by decide, by decide,
    C16_shard_clipping_never_active exFourDevices 2 (by decide) (by decide) 3 (by decide)⟩

/-! ## Theorems: the size checks of swapParams -/

/-- One call of the setter of `swapParams` on a shard tensor whose size is not
the iterator difference `end - begin` aborts on the check of line 297. -/
theorem swapSetFn_mismatch (data : List α) (i b e : Nat) (sh : List (List α))
    (shard : List α) (hsh : sh[i]? = some shard) (hfit : shard.length + b < SIZE_T_MOD)
    (he : e < SIZE_T_MOD) (hbad : ¬ (b ≤ e ∧ shard.length = e - b)) :
    swapSetFn data i b e sh = .error .shardSizeMismatch := by
  unfold swapSetFn
  rw [List.get?_eq_getElem?, hsh]
  simp only
  have hne : shard.length ≠ (e + SIZE_T_MOD - b) % SIZE_T_MOD := by
    by_cases hbe : b ≤ e
    · have h1 : e + SIZE_T_MOD - b = (e - b) + SIZE_T_MOD := by omega
      rw [h1, Nat.add_mod_right, Nat.mod_eq_of_lt (by omega)]
      intro h
      exact hbad ⟨hbe, h⟩
    · rw [Nat.mod_eq_of_lt (by omega)]
      omega
  rw [if_pos hne]

/-- The loop of `scatterState` with the setter of `swapParams` aborts on the
check of line 297 when some visited device has a shard tensor whose size is
not the iterator difference of its slice. -/
theorem swap_loop_mismatch (data : List α) (b e : Nat → Nat) (hM : data.length < SIZE_T_MOD)
    (he : ∀ i, e i ≤ data.length) (n k : Nat) (sh : List (List α))
    (hsh : ∀ i, k ≤ i → i < k + n →
      ∃ shard, sh[i]? = some shard ∧ shard.length + b i < SIZE_T_MOD)
    (hbad : ∃ i shard, k ≤ i ∧ i < k + n ∧ sh[i]? = some shard ∧
      ¬ (b i ≤ e i ∧ shard.length = e i - b i)) :
    forLoop (fun i s => swapSetFn data i (b i) (e i) s) n k sh
      = .error .shardSizeMismatch := by
  induction n generalizing k sh with
  | zero =>
    obtain ⟨i, _, h1, h2, _⟩ := hbad
    omega
  | succ n ih =>
    obtain ⟨shardk, hk, hkfit⟩ := hsh k (Nat.le_refl _) (by omega)
    rw [forLoop]
    by_cases hmatch : b k ≤ e k ∧ shardk.length = e k - b k
    · have hstep : swapSetFn data k (b k) (e k) sh
          = .ok (sh.set k (slice data (b k) (e k))) :=
        (swapSetFn_ok_iff data k (b k) (e k) sh _ (he k) hM).2
          ⟨shardk, hk, hmatch.2, hmatch.1, rfl⟩
      rw [hstep]
      simp only
      apply ih
      · intro i hi1 hi2
        obtain ⟨shard, h1, h2⟩ := hsh i (by omega) (by omega)
        refine ⟨shard, ?_, h2⟩
        rw [List.getElem?_set]
        have : ¬ k = i := by omega
        simpa [this] using h1
      · obtain ⟨i, shard, h1, h2, h3, h4⟩ := hbad
        have hik : i ≠ k := by
          intro h
          subst h
          rw [hk] at h3
          simp only [Option.some.injEq] at h3
          subst h3
          exact h4 hmatch
        refine ⟨i, shard, by omega, by omega, ?_, h4⟩
        rw [List.getElem?_set]
        have : ¬ k = i := fun e => hik e.symm
        simpa [this] using h3
    · rw [swapSetFn_mismatch data k (b k) (e k) sh shardk hk hkfit
        (by have := he k; omega) hmatch]

/-- C14. On a process whose graphs all hold `V`, with a shard tensor for every
local device and sizes that fit `size_t`: `swapParams` aborts (line 288) when
the gathered vector and `V` differ in length; it aborts (line 297) when the
lengths agree and for some local device the shard tensor's size differs from
the iterator difference `end - begin` of the slice `scatterState` hands to
that device; and when neither mismatch occurs it returns. -/
theorem C14_swapParams_aborts_on_size_mismatch (c : NCCLCommunicator α)
    (shards : List (List α)) (V : List α)
    (hident : ∀ g, g ∈ c.graphs → g.vals = V)
    (hN : 1 ≤ numNcclRanks c) (hranks : RanksFit c)
    (hlen : c.graphs.length ≤ shards.length)
    (hfit : ∀ shard, shard ∈ shards →
      shard.length + V.length + numNcclRanks c ≤ SIZE_T_MOD) :
    ((gatherState c (fun i => shards.getD i [])).length ≠ V.length →
      swapParams c shards = .error .paramsSizeMismatch) ∧
    ((gatherState c (fun i => shards.getD i [])).length = V.length →
      (∃ i shard, i < c.graphs.length ∧ shards[i]? = some shard ∧
        (shard.length : Int)
          ≠ (min (myNcclRank c i * ((V.length + numNcclRanks c - 1) / numNcclRanks c)
              + (V.length + numNcclRanks c - 1) / numNcclRanks c) V.length : Nat)
            - (myNcclRank c i * ((V.length + numNcclRanks c - 1) / numNcclRanks c) : Nat)) →
      swapParams c shards = .error .shardSizeMismatch) ∧
    ((gatherState c (fun i => shards.getD i [])).length = V.length →
      (∀ i shard, i < c.graphs.length → shards[i]? = some shard →
        (shard.length : Int)
          = (min (myNcclRank c i * ((V.length + numNcclRanks c - 1) / numNcclRanks c)
              + (V.length + numNcclRanks c - 1) / numNcclRanks c) V.length : Nat)
            - (myNcclRank c i * ((V.length + numNcclRanks c - 1) / numNcclRanks c) : Nat)) →
      ∃ r, swapParams c shards = .ok r) := by
  obtain ⟨n, hL⟩ := graphs_length_pos_of_numNcclRanks c hN
  have hfitV : V.length + numNcclRanks c ≤ SIZE_T_MOD := by
    obtain ⟨x, hx⟩ := getElem?_of_lt_length shards 0 (by omega)
    have := hfit x (List.getElem?_mem hx)
    omega
  have hb : ∀ i, i < c.graphs.length →
      myNcclRank c i * ((V.length + numNcclRanks c - 1) / numNcclRanks c)
        < V.length + numNcclRanks c := by
    intro i hi
    have hr := myNcclRank_lt c hranks i hi
    have h0 : (V.length + numNcclRanks c - 1) / numNcclRanks c * numNcclRanks c
        ≤ V.length + numNcclRanks c - 1 := Nat.div_mul_le_self _ _
    have h1 : myNcclRank c i * ((V.length + numNcclRanks c - 1) / numNcclRanks c)
        ≤ numNcclRanks c * ((V.length + numNcclRanks c - 1) / numNcclRanks c) :=
      Nat.mul_le_mul_right _ (Nat.le_of_lt hr)
    rw [Nat.mul_comm (numNcclRanks c)] at h1
    omega
  -- the shape of `swapParams` once the first graph is known
  have hshape : ∀ res : Except Fault (NCCLCommunicator α × List (List α)),
      (∀ g0 rest, c.graphs = g0 :: rest →
        (if (gatherState c (fun i => shards.getD i [])).length ≠ V.length then
          .error .paramsSizeMismatch
        else
          match scatterState c V (swapSetFn V) shards with
          | .error f => .error f
          | .ok shards1 =>
            match setAllVals (gatherState c (fun i => shards.getD i [])) c.graphs with
            | .error f => .error f
            | .ok graphs1 => .ok ({ c with graphs := graphs1 }, shards1)) = res) →
      swapParams c shards = res := by
    intro res h
    unfold swapParams
    rw [if_neg (by omega)]
    split
    · rename_i hg
      rw [hg] at hL; simp at hL
    rename_i g0 rest hg
    have hg0 : g0.vals = V := hident g0 (by rw [hg]; exact List.mem_cons_self _ _)
    rw [← h g0 rest hg, hg0]
  refine ⟨?_, ?_, ?_⟩
  · intro hne
    apply hshape
    intro g0 rest _
    rw [if_pos hne]
  · rintro hsize ⟨i, shard, hi, hsh, hbad⟩
    apply hshape
    intro g0 rest _
    rw [if_neg (by simpa using hsize), scatterState_spec _ c V _ _ hN hranks hfitV,
      swap_loop_mismatch V _ _ (by omega) (fun i => Nat.min_le_right _ _) c.graphs.length 0
        shards
        (by
          intro j _ hj
          obtain ⟨x, hx⟩ := getElem?_of_lt_length shards j (by omega)
          have h1 := hfit x (List.getElem?_mem hx)
          have h2 := hb j (by omega)
          exact ⟨x, hx, by omega⟩)
        ⟨i, shard, Nat.zero_le _, by omega, hsh, by omega⟩]
  · intro hsize hall
    obtain ⟨c1, sh1, h⟩ := swapParams_exists c shards V hident hN hranks hfitV hlen hsize
      (by
        intro i hi
        obtain ⟨x, hx⟩ := getElem?_of_lt_length shards i (by omega)
        have := hall i x hi hx
        exact ⟨⟨x, hx, by omega⟩, by omega⟩)
    exact ⟨_, h⟩

/-- C14 on two devices of four parameters: the hypotheses hold; shard tensors
of sizes two and three gather to five values and the call aborts on line 288. -/
theorem C14_swapParams_aborts_on_size_mismatch_witness :
    (gatherState exSwapComm (fun i => [[10, 20], [30, 40, 50]].getD i [])).length ≠ 4 ∧
      swapParams exSwapComm [[10, 20], [30, 40, 50]] = .error .paramsSizeMismatch :=
  ⟨by decide,
    (C14_swapParams_aborts_on_size_mismatch exSwapComm [[10, 20], [30, 40, 50]] [1, 2, 3, 4]
      (by decide) (by decide) (by decide) (by decide) (by decide)).1 (by decide)⟩

/-! ## Theorems: BlockSignal -/

/-- C12, the code: between construction and destruction the signal is in the
mask, but the destructor calls the mask function with `SIG_BLOCK`, which adds
the saved mask to the current one, so after it the mask is the prior mask with
the signal added. Constructed for `SIG_BAD` on an empty mask, the object leaves
the signal blocked and the mask different from the prior mask. -/
theorem C12_BlockSignal_leaves_signal_blocked :
    (∀ (signal : Nat) (mask : Finset Nat),
      signal ∈ (BlockSignal.construct signal mask).2 ∧
      (BlockSignal.construct signal mask).1.destruct (BlockSignal.construct signal mask).2
        = insert signal mask) ∧
    (BlockSignal.construct SIG_BAD ∅).1.destruct (BlockSignal.construct SIG_BAD ∅).2 = {27} ∧
    (BlockSignal.construct SIG_BAD ∅).1.destruct (BlockSignal.construct SIG_BAD ∅).2 ≠ ∅ := by
  refine ⟨?_, ?_, ?_⟩
  · intro signal mask
    constructor
    · simp [BlockSignal.construct, sigMaskFn]
    · simp only [BlockSignal.construct, BlockSignal.destruct, sigMaskFn]
      ext x
      simp only [Finset.mem_union, Finset.mem_insert, Finset.not_mem_empty, or_false]
      tauto
  · decide
  · decide

/-! ## Theorems: the offsets of scatterState out of range -/

/-- C17, the code at a failing input: five values scattered over four devices
(no coordinator). The shard size is two; device 3 receives the iterators at
offsets 6 and 5: `begin` is past the end of the five values and `end` is
before `begin`. -/
theorem C17_scatterState_begin_past_end :
    numNcclRanks exFourDevices = 4 ∧
    scatterState exFourDevices [0, 1, 2, 3, 4] recordSetFn []
      = .ok [(0, 0, 2), (1, 2, 4), (2, 4, 5), (3, 6, 5)] ∧
    ¬ ((6 : Nat) ≤ 5 ∧ 5 ≤ [0, 1, 2, 3, 4].length) := by
  decide

/-! ## Theorems: launch configuration -/

/-- A loop over the devices whose step `i` replaces entry `i` of the state by
a function of that entry replaces every visited entry and leaves the others. -/
theorem forLoop_update {γ : Type} (step : Nat → List γ → Except Fault (List γ))
    (f : Nat → γ → γ) (Q : Nat → γ → Prop) (n k : Nat) (gs : List γ)
    (hstep : ∀ i (l : List γ) x, k ≤ i → i < k + n → l[i]? = some x → Q i x →
      step i l = .ok (l.set i (f i x)))
    (hQ : ∀ i, k ≤ i → i < k + n → ∃ x, gs[i]? = some x ∧ Q i x) :
    ∃ gs1, forLoop step n k gs = .ok gs1 ∧ gs1.length = gs.length ∧
      (∀ i x, k ≤ i → i < k + n → gs[i]? = some x → gs1[i]? = some (f i x)) ∧
      (∀ j, (j < k ∨ k + n ≤ j) → gs1[j]? = gs[j]?) := by
  induction n generalizing k gs with
  | zero =>
    exact ⟨gs, rfl, rfl, fun i x h1 h2 => by omega, fun _ _ => rfl⟩
  | succ n ih =>
    obtain ⟨xk, hxk, hqk⟩ := hQ k (Nat.le_refl _) (by omega)
    have hklt := lt_length_of_getElem? _ _ _ hxk
    have hs := hstep k gs xk (Nat.le_refl _) (by omega) hxk hqk
    obtain ⟨gs1, h1, h2, h3, h4⟩ := ih (k + 1) (gs.set k (f k xk))
      (fun i l x hi1 hi2 => hstep i l x (by omega) (by omega))
      (by
        intro i hi1 hi2
        obtain ⟨x, hx, hq⟩ := hQ i (by omega) (by omega)
        refine ⟨x, ?_, hq⟩
        rw [List.getElem?_set]
        have : ¬ k = i := by omega
        simpa [this] using hx)
    refine ⟨gs1, ?_, by rw [h2, List.length_set], ?_, ?_⟩
    · rw [forLoop, hs]
      exact h1
    · intro i x hi1 hi2 hx
      by_cases hik : i = k
      · subst hik
        rw [hxk] at hx
        simp only [Option.some.injEq] at hx
        subst hx
        rw [h4 i (Or.inl (by omega)), List.getElem?_set]
        simp [hklt]
      · apply h3 i x (by omega) (by omega)
        rw [List.getElem?_set]
        have : ¬ k = i := fun e => hik e.symm
        simpa [this] using hx
    · intro j hj
      rw [h4 j (by omega), List.getElem?_set]
      have : ¬ k = j := by omega
      simp [this]

/-- The shard range of a local device when `shardSize()` returns. -/
theorem localShardRange_ok (c : NCCLCommunicator α) (s : Nat) (hs : shardSize c = .ok s)
    (hranks : RanksFit c) (i : Nat) (hi : i < c.graphs.length) :
    localShardRange c i = .ok (myNcclRank c i * s, myNcclRank c i * s + s) ∧
      myNcclRank c i * s + s ≤ dataSize c := by
  obtain ⟨_, _, hp, _⟩ := shardSize_ok_inv c s hs
  have hr := myNcclRank_lt c hranks i hi
  have hle : myNcclRank c i * s + s ≤ dataSize c := by
    have h1 : (myNcclRank c i + 1) * s ≤ numNcclRanks c * s := Nat.mul_le_mul_right _ hr
    rw [Nat.add_mul, Nat.one_mul, Nat.mul_comm (numNcclRanks c), hp] at h1
    exact h1
  refine ⟨?_, hle⟩
  unfold localShardRange
  rw [ncclRankShardRange_ok c s hs _ (Or.inl hr), Nat.min_eq_left hle]

/-- What `scatterReduce()` does on one process with even shards, when NCCL
delivers `shardSize()` elements to every device: the gradients of device `i`
hold the delivered chunk in the shard range of the device and are unchanged
elsewhere. -/
theorem scatterReduce_ok (comms : Nat → NcclComm α) (c : NCCLCommunicator α) (s : Nat)
    (hs : shardSize c = .ok s) (hranks : RanksFit c)
    (hlen : ∀ g, g ∈ c.graphs → g.grads.length = dataSize c)
    (hrecv : ∀ i g, c.graphs[i]? = some g → ((comms i).reduceScatter g.grads s).length = s) :
    ∃ c1 : NCCLCommunicator α, scatterReduce comms c = .ok c1 ∧
      c1.graphs.length = c.graphs.length ∧
      ∀ (i : Nat) (g : ExpressionGraph α), c.graphs[i]? = some g →
        c1.graphs[i]? = some { g with grads :=
          (g.grads.take (myNcclRank c i * s) ++ (comms i).reduceScatter g.grads s
            ++ g.grads.drop (myNcclRank c i * s + s)) } := by
  obtain ⟨gs1, h1, h2, h3, _⟩ := forLoop_update (scatterReduceStep comms c)
    (fun i (g : ExpressionGraph α) => { g with grads :=
      (g.grads.take (myNcclRank c i * s) ++ (comms i).reduceScatter g.grads s
        ++ g.grads.drop (myNcclRank c i * s + s)) })
    (fun i g => c.graphs[i]? = some g) c.graphs.length 0 c.graphs
    (by
      intro i l g _ hi hl hq
      obtain ⟨hrange, hle⟩ := localShardRange_ok c s hs hranks i (by omega)
      have hgl := hlen g (List.getElem?_mem hq)
      have hrl := hrecv i g hq
      unfold scatterReduceStep
      rw [hrange, List.get?_eq_getElem?, hl, hs]
      simp only
      unfold writeAt
      rw [if_pos (by omega), hrl])
    (by
      intro i _ hi
      obtain ⟨x, hx⟩ := getElem?_of_lt_length c.graphs i (by omega)
      exact ⟨x, hx, hx⟩)
  refine ⟨{ c with graphs := gs1 }, ?_, h2, ?_⟩
  · unfold scatterReduce
    rw [h1]
  · intro i g hg
    exact h3 i g (Nat.zero_le _) (by have := lt_length_of_getElem? _ _ _ hg; omega) hg

/-- What `allGather()` does on one process with even shards, when NCCL
delivers as many elements as the parameter vector has: the parameters of
every device are the delivered vector. -/
theorem allGather_ok (comms : Nat → NcclComm α) (c : NCCLCommunicator α) (s : Nat)
    (hs : shardSize c = .ok s) (hranks : RanksFit c)
    (hlen : ∀ g, g ∈ c.graphs → g.vals.length = dataSize c)
    (hrecv : ∀ i g, c.graphs[i]? = some g →
      ((comms i).allGather (g.vals.drop (myNcclRank c i * s)) s).length = dataSize c) :
    ∃ c1 : NCCLCommunicator α, allGather comms c = .ok c1 ∧
      c1.graphs.length = c.graphs.length ∧
      ∀ (i : Nat) (g : ExpressionGraph α), c.graphs[i]? = some g →
        c1.graphs[i]? = some { g with vals :=
          ((comms i).allGather (g.vals.drop (myNcclRank c i * s)) s) } := by
  obtain ⟨gs1, h1, h2, h3, _⟩ := forLoop_update (allGatherStep comms c)
    (fun i (g : ExpressionGraph α) => { g with vals :=
      ((comms i).allGather (g.vals.drop (myNcclRank c i * s)) s) })
    (fun i g => c.graphs[i]? = some g) c.graphs.length 0 c.graphs
    (by
      intro i l g _ hi hl hq
      obtain ⟨hrange, hle⟩ := localShardRange_ok c s hs hranks i (by omega)
      have hgl := hlen g (List.getElem?_mem hq)
      have hrl := hrecv i g hq
      have hw : ∀ ch : List α, ch.length = dataSize c → writeAt g.vals 0 ch = .ok ch := by
        intro ch hch
        unfold writeAt
        rw [if_pos (by omega), List.drop_of_length_le (by omega)]
        simp
      unfold allGatherStep
      rw [hrange, List.get?_eq_getElem?, hl, hs]
      simp only
      rw [hw _ hrl])
    (by
      intro i _ hi
      obtain ⟨x, hx⟩ := getElem?_of_lt_length c.graphs i (by omega)
      exact ⟨x, hx, hx⟩)
  refine ⟨{ c with graphs := gs1 }, ?_, h2, ?_⟩
  · unfold allGather
    rw [h1]
  · intro i g hg
    exact h3 i g (Nat.zero_le _) (by have := lt_length_of_getElem? _ _ _ hg; omega) hg

theorem forEachProcess_ok (w w1 : World α) (run : Nat → Process α → Except Fault (Process α))
    (h : w.forEachProcess run = .ok w1) :
    w1.mpi = w.mpi ∧ w1.procs.length = w.procs.length ∧
    ∀ p proc, w.procs[p]? = some proc →
      ∃ proc1, run p proc = .ok proc1 ∧ w1.procs[p]? = some proc1 := by
  unfold World.forEachProcess at h
  split at h
  · simp at h
  rename_i procs1 hcol
  simp only [Except.ok.injEq] at h
  subst h
  rw [collect_eq_ok] at hcol
  refine ⟨rfl, ?_, ?_⟩
  · have := congrArg List.length hcol
    simp only [List.length_map, List.enum_length] at this
    exact this.symm
  · intro p proc hp
    have h2 := congrArg (fun l => l[p]?) hcol
    simp only [List.getElem?_map, List.getElem?_enum, hp, Option.map_some'] at h2
    cases hq : procs1[p]? with
    | none => rw [hq] at h2; simp at h2
    | some x =>
      rw [hq] at h2
      simp only [Option.map_some', Option.some.injEq] at h2
      exact ⟨x, h2, rfl⟩

theorem forEachProcess_exists (w : World α)
    (run : Nat → Process α → Except Fault (Process α))
    (h : ∀ p proc, w.procs[p]? = some proc → ∃ r, run p proc = .ok r) :
    ∃ w1, w.forEachProcess run = .ok w1 := by
  unfold World.forEachProcess
  obtain ⟨r, hr⟩ := collect_exists
    (w.procs.enum.map (fun (pp : Nat × Process α) => run pp.1 pp.2))
    (by
      intro x hx
      rw [List.mem_map] at hx
      obtain ⟨⟨p, proc⟩, hmem, rfl⟩ := hx
      rw [List.mk_mem_enum_iff_getElem?] at hmem
      exact h p proc hmem)
  rw [hr]
  exact ⟨_, rfl⟩

theorem mem_allGraphs (w : World α) (g : ExpressionGraph α) :
    g ∈ w.allGraphs ↔ ∃ proc, proc ∈ w.procs ∧ g ∈ proc.graphs := by
  unfold World.allGraphs
  rw [List.mem_flatMap]

theorem length_flatMap_graphs (procs : List (Process α)) (L : Nat)
    (hL : ∀ proc, proc ∈ procs → proc.graphs.length = L) :
    (procs.flatMap (fun proc => proc.graphs)).length = procs.length * L := by
  induction procs with
  | nil => simp
  | cons pr rest ih =>
    rw [List.flatMap_cons, List.length_append, ih (fun q hq => hL q (List.mem_cons_of_mem _ hq)),
      hL pr (List.mem_cons_self _ _), List.length_cons, Nat.succ_mul]
    omega

/-- In the list of all graphs in rank order, position `p * L + i` holds the
graph of device `i` of process `p`. -/
theorem getElem?_flatMap_graphs (procs : List (Process α)) (L : Nat)
    (hL : ∀ proc, proc ∈ procs → proc.graphs.length = L) (p i : Nat) (hi : i < L) :
    (procs.flatMap (fun proc => proc.graphs))[p * L + i]?
      = (procs[p]?).bind (fun proc => proc.graphs[i]?) := by
  induction procs generalizing p with
  | nil => simp
  | cons pr rest ih =>
    have hpr := hL pr (List.mem_cons_self _ _)
    rw [List.flatMap_cons]
    cases p with
    | zero =>
      rw [Nat.zero_mul, Nat.zero_add, List.getElem?_append_left (by omega)]
      simp
    | succ p =>
      rw [List.getElem?_append_right (by rw [hpr, Nat.succ_mul]; omega)]
      have hidx : (p + 1) * L + i - pr.graphs.length = p * L + i := by
        rw [hpr, Nat.succ_mul]; omega
      rw [hidx, ih (fun q hq => hL q (List.mem_cons_of_mem _ hq))]
      simp

theorem sum_map_eq_length {β : Type} (l : List β) (f : β → Nat) (h : ∀ x, x ∈ l → f x = 1) :
    (l.map f).sum = l.length := by
  induction l with
  | nil => rfl
  | cons a rest ih =>
    rw [List.map_cons, List.sum_cons, h a (List.mem_cons_self _ _),
      ih (fun x hx => h x (List.mem_cons_of_mem _ hx)), List.length_cons]
    omega

theorem flatMap_eq_replicate {β γ : Type} (l : List β) (g : β → List γ) (s : Nat) (a : γ)
    (h : ∀ x, x ∈ l → g x = List.replicate s a) :
    l.flatMap g = List.replicate (l.length * s) a := by
  induction l with
  | nil => simp
  | cons b rest ih =>
    rw [List.flatMap_cons, h b (List.mem_cons_self _ _),
      ih (fun x hx => h x (List.mem_cons_of_mem _ hx)), List.length_cons, Nat.succ_mul,
      Nat.add_comm, List.replicate_add]

/-- Reduce-scatter with sum on all-ones send buffers: every rank receives its
chunk filled with the number of ranks. -/
theorem ncclReduceScatterSum_ones (bufs : List (List Nat)) (D rank s : Nat)
    (hbufs : ∀ buf, buf ∈ bufs → buf = List.replicate D 1) (hin : rank * s + s ≤ D) :
    ncclReduceScatterSum bufs rank s = List.replicate s bufs.length := by
  unfold ncclReduceScatterSum
  have hconst : ∀ k, k ∈ List.range s →
      (bufs.map (fun buf => buf.getD (rank * s + k) 0)).sum = bufs.length := by
    intro k hk
    rw [List.mem_range] at hk
    apply sum_map_eq_length
    intro buf hbuf
    rw [hbufs buf hbuf, List.getD_eq_getElem?_getD,
      List.getElem?_eq_getElem (by rw [List.length_replicate]; omega)]
    simp
  rw [List.map_congr_left hconst]
  simp

/-- All-gather on send buffers that each start with `s` copies of `a`: every
rank receives `s` copies of `a` per rank. -/
theorem ncclAllGatherConcat_const (bufs : List (List Nat)) (s a : Nat)
    (hbufs : ∀ buf, buf ∈ bufs → buf.take s = List.replicate s a) :
    ncclAllGatherConcat bufs s = List.replicate (bufs.length * s) a := by
  unfold ncclAllGatherConcat
  exact flatMap_eq_replicate bufs _ s a hbufs

theorem slice_replicate_mid {β : Type} (b s : Nat) (x y : β) (rest : List β) :
    slice (List.replicate b x ++ List.replicate s y ++ rest) b (b + s)
      = List.replicate s y := by
  unfold slice
  rw [Nat.add_sub_cancel_left, List.append_assoc]
  have h1 : (List.replicate b x ++ (List.replicate s y ++ rest)).drop b
      = List.replicate s y ++ rest := by
    have := List.drop_left (List.replicate b x) (List.replicate s y ++ rest)
    rw [List.length_replicate] at this
    exact this
  rw [h1]
  have := List.take_left (List.replicate s y) rest
  rw [List.length_replicate] at this
  exact this

/-- The communicator of a process in a run where every process has `L ≥ 1`
devices, every parameter vector has `D` elements and the number of ranks
divides `D`: its shard size and ranks. -/
theorem world_shard_view (w : World α) (D L p : Nat) (proc : Process α)
    (hmpi : w.mpi = false → w.procs.length = 1) (hL : 1 ≤ L)
    (hdiv : D % (w.procs.length * L) = 0)
    (hfit : D + w.procs.length * L < SIZE_T_MOD)
    (hshape : ∀ q, q ∈ w.procs →
      q.graphs.length = L ∧ ∀ g, g ∈ q.graphs → g.vals.length = D)
    (hp : w.procs[p]? = some proc) :
    shardSize (w.comm p proc) = .ok (D / (w.procs.length * L)) ∧
      RanksFit (w.comm p proc) ∧ dataSize (w.comm p proc) = D ∧
      (w.comm p proc).graphs = proc.graphs ∧
      (∀ i, i < L → myNcclRank (w.comm p proc) i = p * L + i) ∧
      D / (w.procs.length * L) * (w.procs.length * L) = D := by
  obtain ⟨hnum, hranks, hrank, _⟩ := world_view w L p proc hmpi (by omega)
    (fun q hq => (hshape q hq).1) hp
  have hmem := List.getElem?_mem hp
  have hplt := lt_length_of_getElem? _ _ _ hp
  have hD : dataSize (w.comm p proc) = D := by
    unfold dataSize World.comm
    simp only
    obtain ⟨hlen, hvals⟩ := hshape proc hmem
    rcases hg : proc.graphs with _ | ⟨g0, rest⟩
    · rw [hg] at hlen; simp at hlen; omega
    · simp only
      exact hvals g0 (by rw [hg]; exact List.mem_cons_self _ _)
  have hNpos : 1 ≤ w.procs.length * L := Nat.mul_pos (by omega) hL
  have hs := shardSize_ok_of_dvd (w.comm p proc) (by rw [hnum]; exact hNpos)
    (by rw [hnum, hD]; exact hdiv) (by rw [hnum, hD]; omega)
  rw [hnum, hD] at hs
  exact ⟨hs, hranks, hD, rfl, hrank, Nat.div_mul_cancel (Nat.dvd_of_mod_eq_zero hdiv)⟩

/-- A run of `scatterReduce()` on gradients that are all one: it returns, and
the gradients of the device of rank `q` hold the number of ranks in the shard
of rank `q` and one elsewhere; the parameters are untouched. -/
theorem world_scatterReduce_ones (w : World Nat) (D L : Nat)
    (hmpi : w.mpi = false → w.procs.length = 1) (hL : 1 ≤ L)
    (hdiv : D % (w.procs.length * L) = 0)
    (hfit : D + w.procs.length * L < SIZE_T_MOD)
    (hones : ∀ proc, proc ∈ w.procs → proc.graphs.length = L ∧
      ∀ g, g ∈ proc.graphs → g.vals.length = D ∧ g.grads = List.replicate D 1) :
    ∃ w1, World.scatterReduce w = .ok w1 ∧ w1.mpi = w.mpi ∧
      w1.procs.length = w.procs.length ∧
      ∀ p proc, w.procs[p]? = some proc →
        ∃ proc1, w1.procs[p]? = some proc1 ∧ proc1.graphs.length = L ∧
          ∀ (i : Nat) (g : ExpressionGraph Nat), proc.graphs[i]? = some g →
            proc1.graphs[i]? = some { g with grads :=
              (List.replicate ((p * L + i) * (D / (w.procs.length * L))) 1
                ++ List.replicate (D / (w.procs.length * L)) (w.procs.length * L)
                ++ List.replicate
                  (D - ((p * L + i) * (D / (w.procs.length * L))
                    + D / (w.procs.length * L))) 1) } := by
  have hshape : ∀ q, q ∈ w.procs →
      q.graphs.length = L ∧ ∀ g, g ∈ q.graphs → g.vals.length = D :=
    fun q hq => ⟨(hones q hq).1, fun g hg => ((hones q hq).2 g hg).1⟩
  -- what one process does
  have hproc : ∀ p proc, w.procs[p]? = some proc →
      ∃ c1 : NCCLCommunicator Nat,
        scatterReduce (w.ncclComm p proc) (w.comm p proc) = .ok c1 ∧
        c1.graphs.length = L ∧
        ∀ (i : Nat) (g : ExpressionGraph Nat), proc.graphs[i]? = some g →
          c1.graphs[i]? = some { g with grads :=
            (List.replicate ((p * L + i) * (D / (w.procs.length * L))) 1
              ++ List.replicate (D / (w.procs.length * L)) (w.procs.length * L)
              ++ List.replicate
                (D - ((p * L + i) * (D / (w.procs.length * L))
                  + D / (w.procs.length * L))) 1) } := by
    intro p proc hp
    obtain ⟨hs, hranks, hD, hgraphs, hrank, hmul⟩ :=
      world_shard_view w D L p proc hmpi hL hdiv hfit hshape hp
    have hmem := List.getElem?_mem hp
    obtain ⟨hlen, hg1⟩ := hones proc hmem
    have hbufs : ∀ (i : Nat) (g : ExpressionGraph Nat), proc.graphs[i]? = some g →
        (w.ncclComm p proc i).reduceScatter g.grads (D / (w.procs.length * L))
          = List.replicate (D / (w.procs.length * L)) (w.procs.length * L) := by
      intro i g hg
      have hi := lt_length_of_getElem? _ _ _ hg
      obtain ⟨_, hle⟩ := localShardRange_ok _ _ hs hranks i (by rw [hgraphs]; exact hi)
      rw [hrank i (by omega), hD] at hle
      unfold World.ncclComm
      simp only
      rw [hlen, ncclReduceScatterSum_ones _ D _ _ _ hle, List.length_set, List.length_map]
      · unfold World.allGraphs
        rw [length_flatMap_graphs w.procs L (fun q hq => (hones q hq).1)]
      · intro buf hbuf
        rcases List.mem_or_eq_of_mem_set hbuf with h | h
        · rw [List.mem_map] at h
          obtain ⟨g2, hg2, rfl⟩ := h
          rw [mem_allGraphs] at hg2
          obtain ⟨q, hq, hgq⟩ := hg2
          exact ((hones q hq).2 g2 hgq).2
        · rw [h]; exact (hg1 g (List.getElem?_mem hg)).2
    obtain ⟨c1, h1, h2, h3⟩ := scatterReduce_ok (w.ncclComm p proc) (w.comm p proc) _ hs hranks
      (by
        intro g hg
        rw [hgraphs] at hg
        rw [(hg1 g hg).2, List.length_replicate, hD])
      (by
        intro i g hg
        rw [hgraphs] at hg
        rw [hbufs i g hg, List.length_replicate])
    refine ⟨c1, h1, by rw [h2, hgraphs, hlen], ?_⟩
    intro i g hg
    have hi := lt_length_of_getElem? _ _ _ hg
    have hgg := (hg1 g (List.getElem?_mem hg)).2
    rw [h3 i g (by rw [hgraphs]; exact hg), hbufs i g hg, hrank i (by omega), hgg,
      List.take_replicate, List.drop_replicate]
    obtain ⟨_, hle⟩ := localShardRange_ok _ _ hs hranks i (by rw [hgraphs]; exact hi)
    rw [hrank i (by omega), hD] at hle
    rw [Nat.min_eq_left (Nat.le_trans (Nat.le_add_right _ _) hle)]
  -- the run of all processes
  obtain ⟨w1, hw1⟩ := forEachProcess_exists w
    (fun p proc =>
      match marian.scatterReduce (w.ncclComm p proc) (w.comm p proc) with
      | .error f => .error f
      | .ok c1 => .ok { proc with graphs := c1.graphs })
    (by
      intro p proc hp
      obtain ⟨c1, h1, _⟩ := hproc p proc hp
      simp only [h1]
      exact ⟨_, rfl⟩)
  obtain ⟨hm, hlen1, hall⟩ := forEachProcess_ok w w1 _ hw1
  refine ⟨w1, hw1, hm, hlen1, ?_⟩
  intro p proc hp
  obtain ⟨proc1, hrun, hp1⟩ := hall p proc hp
  obtain ⟨c1, h1, h2, h3⟩ := hproc p proc hp
  simp only [h1, Except.ok.injEq] at hrun
  subst hrun
  exact ⟨_, hp1, h2, h3⟩

/-- A run of `allGather()` on parameter vectors of which the device of every
rank `q` holds `a` throughout the shard of rank `q`: it returns, and every
parameter vector of every device is filled with `a`. -/
theorem world_allGather_const (w : World Nat) (D L a : Nat)
    (hmpi : w.mpi = false → w.procs.length = 1) (hL : 1 ≤ L)
    (hdiv : D % (w.procs.length * L) = 0)
    (hfit : D + w.procs.length * L < SIZE_T_MOD)
    (hshape : ∀ q, q ∈ w.procs →
      q.graphs.length = L ∧ ∀ g, g ∈ q.graphs → g.vals.length = D)
    (hshard : ∀ (q : Nat) (g : ExpressionGraph Nat), w.allGraphs[q]? = some g →
      slice g.vals (q * (D / (w.procs.length * L)))
          (q * (D / (w.procs.length * L)) + D / (w.procs.length * L))
        = List.replicate (D / (w.procs.length * L)) a) :
    ∃ w3, World.allGather w = .ok w3 ∧ w3.procs.length = w.procs.length ∧
      ∀ proc3, proc3 ∈ w3.procs →
        proc3.graphs.length = L ∧ ∀ g, g ∈ proc3.graphs → g.vals = List.replicate D a := by
  have hshard2 : ∀ (q : Nat) (g : ExpressionGraph Nat), w.allGraphs[q]? = some g →
      (g.vals.drop (q * (D / (w.procs.length * L)))).take (D / (w.procs.length * L))
        = List.replicate (D / (w.procs.length * L)) a := by
    intro q g hg
    have := hshard q g hg
    unfold slice at this
    rw [Nat.add_sub_cancel_left] at this
    exact this
  have hproc : ∀ p proc, w.procs[p]? = some proc →
      ∃ c1 : NCCLCommunicator Nat,
        allGather (w.ncclComm p proc) (w.comm p proc) = .ok c1 ∧
        c1.graphs.length = L ∧ ∀ g, g ∈ c1.graphs → g.vals = List.replicate D a := by
    intro p proc hp
    obtain ⟨hs, hranks, hD, hgraphs, hrank, hmul⟩ :=
      world_shard_view w D L p proc hmpi hL hdiv hfit hshape hp
    have hmem := List.getElem?_mem hp
    obtain ⟨hlen, hvals⟩ := hshape proc hmem
    have hbufs : ∀ (i : Nat) (g : ExpressionGraph Nat), proc.graphs[i]? = some g →
        (w.ncclComm p proc i).allGather
            (g.vals.drop (myNcclRank (w.comm p proc) i * (D / (w.procs.length * L))))
            (D / (w.procs.length * L))
          = List.replicate D a := by
      intro i g hg
      have hi := lt_length_of_getElem? _ _ _ hg
      have hown : w.allGraphs[p * L + i]? = some g := by
        unfold World.allGraphs
        rw [getElem?_flatMap_graphs w.procs L (fun q hq => (hshape q hq).1) p i (by omega), hp]
        exact hg
      unfold World.ncclComm
      simp only
      rw [hrank i (by omega), hlen,
        ncclAllGatherConcat_const _ (D / (w.procs.length * L)) a, List.length_set,
        List.length_map, List.enum_length]
      · unfold World.allGraphs
        rw [length_flatMap_graphs w.procs L (fun q hq => (hshape q hq).1),
          Nat.mul_comm, hmul]
      · intro buf hbuf
        rcases List.mem_or_eq_of_mem_set hbuf with h | h
        · rw [List.mem_map] at h
          obtain ⟨⟨q, g2⟩, hqg, rfl⟩ := h
          rw [List.mk_mem_enum_iff_getElem?] at hqg
          exact hshard2 q g2 hqg
        · rw [h]; exact hshard2 _ g hown
    obtain ⟨c1, h1, h2, h3⟩ := allGather_ok (w.ncclComm p proc) (w.comm p proc) _ hs hranks
      (by
        intro g hg
        rw [hgraphs] at hg
        rw [hvals g hg, hD])
      (by
        intro i g hg
        rw [hgraphs] at hg
        rw [hbufs i g hg, List.length_replicate, hD])
    refine ⟨c1, h1, by rw [h2, hgraphs, hlen], ?_⟩
    intro g1 hg1
    obtain ⟨i, hi1⟩ := List.mem_iff_getElem?.1 hg1
    have hi := lt_length_of_getElem? _ _ _ hi1
    obtain ⟨g, hg⟩ := getElem?_of_lt_length proc.graphs i (by rw [h2, hgraphs] at hi; exact hi)
    rw [h3 i g (by rw [hgraphs]; exact hg), hbufs i g hg] at hi1
    simp only [Option.some.injEq] at hi1
    rw [← hi1]
  obtain ⟨w3, hw3⟩ := forEachProcess_exists w
    (fun p proc =>
      match marian.allGather (w.ncclComm p proc) (w.comm p proc) with
      | .error f => .error f
      | .ok c1 => .ok { proc with graphs := c1.graphs })
    (by
      intro p proc hp
      obtain ⟨c1, h1, _⟩ := hproc p proc hp
      simp only [h1]
      exact ⟨_, rfl⟩)
  obtain ⟨_, hlen3, hall⟩ := forEachProcess_ok w w3 _ hw3
  refine ⟨w3, hw3, hlen3, ?_⟩
  intro proc3 hmem3
  obtain ⟨p, hp3⟩ := List.mem_iff_getElem?.1 hmem3
  have hplt := lt_length_of_getElem? _ _ _ hp3
  obtain ⟨proc, hp⟩ := getElem?_of_lt_length w.procs p (by omega)
  obtain ⟨proc1, hrun, hp1⟩ := hall p proc hp
  obtain ⟨c1, h1, h2, h3⟩ := hproc p proc hp
  simp only [h1, Except.ok.injEq] at hrun
  rw [hp3] at hp1
  simp only [Option.some.injEq] at hp1
  subst hp1
  subst hrun
  exact ⟨h2, h3⟩

/-- C15, as the code has it. In a run where every device holds gradients that
are all one (`P` processes of `L` devices, `N = P * L` ranks, `N` divides the
size `D`, sizes that fit `size_t`), with `ncclReduceScatter` the element-wise
sum over the ranks and `ncclAllGather` the concatenation in rank order:
`scatterReduce()` returns and leaves `N` throughout the own shard of the
gradient buffer of every device; and for a run of the same shape whose
parameter buffers hold, in the own shard of every device, that reduced
gradient shard (the state after the local update between the two calls),
`allGather()` returns and leaves on every device a parameter buffer in which
every element is `N`. -/
theorem C15_scatterReduce_update_allGather (w w2 : World Nat) (D L : Nat)
    (hmpi : w.mpi = false → w.procs.length = 1) (hL : 1 ≤ L)
    (hdiv : D % (w.procs.length * L) = 0)
    (hfit : D + w.procs.length * L < SIZE_T_MOD)
    (hones : ∀ proc, proc ∈ w.procs → proc.graphs.length = L ∧
      ∀ g, g ∈ proc.graphs → g.vals.length = D ∧ g.grads = List.replicate D 1)
    (hmpi2 : w2.mpi = w.mpi) (hlen2 : w2.procs.length = w.procs.length)
    (hshape2 : ∀ proc, proc ∈ w2.procs → proc.graphs.length = L ∧
      ∀ g, g ∈ proc.graphs → g.vals.length = D) :
    ∃ w1, World.scatterReduce w = .ok w1 ∧
      w1.allGraphs.length = w.procs.length * L ∧
      (∀ (q : Nat) (g1 : ExpressionGraph Nat), w1.allGraphs[q]? = some g1 →
        slice g1.grads (q * (D / (w.procs.length * L)))
            (q * (D / (w.procs.length * L)) + D / (w.procs.length * L))
          = List.replicate (D / (w.procs.length * L)) (w.procs.length * L)) ∧
      ((∀ (q : Nat) (g2 : ExpressionGraph Nat), w2.allGraphs[q]? = some g2 →
          ∃ g1, w1.allGraphs[q]? = some g1 ∧
            slice g2.vals (q * (D / (w.procs.length * L)))
                (q * (D / (w.procs.length * L)) + D / (w.procs.length * L))
              = slice g1.grads (q * (D / (w.procs.length * L)))
                (q * (D / (w.procs.length * L)) + D / (w.procs.length * L))) →
        ∃ w3, World.allGather w2 = .ok w3 ∧ w3.procs.length = w.procs.length ∧
          ∀ proc3, proc3 ∈ w3.procs → proc3.graphs.length = L ∧
            ∀ g, g ∈ proc3.graphs → g.vals = List.replicate D (w.procs.length * L)) := by
  obtain ⟨w1, hw1, _, hlen1, hall⟩ := world_scatterReduce_ones w D L hmpi hL hdiv hfit hones
  have hL1 : ∀ proc1, proc1 ∈ w1.procs → proc1.graphs.length = L := by
    intro proc1 hmem
    obtain ⟨p, hp1⟩ := List.mem_iff_getElem?.1 hmem
    have hplt := lt_length_of_getElem? _ _ _ hp1
    obtain ⟨proc, hp⟩ := getElem?_of_lt_length w.procs p (by omega)
    obtain ⟨proc1b, hq, hl, _⟩ := hall p proc hp
    rw [hp1] at hq
    simp only [Option.some.injEq] at hq
    subst hq
    exact hl
  have hlenAll : w1.allGraphs.length = w.procs.length * L := by
    unfold World.allGraphs
    rw [length_flatMap_graphs w1.procs L hL1, hlen1]
  have hreduced : ∀ (q : Nat) (g1 : ExpressionGraph Nat), w1.allGraphs[q]? = some g1 →
      slice g1.grads (q * (D / (w.procs.length * L)))
          (q * (D / (w.procs.length * L)) + D / (w.procs.length * L))
        = List.replicate (D / (w.procs.length * L)) (w.procs.length * L) := by
    intro q g1 hg1
    have hq := lt_length_of_getElem? _ _ _ hg1
    rw [hlenAll] at hq
    obtain ⟨hp, hi, hpi⟩ := rank_decompose _ _ q hq
    obtain ⟨proc, hproc⟩ := getElem?_of_lt_length w.procs (q / L) hp
    obtain ⟨proc1, hproc1, _, hgr⟩ := hall (q / L) proc hproc
    obtain ⟨g, hg⟩ := getElem?_of_lt_length proc.graphs (q % L)
      (by rw [(hones proc (List.getElem?_mem hproc)).1]; exact hi)
    have hidx := getElem?_flatMap_graphs w1.procs L hL1 (q / L) (q % L) hi
    rw [hpi, hproc1] at hidx
    simp only [Option.some_bind] at hidx
    unfold World.allGraphs at hg1
    rw [hidx, hgr (q % L) g hg, hpi] at hg1
    simp only [Option.some.injEq] at hg1
    rw [← hg1]
    exact slice_replicate_mid _ _ _ _ _
  refine ⟨w1, hw1, hlenAll, hreduced, ?_⟩
  intro hupd
  have h3 := world_allGather_const w2 D L (w.procs.length * L)
    (by rw [hmpi2, hlen2]; exact hmpi) hL (by rw [hlen2]; exact hdiv)
    (by rw [hlen2]; exact hfit) hshape2
    (by
      rw [hlen2]
      intro q g2 hg2
      obtain ⟨g1, hg1, heq⟩ := hupd q g2 hg2
      rw [heq]
      exact hreduced q g1 hg1)
  rw [hlen2] at h3
  exact h3

/-- C15 on one process with two devices and four elements: the hypotheses
hold (`exOnesWorldUpdated` has the shape of `exOnesWorld`). -/
theorem C15_scatterReduce_update_allGather_witness :
    ∃ w1, World.scatterReduce exOnesWorld = .ok w1 ∧
      w1.allGraphs.length = 1 * 2 ∧
      (∀ (q : Nat) (g1 : ExpressionGraph Nat), w1.allGraphs[q]? = some g1 →
        slice g1.grads (q * (4 / (1 * 2))) (q * (4 / (1 * 2)) + 4 / (1 * 2))
          = List.replicate (4 / (1 * 2)) (1 * 2)) ∧
      ((∀ (q : Nat) (g2 : ExpressionGraph Nat), exOnesWorldUpdated.allGraphs[q]? = some g2 →
          ∃ g1, w1.allGraphs[q]? = some g1 ∧
            slice g2.vals (q * (4 / (1 * 2))) (q * (4 / (1 * 2)) + 4 / (1 * 2))
              = slice g1.grads (q * (4 / (1 * 2))) (q * (4 / (1 * 2)) + 4 / (1 * 2))) →
        ∃ w3, World.allGather exOnesWorldUpdated = .ok w3 ∧ w3.procs.length = 1 ∧
          ∀ proc3, proc3 ∈ w3.procs → proc3.graphs.length = 2 ∧
            ∀ g, g ∈ proc3.graphs → g.vals = List.replicate 4 (1 * 2)) :=
  C15_scatterReduce_update_allGather exOnesWorld exOnesWorldUpdated 4 2
    (by decide) (by decide) (by decide) (by decide) (by decide)
    rfl rfl (by decide)

/-- C15 as stated fails: on one process with two devices, gradients all one
and parameters all zero, `scatterReduce()` followed by `allGather()` returns
with parameter buffers that are all zero, not all two: `scatterReduce()`
writes the gradient buffers and `allGather()` gathers the parameter buffers. -/
theorem C15_scatterReduce_allGather_counterexample :
    (World.scatterReduce exOnesWorld).bind World.allGather
      = .ok { mpi := false
              procs := [ { graphs := [ { vals := [0, 0, 0, 0], grads := [2, 2, 1, 1] },
                                       { vals := [0, 0, 0, 0], grads := [1, 1, 2, 2] } ]
                           shards := [] } ] } ∧
    World.allGather exOnesWorldUpdated
      = .ok { mpi := false
              procs := [ { graphs := [ { vals := [2, 2, 2, 2], grads := [2, 2, 1, 1] },
                                       { vals := [2, 2, 2, 2], grads := [1, 1, 2, 2] } ]
                           shards := [] } ] } ∧
    ([0, 0, 0, 0] : List Nat) ≠ List.replicate 4 2 := by
  refine ⟨?_, ?_, ?_⟩
  · decide
  · decide
  · decide

end marian
